import Mathlib

/-!
A verification development for a liquid-sort puzzle engine written in Rust.

The Rust sources are shallowly embedded below:

* `model.rs`: `FluidPacket`, `FluidContainer` (the pouring algebra), and
  `GameState` (aggregation, canonical equality, text codec).
* `solver.rs`: the solvability oracle (`fast_is_definitely_unsolvable`,
  `fast_is_maybe_solvable`, `is_solvable` with subset enumeration,
  forced-choice propagation and backtracking) and the shuffler.

Machine integers (`usize`/`isize`) are modelled as `Nat`/`Int`, with explicit
saturation or checked bounds where the Rust code relies on them.  Sites where
the Rust code could panic or wrap on arithmetic underflow, or panic on a
failed `unwrap`, are instrumented with `Option`: a `none` result marks the
fault.  Hash maps and hash sets are modelled as association lists and
`Finset`s; the Rust iteration order is unspecified, and the embedding fixes
one concrete order (insertion order).
-/

namespace WaterSort

/-! ## Machine-integer helpers -/

def USIZE_MAX : Nat := 2 ^ 64 - 1

def ISIZE_MIN : Int := -(2 ^ 63)

def ISIZE_MAX : Int := 2 ^ 63 - 1

/-- `usize::checked_mul`. -/
def checked_mul (a b : Nat) : Option Nat :=
  if a * b ≤ USIZE_MAX then some (a * b) else none

/-- `usize::checked_add`. -/
def checked_add (a b : Nat) : Option Nat :=
  if a + b ≤ USIZE_MAX then some (a + b) else none

/-- `usize::checked_sub`. -/
def checked_sub (a b : Nat) : Option Nat :=
  if b ≤ a then some (a - b) else none

/-- `usize::saturating_add`. -/
def saturating_add_usize (a b : Nat) : Nat := min (a + b) USIZE_MAX

/-! ## ASCII helpers (mirroring `char` methods used by `model.rs`) -/

def isAsciiUpperLetter (c : Char) : Bool := 'A' ≤ c && c ≤ 'Z'

def isAsciiLowerLetter (c : Char) : Bool := 'a' ≤ c && c ≤ 'z'

/-- `char::is_ascii_alphabetic`. -/
def isAsciiAlphabetic (c : Char) : Bool := isAsciiUpperLetter c || isAsciiLowerLetter c

/-- `char::to_ascii_uppercase`. -/
def toAsciiUppercase (c : Char) : Char :=
  if isAsciiLowerLetter c then Char.ofNat (c.toNat - 32) else c

/-- `str::trim`, on the character list view of a string. -/
def trimChars (s : List Char) : List Char :=
  ((s.dropWhile Char.isWhitespace).reverse.dropWhile Char.isWhitespace).reverse

/-! ## `FluidPacket` (`model.rs`) -/

inductive FluidPacket : Type
  | Empty : FluidPacket
  | Fluid : (color_id : Nat) → FluidPacket
deriving DecidableEq, Repr

namespace FluidPacket

/-- `FluidPacket::is_empty`. -/
def is_empty : FluidPacket → Bool
  | .Empty => true
  | .Fluid _ => false

/-- `FluidPacket::get_color_id`. -/
def get_color_id : FluidPacket → Option Nat
  | .Empty => none
  | .Fluid id => some id

/-- `FluidPacket::letter_to_color_id`: a single letter A-Z (case-insensitive)
to a 0-based id. -/
def letter_to_color_id (ch : Char) : Option Nat :=
  if isAsciiAlphabetic ch then some ((toAsciiUppercase ch).toNat - 'A'.toNat) else none

/-- The accumulator loop of `FluidPacket::letters_to_color_id`, using
checked `usize` arithmetic. -/
def lettersGo (acc : Nat) : List Char → Option Nat
  | [] => some acc
  | ch :: rest => do
    let digit ← letter_to_color_id ch
    let m ← checked_mul acc 26
    let a ← checked_add m (digit + 1)
    lettersGo a rest

/-- `FluidPacket::letters_to_color_id`: Excel-style base-26 numbering,
`A = 0, ..., Z = 25, AA = 26, ...`; `none` for the empty string, a
non-letter character, or `usize` overflow. -/
def letters_to_color_id (s : List Char) : Option Nat :=
  if s = [] then none
  else do
    let acc ← lettersGo 0 s
    checked_sub acc 1

/-- `FluidPacket::new_from_repr`: trim, then `"."`/empty decodes to `Empty`;
otherwise decode the letter sequence, falling back to `Empty`. -/
def new_from_repr (repr : List Char) : FluidPacket :=
  let s := trimChars repr
  if s = [] || s = ['.'] then .Empty
  else
    match letters_to_color_id s with
    | some id => .Fluid id
    | none => .Empty

/-- The digit-emitting loop of `FluidPacket::get_letter_representation`
(least-significant letter first; the caller reverses).  The loop variable
strictly decreases (`(id - 1) / 26 < id`), so running it with fuel equal to
the starting value is exact; the fuel only makes the recursion structural. -/
def letterRepGo : Nat → Nat → List Char
  | _, 0 => []
  | 0, _ + 1 => []
  | fuel + 1, n + 1 => Char.ofNat ('A'.toNat + n % 26) :: letterRepGo fuel (n / 26)

/-- The digits emitted by the representation loop started at `m`. -/
def letterRepDigits (m : Nat) : List Char := letterRepGo m m

/-- `FluidPacket::get_letter_representation`: `"."` for `Empty`, otherwise
the Excel-style letter string of the color id. -/
def get_letter_representation : FluidPacket → List Char
  | .Empty => ['.']
  | .Fluid id => (letterRepDigits (id + 1)).reverse

end FluidPacket

/-- The derived `Ord` on `FluidPacket` (`Empty` before any `Fluid`; `Fluid`
by color id), as a non-strict Boolean comparison. -/
def packetLe (p q : FluidPacket) : Bool :=
  match p, q with
  | .Empty, _ => true
  | .Fluid _, .Empty => false
  | .Fluid a, .Fluid b => a ≤ b

/-- Lexicographic order on packet vectors: the derived `Ord` on
`Vec<FluidPacket>` used by `impl Ord for FluidContainer`. -/
def packetsLe : List FluidPacket → List FluidPacket → Bool
  | [], _ => true
  | _ :: _, [] => false
  | p :: ps, q :: qs => if p = q then packetsLe ps qs else packetLe p q

/-! ## `FluidContainer` (`model.rs`) -/

structure FluidContainer : Type where
  packets : List FluidPacket
  capacity : Nat
deriving DecidableEq, Repr

/-- `impl Ord for FluidContainer`: compare the packet vectors only (the
capacity field is ignored by the ordering). -/
def containerLe (a b : FluidContainer) : Bool := packetsLe a.packets b.packets

/-- Replace the first `Empty` slot by `p`; `none` if no slot is empty
(the loop inside `FluidContainer::add_fluid`). -/
def setFirstEmpty (p : FluidPacket) : List FluidPacket → Option (List FluidPacket)
  | [] => none
  | q :: rest =>
    if q.is_empty then some (p :: rest)
    else
      match setFirstEmpty p rest with
      | some rest2 => some (q :: rest2)
      | none => none

/-- Blank out the first `Fluid` slot of a (reversed) packet list and return
its color (the loop inside `FluidContainer::pop_fluid`, which walks the
vector from the top). -/
def popFirstFluid : List FluidPacket → Option (Nat × List FluidPacket)
  | [] => none
  | FluidPacket.Fluid id :: rest => some (id, FluidPacket.Empty :: rest)
  | FluidPacket.Empty :: rest =>
    match popFirstFluid rest with
    | some (id, rest2) => some (id, FluidPacket.Empty :: rest2)
    | none => none

/-- `get_top_fluid_depth`'s scan over the reversed packet vector: skip
empties, then count the contiguous same-color run. -/
def topDepthAux : List FluidPacket → Nat
  | [] => 0
  | FluidPacket.Empty :: rest => topDepthAux rest
  | FluidPacket.Fluid id :: rest =>
    1 + (rest.takeWhile (fun p => p == FluidPacket.Fluid id)).length

namespace FluidContainer

/-- `FluidContainer::new`. -/
def new (capacity : Nat) : FluidContainer :=
  { packets := List.replicate capacity FluidPacket.Empty, capacity := capacity }

/-- `FluidContainer::is_full`. -/
def is_full (c : FluidContainer) : Bool := c.packets.all (fun p => !p.is_empty)

/-- `FluidContainer::is_empty`. -/
def is_empty (c : FluidContainer) : Bool := c.packets.all (fun p => p.is_empty)

/-- `FluidContainer::get_empty_space`. -/
def get_empty_space (c : FluidContainer) : Nat :=
  (c.packets.filter (fun p => p.is_empty)).length

/-- `FluidContainer::get_capacity`. -/
def get_capacity (c : FluidContainer) : Nat := c.capacity

/-- `FluidContainer::get_filled_amount` (`capacity - empty_space`; `usize`
subtraction, modelled by truncated `Nat` subtraction — in well-formed
containers the capacity field equals the slot count, so it never truncates). -/
def get_filled_amount (c : FluidContainer) : Nat := c.get_capacity - c.get_empty_space

/-- `FluidContainer::get_top_fluid`. -/
def get_top_fluid (c : FluidContainer) : FluidPacket :=
  match c.packets.reverse.find? (fun p => !p.is_empty) with
  | some p => p
  | none => FluidPacket.Empty

/-- `FluidContainer::get_top_fluid_depth`. -/
def get_top_fluid_depth (c : FluidContainer) : Nat := topDepthAux c.packets.reverse

/-- `FluidContainer::add_fluid`. -/
def add_fluid (c : FluidContainer) (p : FluidPacket) : Bool × FluidContainer :=
  match setFirstEmpty p c.packets with
  | some ps => (true, { c with packets := ps })
  | none => (false, c)

/-- `FluidContainer::push_fluid`. -/
def push_fluid (c : FluidContainer) (p : FluidPacket) : Bool × FluidContainer :=
  if c.is_empty || c.get_top_fluid == p then c.add_fluid p else (false, c)

/-- `FluidContainer::pop_fluid`. -/
def pop_fluid (c : FluidContainer) : FluidPacket × FluidContainer :=
  match popFirstFluid c.packets.reverse with
  | some (id, rev2) => (FluidPacket.Fluid id, { c with packets := rev2.reverse })
  | none => (FluidPacket.Empty, c)

/-- `FluidContainer::get_pourable_amount`. -/
def get_pourable_amount (c other : FluidContainer) : Nat :=
  if (c.get_top_fluid != other.get_top_fluid) && !other.is_empty then 0
  else min c.get_top_fluid_depth other.get_empty_space

/-- The transfer loop shared by `pour_into` (pop then `push_fluid`). -/
def pourLoop : Nat → FluidContainer → FluidContainer → FluidContainer × FluidContainer
  | 0, a, b => (a, b)
  | n + 1, a, b =>
    let pa := a.pop_fluid
    let rb := b.push_fluid pa.1
    pourLoop n pa.2 rb.2

/-- `FluidContainer::pour_into`: returns the success flag and the two
updated containers. -/
def pour_into (a b : FluidContainer) : Bool × FluidContainer × FluidContainer :=
  let t := a.get_pourable_amount b
  if t = 0 then (false, a, b)
  else
    let ab := pourLoop t a b
    (true, ab.1, ab.2)

/-- `FluidContainer::get_reverse_pourable_amount`.  The `self_depth -= 1`
in the source is a `usize` decrement; it is modelled by truncated `Nat`
subtraction (for well-formed containers the branch is only taken with
`self_depth ≥ 1`). -/
def get_reverse_pourable_amount (a b : FluidContainer) : Nat :=
  let space := b.get_empty_space
  let d := a.get_top_fluid_depth
  let d2 := if d ≠ a.get_filled_amount then d - 1 else d
  min space d2

/-- The transfer loop of `reverse_pour_into` (pop then `add_fluid`). -/
def revPourLoop : Nat → FluidContainer → FluidContainer → FluidContainer × FluidContainer
  | 0, a, b => (a, b)
  | n + 1, a, b =>
    let pa := a.pop_fluid
    let rb := b.add_fluid pa.1
    revPourLoop n pa.2 rb.2

/-- `FluidContainer::reverse_pour_into`. -/
def reverse_pour_into (a b : FluidContainer) (amount : Nat) :
    Bool × FluidContainer × FluidContainer :=
  let t := min (a.get_reverse_pourable_amount b) amount
  if t = 0 then (false, a, b)
  else
    let ab := revPourLoop t a b
    (true, ab.1, ab.2)

/-- `FluidContainer::resize`. -/
def resize (c : FluidContainer) (new_capacity : Nat) : FluidContainer :=
  if new_capacity > c.capacity then
    { packets := c.packets ++ List.replicate (new_capacity - c.capacity) FluidPacket.Empty,
      capacity := new_capacity }
  else if new_capacity < c.capacity then
    { packets := c.packets.take new_capacity, capacity := new_capacity }
  else
    { c with capacity := new_capacity }

/-- `FluidContainer::change_capacity` (`isize` delta; `wrapping_abs` then
saturating `usize` arithmetic). -/
def change_capacity (c : FluidContainer) (delta : Int) : FluidContainer :=
  let new_capacity :=
    if delta < 0 then c.capacity - (-delta).toNat
    else saturating_add_usize c.capacity delta.toNat
  c.resize new_capacity

end FluidContainer

/-- The token list extracted by `FluidContainer::new_from_repr`: split on
commas (skipping empty tokens) when a comma is present, otherwise one token
per character. -/
def containerTokens (repr : List Char) : List (List Char) :=
  if repr.contains ',' then (repr.splitOn ',').filter (fun t => t ≠ [])
  else repr.map (fun ch => [ch])

namespace FluidContainer

/-- `FluidContainer::new_from_repr`: parse tokens, then front-load the
non-empty packets; capacity is the packet count. -/
def new_from_repr (repr : List Char) : FluidContainer :=
  let packets := (containerTokens repr).map FluidPacket.new_from_repr
  let non_empty := packets.filter (fun p => !p.is_empty)
  let empty_count := packets.length - non_empty.length
  let packets2 := non_empty ++ List.replicate empty_count FluidPacket.Empty
  { packets := packets2, capacity := packets2.length }

/-- `FluidContainer::get_text_representation`: letter representation per
packet, comma-joined iff some representation is multi-character. -/
def get_text_representation (c : FluidContainer) : List Char :=
  let repr := c.packets.map FluidPacket.get_letter_representation
  let has_multi_char := repr.any (fun s => s.length > 1)
  if has_multi_char then List.intercalate [','] repr else repr.flatten

end FluidContainer

/-! ## `GameState` (`model.rs`), moves, and the shuffler (`solver.rs`) -/

structure MoveAction : Type where
  from_container : Nat
  to_container : Nat
  amount : Nat
deriving DecidableEq, Repr

structure GameState : Type where
  fluid_containers : List FluidContainer
deriving DecidableEq, Repr

/-- `str::lines`: split on newlines and strip a trailing carriage return from
each line.  (Unlike Rust, a trailing newline yields one extra empty line
here; `GameState::new_from_repr` discards empty lines either way, so the
difference is not observable through it.) -/
def linesOf (s : List Char) : List (List Char) :=
  (s.splitOn '\n').map (fun l => if l.getLast? = some '\r' then l.dropLast else l)

/-- Association-list increment: find the entry for `id` and bump its count,
or append `(id, 1)`.  This is both the `Vec<(usize, usize)>` update inside
`GameState::get_available_colors_with_count` and the `HashMap` entry
increment used for size tallies (with insertion order fixed). -/
def bumpCount (acc : List (Nat × Nat)) (id : Nat) : List (Nat × Nat) :=
  match acc with
  | [] => [(id, 1)]
  | (c, n) :: rest => if c = id then (c, n + 1) :: rest else (c, n) :: bumpCount rest id

/-- Tally a list of numbers into `(value, multiplicity)` pairs, in order of
first occurrence. -/
def tallyNat (l : List Nat) : List (Nat × Nat) := l.foldl bumpCount []

/-- `HashMap::get(...).unwrap_or(&0)` on an association list. -/
def lookupD (m : List (Nat × Nat)) (k : Nat) : Nat := (m.lookup k).getD 0

namespace GameState

/-- `GameState::new_from_repr`: one container per line, skipping containers
of capacity 0. -/
def new_from_repr (repr : List Char) : GameState :=
  { fluid_containers :=
      ((linesOf repr).map FluidContainer.new_from_repr).filter
        (fun c => c.get_capacity ≠ 0) }

/-- `GameState::get_text_representation`: newline-joined container
representations. -/
def get_text_representation (g : GameState) : List Char :=
  List.intercalate ['\n'] (g.fluid_containers.map FluidContainer.get_text_representation)

/-- `GameState::get_available_colors_with_count`. -/
def get_available_colors_with_count (g : GameState) : List (Nat × Nat) :=
  g.fluid_containers.foldl
    (fun acc c =>
      c.packets.foldl
        (fun acc2 p =>
          match p with
          | FluidPacket.Fluid id => bumpCount acc2 id
          | FluidPacket.Empty => acc2)
        acc)
    []

/-- `GameState::get_empty_spaces_count`. -/
def get_empty_spaces_count (g : GameState) : Nat :=
  (g.fluid_containers.map (fun c => c.get_empty_space)).sum

/-- `GameState::get_container_sizes` (ascending sort). -/
def get_container_sizes (g : GameState) : List Nat :=
  List.insertionSort (fun a b => a ≤ b) (g.fluid_containers.map (fun c => c.get_capacity))

/-- `GameState::get_sorted_containers`: a stable sort of the containers by
the packet-vector order (`impl Ord for FluidContainer` compares only
`packets`). -/
def get_sorted_containers (g : GameState) : List FluidContainer :=
  List.insertionSort (fun a b => containerLe a b = true) g.fluid_containers

/-- `impl PartialEq for GameState`: equality of sorted container vectors
(container equality is the derived one, comparing packets and capacity). -/
def beq (a b : GameState) : Bool :=
  a.get_sorted_containers == b.get_sorted_containers

/-- `GameState::apply_reverse_move` (`model.rs`): delegate to
`reverse_pour_into` on the two indexed containers.  The source assumes
distinct, in-bounds indices (equal indices would panic in Rust); every move
produced by `get_possible_reverse_moves` satisfies this. -/
def apply_reverse_move (g : GameState) (action : MoveAction) : GameState :=
  match g.fluid_containers.get? action.from_container,
        g.fluid_containers.get? action.to_container with
  | some cf, some ct =>
    let r := cf.reverse_pour_into ct action.amount
    { fluid_containers :=
        (g.fluid_containers.set action.from_container r.2.1).set action.to_container r.2.2 }
  | _, _ => g

/-- `GameState::get_possible_reverse_moves` (`solver.rs`, with the
`limit_size` flag). -/
def get_possible_reverse_moves (g : GameState) (limit_size : Bool) : List MoveAction :=
  g.fluid_containers.enum.flatMap (fun fi =>
    if fi.2.is_empty then []
    else
      g.fluid_containers.enum.filterMap (fun ti =>
        if fi.2 == ti.2 || fi.2.get_top_fluid == ti.2.get_top_fluid then none
        else
          let amount0 := fi.2.get_reverse_pourable_amount ti.2
          let amount :=
            if limit_size && (fi.2.get_filled_amount == amount0) then amount0 - 1 else amount0
          if amount > 0 then some ⟨fi.1, ti.1, amount⟩ else none))

/-- The candidate filtering inside one iteration of `GameState::shuffle`:
restrict destinations to containers of globally minimal top-block depth, then
sources to containers of globally maximal top-block depth. -/
def shuffleCandidates (g : GameState) : List MoveAction :=
  let reverse_moves := g.get_possible_reverse_moves true
  let depths := g.fluid_containers.map (fun c => c.get_top_fluid_depth)
  let rm1 :=
    match depths.min? with
    | some m =>
      let idxs := (depths.enum.filter (fun di => di.2 = m)).map (fun di => di.1)
      reverse_moves.filter (fun mv => idxs.contains mv.to_container)
    | none => reverse_moves
  match depths.max? with
  | some m =>
    let idxs := (depths.enum.filter (fun di => di.2 = m)).map (fun di => di.1)
    rm1.filter (fun mv => idxs.contains mv.from_container)
  | none => rm1

/-- The iteration loop of `GameState::shuffle`, with the random choices made
explicit: at step `i`, the rng pick from a nonempty candidate list `mvs` is
modelled as `mvs[oracle i % mvs.length]`; an empty candidate list breaks. -/
def shuffleGo (oracle : Nat → Nat) : Nat → Nat → GameState → GameState
  | 0, _, g => g
  | fuel + 1, step, g =>
    let mvs := g.shuffleCandidates
    match mvs.get? (oracle step % mvs.length) with
    | some mv => shuffleGo oracle fuel (step + 1) (g.apply_reverse_move mv)
    | none => g

/-- `GameState::shuffle` (`solver.rs`): up to 1000 filtered random reverse
moves. -/
def shuffle (g : GameState) (oracle : Nat → Nat) : GameState :=
  shuffleGo oracle 1000 0 g

end GameState

/-! ## The solvability oracle (`solver.rs`) -/

/-- The reachable-subset-sum set of `fast_is_definitely_unsolvable`: start
from `{0}` and, for each capacity, add every `r + c` for `r` already
reachable (0/1 knapsack reachability). -/
def reachableSizes (caps : List Nat) : Finset Nat :=
  caps.foldl (fun s c => s ∪ s.image (fun r => r + c)) {0}

namespace GameState

/-- Modelled from the spec: `GameState::is_solved` is called by
`fast_is_maybe_solvable` in `solver.rs`, but its definition is not among the
provided sources.  Per spec §4.2, `isSolved()` is "true iff every container
is either fully empty or has `topBlockDepth() == capacity` (uniform
fill)". -/
def is_solved (g : GameState) : Bool :=
  g.fluid_containers.all (fun c => c.is_empty || (c.get_top_fluid_depth == c.get_capacity))

/-- `GameState::fast_is_definitely_solvable` (`solver.rs`). -/
def fast_is_definitely_solvable (g : GameState) : Bool :=
  let container_size_map := tallyNat (g.fluid_containers.map (fun c => c.get_capacity))
  let liquid_size_map := tallyNat ((g.get_available_colors_with_count).map (fun cc => cc.2))
  liquid_size_map.all (fun lc => lc.2 ≤ lookupD container_size_map lc.1)

/-- `GameState::fast_is_definitely_unsolvable` (`solver.rs`). -/
def fast_is_definitely_unsolvable (g : GameState) : Bool :=
  let reachable := reachableSizes (g.fluid_containers.map (fun c => c.get_capacity))
  let liquids := (g.get_available_colors_with_count).map (fun cc => cc.2)
  if liquids.any (fun cnt => decide (cnt ∉ reachable)) then true
  else if g.get_empty_spaces_count ∉ reachable then true
  else false

/-- `GameState::fast_is_maybe_solvable` (`solver.rs`). -/
def fast_is_maybe_solvable (g : GameState) : Option Bool :=
  if g.is_solved then some true
  else if g.fast_is_definitely_unsolvable then some false
  else if g.get_container_sizes.dedup.length = 1 then some true
  else if g.fast_is_definitely_solvable then some true
  else none

end GameState

/-- A "way": a map from container capacity to how many containers of that
capacity are used, with one entry per distinct capacity in the order of
`container_size_and_count_vec`. -/
abbrev Way := List (Nat × Nat)

/-- `GameState::enumerate_subsets_to_target_size`: backtracking over the
distinct capacities, choosing a usage count `0..=count` for each, pruning
once the running sum exceeds `maxSize`, and recording each complete choice
whose sum lies in `targets` (as a `(sum, way)` pair, in leaf order). -/
def enumGo (maxSize : Nat) (targets : List Nat) :
    List (Nat × Nat) → Nat → Way → List (Nat × Way)
  | [], _, _ => []
  | [(v, c)], sum, chosen =>
    ((List.range (c + 1)).filter (fun k => sum + v * k ≤ maxSize)).filterMap
      (fun k =>
        if (sum + v * k) ∈ targets then some (sum + v * k, chosen ++ [(v, k)]) else none)
  | (v, c) :: r :: rest, sum, chosen =>
    ((List.range (c + 1)).filter (fun k => sum + v * k ≤ maxSize)).flatMap
      (fun k => enumGo maxSize targets (r :: rest) (sum + v * k) (chosen ++ [(v, k)]))

/-- Association-list update of an existing key (leaves the list unchanged if
the key is absent). -/
def updateA : List (Nat × Nat) → Nat → Nat → List (Nat × Nat)
  | [], _, _ => []
  | (k, v) :: rest, key, val =>
    if k = key then (key, val) :: rest else (k, v) :: updateA rest key val

/-- `HashMap::entry(key).or_insert(0)` followed by storing `val`: update the
key in place, appending it if absent. -/
def setA : List (Nat × Nat) → Nat → Nat → List (Nat × Nat)
  | [], key, val => [(key, val)]
  | (k, v) :: rest, key, val =>
    if k = key then (key, val) :: rest else (k, v) :: setA rest key val

/-- The per-solution body of the `retain` in `is_solvable`'s forced-choice
propagation: a solution survives iff, for every `(size, used)` entry of the
committed way, `available_containers - entry ≥ used * mult`.  The
subtraction `available_containers - *entry` in the source is an unguarded
`usize` subtraction; it is modelled as `checked_sub`, and `none` here marks
the would-be underflow (debug panic / release wraparound). -/
def solutionFits (pool : List (Nat × Nat)) (mult : Nat) (sol : Way) : Way → Option Bool
  | [] => some true
  | (s, used) :: rest =>
    match checked_sub (lookupD pool s) (lookupD sol s) with
    | none => none
    | some avail => if avail < used * mult then some false else solutionFits pool mult sol rest

/-- Filter one solution list through `solutionFits`, propagating the
underflow marker. -/
def retainChecked (pool : List (Nat × Nat)) (way : Way) (mult : Nat) :
    List Way → Option (List Way)
  | [] => some []
  | sol :: rest => do
    let b ← solutionFits pool mult sol way
    let rest2 ← retainChecked pool way mult rest
    if b then pure (sol :: rest2) else pure rest2

/-- Apply `retainChecked` to every target other than the committed one. -/
def retainAll (pool : List (Nat × Nat)) (way : Way) (mult : Nat) (liquid_size : Nat) :
    List (Nat × List Way) → Option (List (Nat × List Way))
  | [] => some []
  | (k, sols) :: rest => do
    let rest2 ← retainAll pool way mult liquid_size rest
    if k = liquid_size then pure ((k, sols) :: rest2)
    else do
      let sols2 ← retainChecked pool way mult sols
      pure ((k, sols2) :: rest2)

/-- The pool-subtraction loop of a forced-choice commitment
(`for (size, count) in way.iter()` at the end of the propagation loop):
`container_size_to_count_map.get_mut(size).unwrap()` panics on a missing key
(outer `none`); the guarded subtraction reports unsolvable (`some none`) when
`count * mult > entry`. -/
def commitPool (mult : Nat) : List (Nat × Nat) → Way → Option (Option (List (Nat × Nat)))
  | pool, [] => some (some pool)
  | pool, (s, cnt) :: rest =>
    match pool.lookup s with
    | none => none
    | some e =>
      if cnt * mult > e then some none
      else commitPool mult (updateA pool s (e - cnt * mult)) rest

/-- The per-way subtraction loop inside `recursive_is_solvable`
(`new_remaining_container_sizes.entry(*size).or_insert(0)`, guarded
subtraction): `none` means the guard `*entry < *count` fired and the branch
reports failure. -/
def subtractWay : List (Nat × Nat) → Way → Option (List (Nat × Nat))
  | pool, [] => some pool
  | pool, (s, cnt) :: rest =>
    let e := lookupD pool s
    if e < cnt then none else subtractWay (setA pool s (e - cnt)) rest

/-- Outcome of the forced-choice propagation loop. -/
inductive PruneResult : Type
  | unsolv : PruneResult
  | proceed (ways : List (Nat × List Way)) (pool : List (Nat × Nat)) (vec : List Nat) :
      PruneResult
deriving Repr

lemma retainChecked_length {pool way mult sols sols2} :
    retainChecked pool way mult sols = some sols2 → sols2.length ≤ sols.length := by
  induction sols generalizing sols2 with
  | nil => intro h; cases h; simp
  | cons sol rest ih =>
    intro h
    simp only [retainChecked, Option.bind_eq_bind, Option.bind_eq_some] at h
    obtain ⟨b, _, rest2, hrest2, hres⟩ := h
    cases b <;> simp only [pure, cond] at hres <;> cases hres
    · exact Nat.le_succ_of_le (ih hrest2)
    · simpa using Nat.succ_le_succ (ih hrest2)

lemma retainAll_keys {pool way mult ls ways ways2} :
    retainAll pool way mult ls ways = some ways2 →
      ways2.map Prod.fst = ways.map Prod.fst := by
  induction ways generalizing ways2 with
  | nil => intro h; cases h; rfl
  | cons kv rest ih =>
    intro h
    obtain ⟨k, sols⟩ := kv
    simp only [retainAll, Option.bind_eq_bind, Option.bind_eq_some] at h
    obtain ⟨rest2, hrest2, hres⟩ := h
    by_cases hk : k = ls
    · simp only [hk, if_pos rfl, pure] at hres
      cases hres
      simp [ih hrest2, hk]
    · simp only [if_neg hk, Option.bind_eq_some, pure] at hres
      obtain ⟨sols2, _, hres⟩ := hres
      cases hres
      simp [ih hrest2]

namespace GameState

/-- The forced-choice propagation loop of `GameState::is_solvable`
(`solver.rs`).  Each iteration: report unsolvable if some target has no
ways; pick the first target with exactly one way; retain in every other
target only the solutions that still fit alongside the committed way;
subtract the committed containers (scaled by how many targets share the
size) from the pool with a guarded check; drop the committed target.  The
`none` result marks an arithmetic-underflow or `unwrap` fault. -/
def pruneLoop (ways : List (Nat × List Way)) (pool : List (Nat × Nat)) (vec : List Nat) :
    Option PruneResult :=
  if ways.any (fun kv => kv.2.isEmpty) then some PruneResult.unsolv
  else
    match hfind : ways.find? (fun kv => kv.2.length == 1) with
    | none => some (PruneResult.proceed ways pool vec)
    | some lw =>
      let way := lw.2.headD []
      let mult := (vec.filter (fun s => s = lw.1)).length
      match hret : retainAll pool way mult lw.1 ways with
      | none => none
      | some ways2 =>
        match commitPool mult pool way with
        | none => none
        | some none => some PruneResult.unsolv
        | some (some pool2) =>
          pruneLoop (ways2.filter (fun kv => kv.1 ≠ lw.1)) pool2
            (vec.filter (fun s => s ≠ lw.1))
termination_by ways.length
decreasing_by
  have hkeys := retainAll_keys hret
  have hmem : lw.1 ∈ ways2.map Prod.fst := by
    rw [hkeys]
    exact List.mem_map_of_mem Prod.fst (List.mem_of_find?_eq_some hfind)
  have hlen : ways2.length = ways.length := by
    have := congrArg List.length hkeys
    simpa using this
  rw [← hlen]
  rcases List.mem_map.1 hmem with ⟨kv, hkv, hfst⟩
  exact List.length_filter_lt_length_iff_exists.2 ⟨kv, hkv, by simp [hfst]⟩

/-- `GameState::recursive_is_solvable` (`solver.rs`), in sequential
semantics: the shared atomic cancellation flag only short-circuits work that
`any` already short-circuits, so it is dropped.  Every subtraction here is
guarded (`if *entry < *count { return false }`), so no fault instrumentation
is needed. -/
def recursiveIsSolvable (ways : List (Nat × List Way)) :
    List (Nat × Nat) → List Nat → Bool
  | _, [] => true
  | pool, current :: rest =>
    match ways.lookup current with
    | none => false
    | some ws =>
      ws.any (fun way =>
        match subtractWay pool way with
        | none => false
        | some pool2 => recursiveIsSolvable ways pool2 rest)

/-- The `liquid_size_vec` of `GameState::is_solvable` before the synthetic
empty-space entry: one count per color, in the order produced by
`get_available_colors_with_count`. -/
def liquidSizeVecBase (g : GameState) : List Nat :=
  (g.get_available_colors_with_count).map (fun cc => cc.2)

/-- `liquid_size_vec` after the conditional push of the empty-space count:
the source pushes `get_empty_spaces_count()` iff
`liquid_size_vec.iter().max().unwrap_or(&0) > get_empty_spaces_count()`. -/
def liquidSizeVecFinal (g : GameState) : List Nat :=
  let base := g.liquidSizeVecBase
  if base.foldr max 0 > g.get_empty_spaces_count then base ++ [g.get_empty_spaces_count]
  else base

/-- `container_size_to_count_map`: capacities tallied by size. -/
def containerSizeTally (g : GameState) : List (Nat × Nat) :=
  tallyNat (g.fluid_containers.map (fun c => c.get_capacity))

/-- `container_size_and_count_vec`: the tally sorted by size, largest
first. -/
def csvSorted (g : GameState) : List (Nat × Nat) :=
  List.insertionSort (fun a b => b.1 ≤ a.1) g.containerSizeTally

/-- `GameState::is_solvable` (`solver.rs`): fast checks, then subset
enumeration, forced-choice propagation and recursive backtracking.  `none`
marks an arithmetic-underflow or `unwrap` fault inside the propagation
loop; the Rust hash-iteration order is fixed to insertion order here. -/
def is_solvable (g : GameState) : Option Bool :=
  match g.fast_is_maybe_solvable with
  | some r => some r
  | none =>
    let vec := g.liquidSizeVecFinal
    let targets := vec.dedup
    let maxSize := targets.foldr max 0
    let enumOut := enumGo maxSize targets g.csvSorted 0 []
    let ways := targets.map
      (fun t => (t, (enumOut.filter (fun sw => sw.1 = t)).map (fun sw => sw.2)))
    match pruneLoop ways g.containerSizeTally vec with
    | none => none
    | some PruneResult.unsolv => some false
    | some (PruneResult.proceed ways2 pool2 vec2) =>
      some (recursiveIsSolvable ways2 pool2 vec2)

end GameState

/-! ## Well-formedness and basic container lemmas -/

/-- Well-formedness of a container: the `capacity` field tracks the slot
count.  Every constructor of `FluidContainer` establishes this and every
mutator preserves it, so all containers observable through the public API
are well-formed. -/
def WF (c : FluidContainer) : Prop := c.capacity = c.packets.length

instance (c : FluidContainer) : Decidable (WF c) := by
  unfold WF; infer_instance

/-- The number of filled (non-`Empty`) slots. -/
def countFilled (c : FluidContainer) : Nat :=
  (c.packets.filter (fun p => !p.is_empty)).length

/-- The number of packets of color `id` in a container. -/
def countColor (id : Nat) (c : FluidContainer) : Nat :=
  c.packets.count (FluidPacket.Fluid id)

/-- Spec-side notion for C1/C4: `n` is expressible as a sum of a subset of
the capacity list `caps`, each container counted at most once (a sublist
sum). -/
def SubsetSum (caps : List Nat) (n : Nat) : Prop :=
  ∃ l : List Nat, l.Sublist caps ∧ l.sum = n

/-- The total packet count of color `id` across a state. -/
def totalColorCount (g : GameState) (id : Nat) : Nat :=
  (g.fluid_containers.map (fun c => countColor id c)).sum

/-- The color ids of the non-empty packets of a packet list, in order. -/
def packetColorIds (ps : List FluidPacket) : List Nat :=
  ps.filterMap FluidPacket.get_color_id

/-- All color ids appearing in a state, container by container. -/
def stateColorIds (g : GameState) : List Nat :=
  (g.fluid_containers.map (fun c => packetColorIds c.packets)).flatten

/-- Total usage of capacity `s` by a list of ways. -/
def usage (wl : List Way) (s : Nat) : Nat := (wl.map (fun w => lookupD w s)).sum

/-- The liquid amount a way provides: containers used times their capacity. -/
def waySum (w : Way) : Nat := (w.map (fun e => e.1 * e.2)).sum

/-- Structural invariant threaded through the propagation loop: every stored
solution has distinct capacity keys, uses at most the pool's count of each
capacity, and mentions only capacities present in the pool. -/
def PoolInv (ways : List (Nat × List Way)) (pool : List (Nat × Nat)) : Prop :=
  ∀ kv ∈ ways, ∀ sol ∈ kv.2,
    (sol.map Prod.fst).Nodup ∧ (∀ s, lookupD sol s ≤ lookupD pool s)
      ∧ ∀ s ∈ sol.map Prod.fst, s ∈ pool.map Prod.fst

/-- A complete assignment: one stored way per liquid-size entry of `vec`,
jointly fitting in the pool. -/
def GoodAssign (ways : List (Nat × List Way)) (pool : List (Nat × Nat))
    (vec : List Nat) : Prop :=
  ∃ wl, List.Forall₂ (fun t w => ∃ ws, ways.lookup t = some ws ∧ w ∈ ws) vec wl
    ∧ ∀ s, usage wl s ≤ lookupD pool s

/-- Bookkeeping invariant of the propagation loop: the stored targets have
distinct keys, each stored key occurs in the liquid vector, and every
liquid-vector entry has a stored key. -/
def PruneOK (ways : List (Nat × List Way)) (vec : List Nat) : Prop :=
  (ways.map Prod.fst).Nodup ∧ (∀ kv ∈ ways, kv.1 ∈ vec)
    ∧ ∀ t ∈ vec, t ∈ ways.map Prod.fst

/-- The propagation loop ends in a `proceed` state that still carries the
structural invariant and a complete assignment. -/
def ProceedOK (r : Option PruneResult) : Prop :=
  match r with
  | some (PruneResult.proceed ways2 pool2 vec2) =>
      PoolInv ways2 pool2 ∧ GoodAssign ways2 pool2 vec2
  | _ => False

/-- A container uniformly full of color `id`, of positive capacity. -/
def fullPos (id : Nat) (c : FluidContainer) : Prop :=
  c.packets = List.replicate c.capacity (FluidPacket.Fluid id) ∧ 0 < c.capacity

/-- A container with only empty slots. -/
def emptyRep (c : FluidContainer) : Prop :=
  c.packets = List.replicate c.capacity FluidPacket.Empty

/-- An all-empty container of positive capacity. -/
def emptyRepPos (c : FluidContainer) : Prop := emptyRep c ∧ 0 < c.capacity

instance (id : Nat) (c : FluidContainer) : Decidable (fullPos id c) := by
  unfold fullPos; infer_instance

instance (c : FluidContainer) : Decidable (emptyRep c) := by
  unfold emptyRep; infer_instance

instance (c : FluidContainer) : Decidable (emptyRepPos c) := by
  unfold emptyRepPos; infer_instance

/-- The way (capacity-usage map in `csv` key order) occupied by the
containers of `l` satisfying `p`. -/
def wayOf (csv : List (Nat × Nat)) (l : List FluidContainer)
    (p : FluidContainer → Bool) : Way :=
  csv.map (fun e => (e.1, (l.filter (fun c => p c && (c.get_capacity == e.1))).length))

lemma resize_capacity (c : FluidContainer) (n : Nat) : (c.resize n).capacity = n := by
  unfold FluidContainer.resize
  split <;> [rfl; skip]
  split <;> rfl

lemma resize_packets (c : FluidContainer) (n : Nat) (hwf : WF c) :
    (c.resize n).packets
      = c.packets.take n ++ List.replicate (n - c.packets.length) FluidPacket.Empty := by
  unfold FluidContainer.resize
  rw [WF] at hwf
  split
  · rename_i h
    rw [List.take_of_length_le (by omega), hwf]
  · split
    · rename_i h1 h2
      rw [Nat.sub_eq_zero_of_le (by omega), List.replicate_zero, List.append_nil]
    · rename_i h1 h2
      have : n = c.packets.length := by omega
      rw [this, List.take_length, Nat.sub_self, List.replicate_zero, List.append_nil]

lemma resize_wf (c : FluidContainer) (n : Nat) (hwf : WF c) : WF (c.resize n) := by
  rw [WF, resize_capacity, resize_packets c n hwf]
  simp only [List.length_append, List.length_take, List.length_replicate]
  omega

/-- C9 as a formula: `change_capacity` clamps `capacity + delta` into
`[0, usize::MAX]`, and the surviving bottom slots are the unchanged prefix
of the old packet vector (padded with empties when growing). -/
theorem change_capacity_spec (c : FluidContainer) (delta : Int)
    (hwf : WF c) (hcap : c.capacity ≤ USIZE_MAX)
    (hmin : ISIZE_MIN ≤ delta) (hmax : delta ≤ ISIZE_MAX) :
    (c.change_capacity delta).capacity
        = (min (max ((c.capacity : Int) + delta) 0) (USIZE_MAX : Int)).toNat
      ∧ (c.change_capacity delta).packets
        = c.packets.take
              (min (max ((c.capacity : Int) + delta) 0) (USIZE_MAX : Int)).toNat
            ++ List.replicate
              ((min (max ((c.capacity : Int) + delta) 0) (USIZE_MAX : Int)).toNat
                - c.packets.length)
              FluidPacket.Empty := by
  have harith :
      (if delta < 0 then c.capacity - (-delta).toNat
        else saturating_add_usize c.capacity delta.toNat)
        = (min (max ((c.capacity : Int) + delta) 0) (USIZE_MAX : Int)).toNat := by
    split
    · rename_i hneg
      have h1 : ((-delta).toNat : Int) = -delta := Int.toNat_of_nonneg (by omega)
      omega
    · rename_i hpos
      have h1 : (delta.toNat : Int) = delta := Int.toNat_of_nonneg (by omega)
      rw [saturating_add_usize]
      omega
  unfold FluidContainer.change_capacity
  constructor
  · rw [resize_capacity, harith]
  · rw [resize_packets _ _ hwf, harith]

/-- Witness for `change_capacity_spec`: shrinking a 3-slot container by 5
saturates to capacity 0 and discards every packet. -/
theorem change_capacity_spec_witness :
    WF (FluidContainer.new_from_repr ['A', 'A', 'B'])
      ∧ ((FluidContainer.new_from_repr ['A', 'A', 'B']).change_capacity (-5)).capacity = 0
      ∧ ((FluidContainer.new_from_repr ['A', 'A', 'B']).change_capacity (-5)).packets = [] := by
  refine ⟨by decide, ?_, ?_⟩
  · have := (change_capacity_spec (FluidContainer.new_from_repr ['A', 'A', 'B']) (-5)
      (by decide) (by decide) (by decide) (by decide)).1
    rw [this]; decide
  · have := (change_capacity_spec (FluidContainer.new_from_repr ['A', 'A', 'B']) (-5)
      (by decide) (by decide) (by decide) (by decide)).2
    rw [this]; decide

/-! ## Character-level lemmas and case-insensitive parsing (C10) -/

lemma char_le_iff {c d : Char} : c ≤ d ↔ c.toNat ≤ d.toNat := Iff.rfl

lemma char_toNat_ofNat {n : Nat} (h : n < 55296) : (Char.ofNat n).toNat = n := by
  have hv : n.isValidChar := Or.inl h
  rw [Char.ofNat, dif_pos hv]
  simp [Char.toNat, Char.ofNatAux, UInt32.toNat, UInt32.ofNat']

lemma isAsciiLowerLetter_iff {c : Char} :
    isAsciiLowerLetter c = true ↔ 97 ≤ c.toNat ∧ c.toNat ≤ 122 := by
  simp only [isAsciiLowerLetter, Bool.and_eq_true, decide_eq_true_eq]
  exact and_congr char_le_iff char_le_iff

lemma isAsciiUpperLetter_iff {c : Char} :
    isAsciiUpperLetter c = true ↔ 65 ≤ c.toNat ∧ c.toNat ≤ 90 := by
  simp only [isAsciiUpperLetter, Bool.and_eq_true, decide_eq_true_eq]
  exact and_congr char_le_iff char_le_iff

lemma isAsciiLowerLetter_eq_false {c : Char} (h : c.toNat ≤ 90) :
    isAsciiLowerLetter c = false := by
  rw [← Bool.not_eq_true, isAsciiLowerLetter_iff]
  omega

lemma toUpper_toNat_of_lower {c : Char} (h : isAsciiLowerLetter c = true) :
    (toAsciiUppercase c).toNat = c.toNat - 32 := by
  have hb := isAsciiLowerLetter_iff.1 h
  rw [toAsciiUppercase, if_pos h]
  exact char_toNat_ofNat (by omega)

lemma toUpper_upper_of_lower {c : Char} (h : isAsciiLowerLetter c = true) :
    isAsciiUpperLetter (toAsciiUppercase c) = true := by
  have hb := isAsciiLowerLetter_iff.1 h
  rw [isAsciiUpperLetter_iff, toUpper_toNat_of_lower h]
  omega

lemma toUpper_of_upper {c : Char} (h : isAsciiUpperLetter c = true) :
    toAsciiUppercase c = c := by
  have hb := isAsciiUpperLetter_iff.1 h
  rw [toAsciiUppercase, if_neg]
  rw [isAsciiLowerLetter_eq_false hb.2]
  simp

lemma letter_to_color_id_toUpper {c : Char} (h : isAsciiLowerLetter c = true) :
    FluidPacket.letter_to_color_id (toAsciiUppercase c) = FluidPacket.letter_to_color_id c := by
  have hu : isAsciiUpperLetter (toAsciiUppercase c) = true := toUpper_upper_of_lower h
  have halpha_u : isAsciiAlphabetic (toAsciiUppercase c) = true := by
    rw [isAsciiAlphabetic, hu, Bool.true_or]
  have halpha_c : isAsciiAlphabetic c = true := by
    rw [isAsciiAlphabetic, h, Bool.or_true]
  rw [FluidPacket.letter_to_color_id, FluidPacket.letter_to_color_id,
    if_pos halpha_u, if_pos halpha_c, toUpper_of_upper hu]

lemma lettersGo_map_toUpper (s : List Char) (h : ∀ c ∈ s, isAsciiLowerLetter c = true)
    (acc : Nat) :
    FluidPacket.lettersGo acc (s.map toAsciiUppercase) = FluidPacket.lettersGo acc s := by
  induction s generalizing acc with
  | nil => rfl
  | cons ch rest ih =>
    simp only [List.map_cons, FluidPacket.lettersGo,
      letter_to_color_id_toUpper (h ch (List.mem_cons_self ch rest))]
    cases FluidPacket.letter_to_color_id ch with
    | none => rfl
    | some digit =>
      simp only [Option.bind_eq_bind, Option.some_bind]
      cases checked_mul acc 26 with
      | none => rfl
      | some m =>
        simp only [Option.some_bind]
        cases checked_add m (digit + 1) with
        | none => rfl
        | some a => simp only [Option.some_bind, ih (fun c hc => h c (List.mem_cons_of_mem ch hc))]

lemma not_whitespace_of_ge {c : Char} (h : 44 ≤ c.toNat) : c.isWhitespace = false := by
  unfold Char.isWhitespace
  simp only [Bool.or_eq_false_iff, decide_eq_false_iff_not]
  refine ⟨⟨⟨?_, ?_⟩, ?_⟩, ?_⟩ <;> intro he <;> subst he <;> exact absurd h (by decide)

lemma dropWhile_eq_self_of_none {p : Char → Bool} {s : List Char}
    (h : ∀ c ∈ s, p c = false) : s.dropWhile p = s := by
  cases s with
  | nil => rfl
  | cons a rest => rw [List.dropWhile_cons, h a (List.mem_cons_self a rest)]; rfl

lemma trimChars_eq_self {s : List Char} (h : ∀ c ∈ s, 44 ≤ c.toNat) : trimChars s = s := by
  rw [trimChars, dropWhile_eq_self_of_none (fun c hc => not_whitespace_of_ge (h c hc)),
    dropWhile_eq_self_of_none (fun c hc =>
      not_whitespace_of_ge (h c (List.mem_reverse.1 hc))),
    List.reverse_reverse]

/-- C10: packet parsing is case-insensitive — any nonempty all-lowercase
letter sequence decodes exactly as the corresponding uppercase sequence
does (in particular it is not treated as an unrecognized token). -/
theorem new_from_repr_lowercase (s : List Char) (hne : s ≠ [])
    (hlow : ∀ c ∈ s, isAsciiLowerLetter c = true) :
    FluidPacket.new_from_repr s = FluidPacket.new_from_repr (s.map toAsciiUppercase) := by
  have hboundL : ∀ c ∈ s, 65 ≤ c.toNat := fun c hc => by
    have := isAsciiLowerLetter_iff.1 (hlow c hc)
    omega
  have hboundU : ∀ c ∈ s.map toAsciiUppercase, 65 ≤ c.toNat := by
    intro c hc
    rcases List.mem_map.1 hc with ⟨d, hd, rfl⟩
    have := isAsciiUpperLetter_iff.1 (toUpper_upper_of_lower (hlow d hd))
    omega
  have hdotL : s ≠ ['.'] := by
    intro he
    have := hboundL '.' (by rw [he]; exact List.mem_singleton_self '.')
    exact absurd this (by decide)
  have hdotU : s.map toAsciiUppercase ≠ ['.'] := by
    intro he
    have := hboundU '.' (by rw [he]; exact List.mem_singleton_self '.')
    exact absurd this (by decide)
  have hneU : s.map toAsciiUppercase ≠ [] := by
    intro he
    exact hne (List.map_eq_nil_iff.1 he)
  rw [FluidPacket.new_from_repr, FluidPacket.new_from_repr,
    trimChars_eq_self (fun c hc => by have := hboundL c hc; omega),
    trimChars_eq_self (fun c hc => by have := hboundU c hc; omega)]
  rw [if_neg (by simp [hne, hdotL]), if_neg (by simp [hneU, hdotU])]
  rw [FluidPacket.letters_to_color_id, FluidPacket.letters_to_color_id,
    if_neg hne, if_neg hneU, lettersGo_map_toUpper s hlow 0]

/-- Witness for `new_from_repr_lowercase`, including the concrete decodings
named by the claim: `"a"` parses to color 0 and `"aa"` to color 26. -/
theorem new_from_repr_lowercase_witness :
    (FluidPacket.new_from_repr ['a'] = FluidPacket.new_from_repr ['A']
        ∧ FluidPacket.new_from_repr ['a', 'a'] = FluidPacket.new_from_repr ['A', 'A'])
      ∧ FluidPacket.new_from_repr ['a'] = FluidPacket.Fluid 0
      ∧ FluidPacket.new_from_repr ['a', 'a'] = FluidPacket.Fluid 26 := by
  refine ⟨⟨?_, ?_⟩, by decide, by decide⟩
  · have := new_from_repr_lowercase ['a'] (by decide) (by decide)
    simpa using this
  · have := new_from_repr_lowercase ['a', 'a'] (by decide) (by decide)
    simpa using this

/-! ## List-level characterizations of the container algebra -/

@[simp] lemma is_empty_Empty : FluidPacket.Empty.is_empty = true := rfl

@[simp] lemma is_empty_Fluid (i : Nat) : (FluidPacket.Fluid i).is_empty = false := rfl

lemma is_empty_iff {p : FluidPacket} : p.is_empty = true ↔ p = FluidPacket.Empty := by
  cases p <;> simp [FluidPacket.is_empty]

lemma is_empty_false_iff {p : FluidPacket} :
    p.is_empty = false ↔ ∃ id, p = FluidPacket.Fluid id := by
  cases p <;> simp [FluidPacket.is_empty]

lemma countP_add_countP_not (p : α → Bool) (l : List α) :
    l.countP p + l.countP (fun a => !p a) = l.length := by
  induction l with
  | nil => rfl
  | cons a l ih => by_cases h : p a <;> simp [List.countP_cons, h, ← ih] <;> omega

lemma find?_append_or (p : α → Bool) (xs ys : List α) :
    (xs ++ ys).find? p = ((xs.find? p).orElse (fun _ => ys.find? p)) := by
  induction xs with
  | nil => rfl
  | cons a xs ih => by_cases h : p a <;> simp [List.find?_cons, h, ih]

lemma find?_of_all_not (p : α → Bool) {xs : List α} (h : ∀ x ∈ xs, p x = false) :
    xs.find? p = none := by
  induction xs with
  | nil => rfl
  | cons a xs ih =>
    rw [List.find?_cons, h a (List.mem_cons_self a xs)]
    exact ih (fun x hx => h x (List.mem_cons_of_mem a hx))

/-- `popFirstFluid` on an all-empty prefix followed by a fluid: blanks that
fluid out. -/
lemma popFirstFluid_split (E : List FluidPacket) (id : Nat) (S : List FluidPacket)
    (hE : ∀ e ∈ E, e = FluidPacket.Empty) :
    popFirstFluid (E ++ FluidPacket.Fluid id :: S)
      = some (id, E ++ FluidPacket.Empty :: S) := by
  induction E with
  | nil => rfl
  | cons e E ih =>
    have he : e = FluidPacket.Empty := hE e (List.mem_cons_self e E)
    subst he
    simp only [List.cons_append, popFirstFluid, List.append_eq]
    rw [ih (fun e' he' => hE e' (List.mem_cons_of_mem _ he'))]

lemma popFirstFluid_all_empty {r : List FluidPacket}
    (h : ∀ e ∈ r, e = FluidPacket.Empty) : popFirstFluid r = none := by
  induction r with
  | nil => rfl
  | cons e r ih =>
    have he : e = FluidPacket.Empty := h e (List.mem_cons_self e r)
    subst he
    simp only [popFirstFluid]
    rw [ih (fun e' he' => h e' (List.mem_cons_of_mem _ he'))]

/-- `topDepthAux` skips an all-empty prefix and then counts the head fluid's
contiguous run. -/
lemma topDepthAux_split (E : List FluidPacket) (id : Nat) (S : List FluidPacket)
    (hE : ∀ e ∈ E, e = FluidPacket.Empty) :
    topDepthAux (E ++ FluidPacket.Fluid id :: S)
      = 1 + (S.takeWhile (fun p => p == FluidPacket.Fluid id)).length := by
  induction E with
  | nil => rfl
  | cons e E ih =>
    have he : e = FluidPacket.Empty := hE e (List.mem_cons_self e E)
    subst he
    simp only [List.cons_append, topDepthAux]
    exact ih (fun e' he' => hE e' (List.mem_cons_of_mem _ he'))

lemma topDepthAux_all_empty {r : List FluidPacket}
    (h : ∀ e ∈ r, e = FluidPacket.Empty) : topDepthAux r = 0 := by
  induction r with
  | nil => rfl
  | cons e r ih =>
    have he : e = FluidPacket.Empty := h e (List.mem_cons_self e r)
    subst he
    simp only [topDepthAux]
    exact ih (fun e' he' => h e' (List.mem_cons_of_mem _ he'))

lemma topDepthAux_le_countFluid (r : List FluidPacket) :
    topDepthAux r ≤ (r.filter (fun p => !p.is_empty)).length := by
  induction r with
  | nil => simp [topDepthAux]
  | cons q r ih =>
    cases q with
    | Empty => simpa [topDepthAux, FluidPacket.is_empty] using ih
    | Fluid id =>
      rw [show topDepthAux (FluidPacket.Fluid id :: r)
          = 1 + (r.takeWhile (fun p => p == FluidPacket.Fluid id)).length from rfl]
      rw [List.filter_cons_of_pos (by rfl), List.length_cons]
      have h1 : (r.takeWhile (fun p => p == FluidPacket.Fluid id)).length
          ≤ ((r.takeWhile (fun p => p == FluidPacket.Fluid id)).filter
              (fun p => !p.is_empty)).length := by
        rw [List.filter_eq_self.2]
        intro a ha
        have := List.mem_takeWhile_imp ha
        rw [beq_iff_eq] at this
        subst this
        rfl
      have h2 : ((r.takeWhile (fun p => p == FluidPacket.Fluid id)).filter
          (fun p => !p.is_empty)).length ≤ (r.filter (fun p => !p.is_empty)).length :=
        ((List.takeWhile_sublist _).filter _).length_le
      omega

/-- `setFirstEmpty` on an all-filled prefix followed by an empty slot:
writes into that slot. -/
lemma setFirstEmpty_split (p : FluidPacket) (F : List FluidPacket) (back : List FluidPacket)
    (hF : ∀ q ∈ F, q.is_empty = false) :
    setFirstEmpty p (F ++ FluidPacket.Empty :: back) = some (F ++ p :: back) := by
  induction F with
  | nil => rfl
  | cons q F ih =>
    have hq : q.is_empty = false := hF q (List.mem_cons_self q F)
    simp only [List.cons_append, setFirstEmpty, hq, Bool.false_eq_true, if_false,
      List.append_eq]
    rw [ih (fun q' hq' => hF q' (List.mem_cons_of_mem _ hq'))]

lemma setFirstEmpty_all_filled {p : FluidPacket} {l : List FluidPacket}
    (h : ∀ q ∈ l, q.is_empty = false) : setFirstEmpty p l = none := by
  induction l with
  | nil => rfl
  | cons q l ih =>
    have hq : q.is_empty = false := h q (List.mem_cons_self q l)
    simp only [setFirstEmpty, hq, Bool.false_eq_true, if_false]
    rw [ih (fun q' hq' => h q' (List.mem_cons_of_mem _ hq'))]

lemma find?_nonempty_eq (r : List FluidPacket) :
    r.find? (fun p => !p.is_empty) = (r.dropWhile (fun p => p.is_empty)).head? := by
  induction r with
  | nil => rfl
  | cons q r ih =>
    cases q with
    | Empty => simpa [List.find?_cons, FluidPacket.is_empty] using ih
    | Fluid id => simp [List.find?_cons, FluidPacket.is_empty]

lemma dropWhile_head_false {p : α → Bool} {l : List α} {a : α} {as : List α}
    (h : l.dropWhile p = a :: as) : p a = false := by
  induction l with
  | nil => cases h
  | cons x l ih =>
    rw [List.dropWhile_cons] at h
    by_cases hx : p x
    · rw [if_pos hx] at h; exact ih h
    · rw [if_neg hx] at h
      cases h
      exact Bool.not_eq_true _ ▸ hx

/-- A container whose top fluid is `Fluid id` splits, in reversed (top-first)
view, into an all-empty prefix followed by that fluid. -/
lemma exists_split_of_top {a : FluidContainer} {id : Nat}
    (h : a.get_top_fluid = FluidPacket.Fluid id) :
    ∃ E S, a.packets.reverse = E ++ FluidPacket.Fluid id :: S
      ∧ (∀ e ∈ E, e = FluidPacket.Empty)
      ∧ E = a.packets.reverse.takeWhile (fun p => p.is_empty) := by
  rw [FluidContainer.get_top_fluid, find?_nonempty_eq] at h
  set r := a.packets.reverse with hr
  match hD : r.dropWhile (fun p => p.is_empty) with
  | [] => rw [hD] at h; cases h
  | q :: S =>
    rw [hD] at h
    simp only [List.head?_cons] at h
    have hq : q = FluidPacket.Fluid id := by
      cases q with
      | Empty => cases h
      | Fluid j => cases h; rfl
    refine ⟨r.takeWhile (fun p => p.is_empty), S, ?_, ?_, rfl⟩
    · rw [← hq, ← hD, List.takeWhile_append_dropWhile]
    · intro e he
      exact is_empty_iff.1 (List.mem_takeWhile_imp he)

/-- A container with empty space splits into an all-filled prefix followed
by its first empty slot. -/
lemma exists_first_empty {a : FluidContainer} (h : 0 < a.get_empty_space) :
    ∃ F back, a.packets = F ++ FluidPacket.Empty :: back
      ∧ ∀ q ∈ F, q.is_empty = false := by
  rw [FluidContainer.get_empty_space] at h
  match hD : a.packets.dropWhile (fun p => !p.is_empty) with
  | [] =>
    exfalso
    have hall : ∀ q ∈ a.packets, (fun p => !p.is_empty) q = true := by
      have := List.takeWhile_append_dropWhile (fun p => !p.is_empty) a.packets
      rw [hD, List.append_nil] at this
      intro q hq
      rw [← this] at hq
      exact @List.mem_takeWhile_imp _ (fun p => !p.is_empty) a.packets q hq
    have : a.packets.filter (fun p => p.is_empty) = [] := by
      rw [List.filter_eq_nil_iff]
      intro q hq
      have := hall q hq
      simp only [Bool.not_eq_true'] at this
      simp [this]
    rw [this] at h
    cases h
  | q :: back =>
    have hq : q = FluidPacket.Empty := by
      have := dropWhile_head_false hD
      simpa [is_empty_iff] using this
    refine ⟨a.packets.takeWhile (fun p => !p.is_empty), back, ?_, ?_⟩
    · rw [← hq, ← hD, List.takeWhile_append_dropWhile]
    · intro q' hq'
      have := List.mem_takeWhile_imp hq'
      simpa using this

lemma topDepthAux_append_empty (E S : List FluidPacket)
    (hE : ∀ e ∈ E, e = FluidPacket.Empty) :
    topDepthAux (E ++ S) = topDepthAux S := by
  induction E with
  | nil => rfl
  | cons e E ih =>
    have he : e = FluidPacket.Empty := hE e (List.mem_cons_self e E)
    subst he
    simp only [List.cons_append, topDepthAux]
    exact ih (fun e' he' => hE e' (List.mem_cons_of_mem _ he'))

lemma find?_nonempty_append_empty (E S : List FluidPacket)
    (hE : ∀ e ∈ E, e = FluidPacket.Empty) :
    (E ++ S).find? (fun p => !p.is_empty) = S.find? (fun p => !p.is_empty) := by
  rw [find?_append_or, find?_of_all_not]
  · rfl
  · intro x hx
    rw [hE x hx]
    rfl

lemma top_empty_depth_zero {a : FluidContainer}
    (h : a.get_top_fluid = FluidPacket.Empty) : a.get_top_fluid_depth = 0 := by
  rw [FluidContainer.get_top_fluid, find?_nonempty_eq] at h
  rw [FluidContainer.get_top_fluid_depth]
  match hD : a.packets.reverse.dropWhile (fun p => p.is_empty) with
  | [] =>
    apply topDepthAux_all_empty
    intro e he
    have hsplit := List.takeWhile_append_dropWhile (fun p => p.is_empty) a.packets.reverse
    rw [hD, List.append_nil] at hsplit
    rw [← hsplit] at he
    exact is_empty_iff.1 (List.mem_takeWhile_imp he)
  | q :: S =>
    rw [hD] at h
    simp only [List.head?_cons] at h
    have hq : q = FluidPacket.Empty := by cases h; rfl
    have := dropWhile_head_false hD
    rw [hq] at this
    cases this

lemma depth_pos_top {a : FluidContainer} (h : 0 < a.get_top_fluid_depth) :
    ∃ id, a.get_top_fluid = FluidPacket.Fluid id := by
  cases htop : a.get_top_fluid with
  | Empty => rw [top_empty_depth_zero htop] at h; cases h
  | Fluid id => exact ⟨id, rfl⟩

lemma depth_le_countFilled (a : FluidContainer) :
    a.get_top_fluid_depth ≤ countFilled a := by
  rw [FluidContainer.get_top_fluid_depth, countFilled]
  calc topDepthAux a.packets.reverse
      ≤ (a.packets.reverse.filter (fun p => !p.is_empty)).length :=
        topDepthAux_le_countFluid _
    _ = (a.packets.filter (fun p => !p.is_empty)).length := by
        rw [← List.countP_eq_length_filter, ← List.countP_eq_length_filter,
          List.countP_reverse]

/-- Full effect of `pop_fluid` on a container whose top fluid is
`Fluid id`. -/
lemma pop_effects {a : FluidContainer} {id : Nat}
    (htop : a.get_top_fluid = FluidPacket.Fluid id) :
    a.pop_fluid.1 = FluidPacket.Fluid id
      ∧ a.pop_fluid.2.capacity = a.capacity
      ∧ a.pop_fluid.2.packets.length = a.packets.length
      ∧ countColor id a.pop_fluid.2 + 1 = countColor id a
      ∧ (∀ j, j ≠ id → countColor j a.pop_fluid.2 = countColor j a)
      ∧ countFilled a.pop_fluid.2 + 1 = countFilled a
      ∧ a.pop_fluid.2.get_empty_space = a.get_empty_space + 1 := by
  obtain ⟨E, S, hsplit, hE, -⟩ := exists_split_of_top htop
  have hpackets : a.packets = (E ++ FluidPacket.Fluid id :: S).reverse := by
    rw [← hsplit, List.reverse_reverse]
  have hpop : a.pop_fluid
      = (FluidPacket.Fluid id, { a with packets := (E ++ FluidPacket.Empty :: S).reverse }) := by
    rw [FluidContainer.pop_fluid, hsplit, popFirstFluid_split E id S hE]
  have hpop1 : a.pop_fluid.1 = FluidPacket.Fluid id := by rw [hpop]
  have hpop2 : a.pop_fluid.2 = { a with packets := (E ++ FluidPacket.Empty :: S).reverse } := by
    rw [hpop]
  refine ⟨hpop1, by rw [hpop2], ?_, ?_, ?_, ?_, ?_⟩
  · rw [hpop2]; simp [hpackets]
  · rw [countColor, countColor, hpop2, hpackets]
    simp only [List.count_reverse, List.count_append]
    rw [List.count_cons_self, List.count_cons_of_ne (by simp)]
    omega
  · intro j hj
    rw [countColor, countColor, hpop2, hpackets]
    have h1 : (FluidPacket.Empty == FluidPacket.Fluid j) = false := by simp
    have h2 : (FluidPacket.Fluid id == FluidPacket.Fluid j) = false := by
      simp [Ne.symm hj]
    simp [List.count_append, List.count_cons, h1, h2]
  · rw [countFilled, countFilled, hpop2, hpackets]
    rw [← List.countP_eq_length_filter, ← List.countP_eq_length_filter,
      List.countP_reverse, List.countP_reverse]
    simp only [List.countP_append, List.countP_cons, is_empty_Empty, is_empty_Fluid]
    simp
    omega
  · rw [FluidContainer.get_empty_space, FluidContainer.get_empty_space, hpop2, hpackets]
    rw [← List.countP_eq_length_filter, ← List.countP_eq_length_filter,
      List.countP_reverse, List.countP_reverse]
    simp only [List.countP_append, List.countP_cons, is_empty_Empty, is_empty_Fluid]
    simp
    omega

/-- After a pop from a top block of depth at least 2, the top color and the
remaining depth are as expected. -/
lemma pop_top_depth {a : FluidContainer} {id : Nat}
    (htop : a.get_top_fluid = FluidPacket.Fluid id)
    (hdepth : 2 ≤ a.get_top_fluid_depth) :
    a.pop_fluid.2.get_top_fluid = FluidPacket.Fluid id
      ∧ a.pop_fluid.2.get_top_fluid_depth + 1 = a.get_top_fluid_depth := by
  obtain ⟨E, S, hsplit, hE, -⟩ := exists_split_of_top htop
  have hdepth2 : a.get_top_fluid_depth
      = 1 + (S.takeWhile (fun p => p == FluidPacket.Fluid id)).length := by
    rw [FluidContainer.get_top_fluid_depth, hsplit, topDepthAux_split E id S hE]
  obtain ⟨S2, hS2⟩ : ∃ S2, S = FluidPacket.Fluid id :: S2 := by
    cases hS : S with
    | nil => rw [hS] at hdepth2; rw [hdepth2] at hdepth; simp at hdepth
    | cons s S2 =>
      rw [hS, List.takeWhile_cons] at hdepth2
      by_cases hs : (s == FluidPacket.Fluid id) = true
      · exact ⟨S2, by rw [beq_iff_eq] at hs; rw [hs]⟩
      · rw [if_neg (by simp_all)] at hdepth2
        rw [hdepth2] at hdepth
        simp at hdepth
  subst hS2
  have hpop2 : a.pop_fluid.2
      = { a with packets := (E ++ FluidPacket.Empty :: FluidPacket.Fluid id :: S2).reverse } := by
    rw [FluidContainer.pop_fluid, hsplit,
      popFirstFluid_split E id (FluidPacket.Fluid id :: S2) hE]
  have hE2 : ∀ e ∈ E ++ [FluidPacket.Empty], e = FluidPacket.Empty := by
    intro e he
    rcases List.mem_append.1 he with h | h
    · exact hE e h
    · simpa using h
  have hview : (E ++ FluidPacket.Empty :: FluidPacket.Fluid id :: S2)
      = (E ++ [FluidPacket.Empty]) ++ FluidPacket.Fluid id :: S2 := by
    simp
  constructor
  · rw [FluidContainer.get_top_fluid, hpop2]
    show (match ((E ++ FluidPacket.Empty :: FluidPacket.Fluid id :: S2).reverse.reverse.find?
        (fun p => !p.is_empty)) with
      | some p => p
      | none => FluidPacket.Empty) = FluidPacket.Fluid id
    rw [List.reverse_reverse, hview, find?_nonempty_append_empty _ _ hE2]
    rfl
  · rw [FluidContainer.get_top_fluid_depth, hpop2]
    show topDepthAux ((E ++ FluidPacket.Empty :: FluidPacket.Fluid id :: S2).reverse.reverse) + 1
        = a.get_top_fluid_depth
    rw [List.reverse_reverse, hview, topDepthAux_append_empty _ _ hE2, hdepth2]
    simp only [topDepthAux, List.takeWhile_cons]
    simp
    omega

/-- Full effect of a successful `add_fluid` of a non-empty packet into a
container with space whose top (if any) matches the packet. -/
lemma add_effects {b : FluidContainer} {p : FluidPacket} (hp : p.is_empty = false)
    (hspace : 0 < b.get_empty_space) :
    (b.add_fluid p).1 = true
      ∧ (b.add_fluid p).2.capacity = b.capacity
      ∧ (b.add_fluid p).2.packets.length = b.packets.length
      ∧ (b.add_fluid p).2.packets.count p = b.packets.count p + 1
      ∧ (∀ j, FluidPacket.Fluid j ≠ p → countColor j (b.add_fluid p).2 = countColor j b)
      ∧ countFilled (b.add_fluid p).2 = countFilled b + 1
      ∧ (b.add_fluid p).2.get_empty_space + 1 = b.get_empty_space
      ∧ (b.add_fluid p).2.is_empty = false := by
  obtain ⟨F, back, hsplit, hF⟩ := exists_first_empty hspace
  have hadd : b.add_fluid p = (true, { b with packets := F ++ p :: back }) := by
    rw [FluidContainer.add_fluid, hsplit, setFirstEmpty_split p F back hF]
  have hadd1 : (b.add_fluid p).1 = true := by rw [hadd]
  have hadd2 : (b.add_fluid p).2 = { b with packets := F ++ p :: back } := by rw [hadd]
  have hpE : p ≠ FluidPacket.Empty := fun he => by rw [he] at hp; cases hp
  refine ⟨hadd1, by rw [hadd2], by rw [hadd2]; simp [hsplit], ?_, ?_, ?_, ?_, ?_⟩
  · rw [hadd2, hsplit]
    simp only [List.count_append]
    rw [List.count_cons_self, List.count_cons_of_ne hpE]
    omega
  · intro j hj
    rw [countColor, countColor, hadd2, hsplit]
    simp only [List.count_append]
    rw [List.count_cons_of_ne hj, List.count_cons_of_ne (by simp)]
  · rw [countFilled, countFilled, hadd2, hsplit,
      ← List.countP_eq_length_filter, ← List.countP_eq_length_filter]
    simp only [List.countP_append, List.countP_cons, is_empty_Empty]
    have h2 : (!p.is_empty) = true := by rw [hp]; rfl
    rw [h2]
    simp
    omega
  · rw [FluidContainer.get_empty_space, FluidContainer.get_empty_space, hadd2, hsplit,
      ← List.countP_eq_length_filter, ← List.countP_eq_length_filter]
    simp only [List.countP_append, List.countP_cons, is_empty_Empty, hp]
    simp
    omega
  · rw [FluidContainer.is_empty, hadd2, Bool.eq_false_iff]
    intro hall
    have := List.all_eq_true.1 hall p (by exact List.mem_append_right _ (List.mem_cons_self _ _))
    rw [hp] at this
    cases this

/-- A successful `add_fluid` whose packet matches the destination's top (or
an empty destination) leaves that packet on top. -/
lemma add_top {b : FluidContainer} {p : FluidPacket} (hp : p.is_empty = false)
    (hspace : 0 < b.get_empty_space)
    (htop : b.get_top_fluid = p ∨ b.is_empty = true) :
    (b.add_fluid p).2.get_top_fluid = p := by
  obtain ⟨F, back, hsplit, hF⟩ := exists_first_empty hspace
  have hadd : b.add_fluid p = (true, { b with packets := F ++ p :: back }) := by
    rw [FluidContainer.add_fluid, hsplit, setFirstEmpty_split p F back hF]
  have hadd2 : (b.add_fluid p).2 = { b with packets := F ++ p :: back } := by rw [hadd]
  rw [FluidContainer.get_top_fluid, hadd2]
  show (match ((F ++ p :: back).reverse.find? (fun q => !q.is_empty)) with
    | some q => q
    | none => FluidPacket.Empty) = p
  rw [List.reverse_append, List.reverse_cons, List.append_assoc, find?_append_or]
  cases hfb : back.reverse.find? (fun q => !q.is_empty) with
  | some q =>
    have hqb : b.get_top_fluid = q := by
      rw [FluidContainer.get_top_fluid, hsplit, List.reverse_append,
        List.reverse_cons, List.append_assoc, find?_append_or, hfb]
      rfl
    have hbne : b.is_empty = false := by
      have hqmem := List.find?_some hfb
      have hmem := List.mem_reverse.1 (List.mem_of_find?_eq_some hfb)
      rw [FluidContainer.is_empty]
      rw [Bool.eq_false_iff]
      intro hall
      have := List.all_eq_true.1 hall q
        (by rw [hsplit]; exact List.mem_append_right _ (List.mem_cons_of_mem _ hmem))
      rw [this] at hqmem
      cases hqmem
    rcases htop with htop | htop
    · simp only [Option.orElse]
      rw [hqb] at htop
      rw [htop]
    · rw [htop] at hbne; cases hbne
  | none =>
    show (match (Option.orElse none fun _ => (p :: F.reverse).find? fun q => !q.is_empty) with
      | some q => q
      | none => FluidPacket.Empty) = p
    have hfind : (p :: F.reverse).find? (fun q => !q.is_empty) = some p := by
      rw [List.find?_cons, hp]
      rfl
    simp only [Option.orElse, hfind]

lemma push_eq_add {b : FluidContainer} {p : FluidPacket}
    (htop : b.get_top_fluid = p ∨ b.is_empty = true) :
    b.push_fluid p = b.add_fluid p := by
  rw [FluidContainer.push_fluid, if_pos]
  rcases htop with h | h
  · rw [h]; simp
  · rw [h]; simp

lemma pourLoop_succ (n : Nat) (a b : FluidContainer) :
    FluidContainer.pourLoop (n + 1) a b
      = FluidContainer.pourLoop n a.pop_fluid.2 (b.push_fluid a.pop_fluid.1).2 := rfl

/-- Invariant of the `pour_into` transfer loop: `n` pops of the top color
`id` from `a`, each pushed onto `b`, conserve per-color counts, move exactly
`n` filled packets, and leave capacities and slot counts unchanged. -/
lemma pourLoop_spec (id : Nat) (n : Nat) :
    ∀ (a b : FluidContainer),
      n ≤ a.get_top_fluid_depth →
      (1 ≤ n → a.get_top_fluid = FluidPacket.Fluid id) →
      n ≤ b.get_empty_space →
      (b.get_top_fluid = FluidPacket.Fluid id ∨ b.is_empty = true) →
      (∀ j, countColor j (FluidContainer.pourLoop n a b).1
          + countColor j (FluidContainer.pourLoop n a b).2
          = countColor j a + countColor j b)
        ∧ countFilled (FluidContainer.pourLoop n a b).1 + n = countFilled a
        ∧ countFilled (FluidContainer.pourLoop n a b).2 = countFilled b + n
        ∧ (FluidContainer.pourLoop n a b).1.capacity = a.capacity
        ∧ (FluidContainer.pourLoop n a b).2.capacity = b.capacity
        ∧ (FluidContainer.pourLoop n a b).1.packets.length = a.packets.length
        ∧ (FluidContainer.pourLoop n a b).2.packets.length = b.packets.length := by
  induction n with
  | zero => intro a b _ _ _ _; simp [FluidContainer.pourLoop]
  | succ n ih =>
    intro a b hdepth htopa hspace htopb
    have htopa1 : a.get_top_fluid = FluidPacket.Fluid id := htopa (by omega)
    obtain ⟨hpe1, hpe_cap, hpe_len, hpe_cid, hpe_cj, hpe_fill, hpe_space⟩ :=
      pop_effects htopa1
    have hpush : b.push_fluid a.pop_fluid.1 = b.add_fluid (FluidPacket.Fluid id) := by
      rw [hpe1, push_eq_add htopb]
    obtain ⟨hae1, hae_cap, hae_len, hae_cp, hae_cj, hae_fill, hae_space, hae_ne⟩ :=
      @add_effects b (FluidPacket.Fluid id) rfl (by omega)
    have hae_top : (b.add_fluid (FluidPacket.Fluid id)).2.get_top_fluid
        = FluidPacket.Fluid id :=
      add_top rfl (by omega) htopb
    have hrw : FluidContainer.pourLoop (n + 1) a b
        = FluidContainer.pourLoop n a.pop_fluid.2 (b.add_fluid (FluidPacket.Fluid id)).2 := by
      rw [pourLoop_succ, hpush]
    have hdepth2 : n ≤ a.pop_fluid.2.get_top_fluid_depth ∧
        (1 ≤ n → a.pop_fluid.2.get_top_fluid = FluidPacket.Fluid id) := by
      by_cases hn : n = 0
      · subst hn
        exact ⟨Nat.zero_le _, fun h => absurd h (by omega)⟩
      · have hd2 : 2 ≤ a.get_top_fluid_depth := by omega
        obtain ⟨ht, hd⟩ := pop_top_depth htopa1 hd2
        exact ⟨by omega, fun _ => ht⟩
    have ihall := ih a.pop_fluid.2 (b.add_fluid (FluidPacket.Fluid id)).2
      hdepth2.1 hdepth2.2 (by omega) (Or.inl hae_top)
    obtain ⟨ih_col, ih_fa, ih_fb, ih_capa, ih_capb, ih_lena, ih_lenb⟩ := ihall
    rw [hrw]
    refine ⟨?_, by omega, by omega, by omega, by omega, by omega, by omega⟩
    intro j
    rw [ih_col j]
    by_cases hj : j = id
    · subst hj
      have : countColor j (b.add_fluid (FluidPacket.Fluid j)).2 = countColor j b + 1 := hae_cp
      omega
    · rw [hpe_cj j hj, hae_cj j (by simp [hj])]

lemma top_empty_iff {a : FluidContainer} :
    a.get_top_fluid = FluidPacket.Empty ↔ a.is_empty = true := by
  constructor
  · intro h
    rw [FluidContainer.get_top_fluid] at h
    cases hf : a.packets.reverse.find? (fun p => !p.is_empty) with
    | some q =>
      rw [hf] at h
      simp only at h
      have := List.find?_some hf
      rw [h] at this
      cases this
    | none =>
      rw [FluidContainer.is_empty, List.all_eq_true]
      intro p hp
      have := List.find?_eq_none.1 hf p (List.mem_reverse.2 hp)
      simpa using this
  · intro h
    rw [FluidContainer.get_top_fluid, find?_of_all_not]
    intro x hx
    have := List.all_eq_true.1 h x (List.mem_reverse.1 hx)
    rw [this]
    rfl

lemma countFilled_pos_top {a : FluidContainer} (h : 0 < countFilled a) :
    ∃ id, a.get_top_fluid = FluidPacket.Fluid id := by
  cases htop : a.get_top_fluid with
  | Fluid id => exact ⟨id, rfl⟩
  | Empty =>
    exfalso
    have hemp := top_empty_iff.1 htop
    have : countFilled a = 0 := by
      rw [countFilled, ← List.countP_eq_length_filter, List.countP_eq_zero]
      intro p hp
      have := List.all_eq_true.1 hemp p hp
      simp [this]
    omega

lemma revPourLoop_succ (n : Nat) (a b : FluidContainer) :
    FluidContainer.revPourLoop (n + 1) a b
      = FluidContainer.revPourLoop n a.pop_fluid.2 (b.add_fluid a.pop_fluid.1).2 := rfl

/-- Invariant of the `reverse_pour_into` transfer loop: `n` pops from `a`,
each re-added into `b`'s first empty slot, conserve per-color counts and move
exactly `n` filled packets. -/
lemma revPourLoop_spec (n : Nat) :
    ∀ (a b : FluidContainer),
      n ≤ countFilled a → n ≤ b.get_empty_space →
      (∀ j, countColor j (FluidContainer.revPourLoop n a b).1
          + countColor j (FluidContainer.revPourLoop n a b).2
          = countColor j a + countColor j b)
        ∧ countFilled (FluidContainer.revPourLoop n a b).1 + n = countFilled a
        ∧ countFilled (FluidContainer.revPourLoop n a b).2 = countFilled b + n
        ∧ (FluidContainer.revPourLoop n a b).1.capacity = a.capacity
        ∧ (FluidContainer.revPourLoop n a b).2.capacity = b.capacity
        ∧ (FluidContainer.revPourLoop n a b).1.packets.length = a.packets.length
        ∧ (FluidContainer.revPourLoop n a b).2.packets.length = b.packets.length := by
  induction n with
  | zero => intro a b _ _; simp [FluidContainer.revPourLoop]
  | succ n ih =>
    intro a b hfill hspace
    obtain ⟨id, htop⟩ := @countFilled_pos_top a (by omega)
    obtain ⟨hpe1, hpe_cap, hpe_len, hpe_cid, hpe_cj, hpe_fill, hpe_space⟩ := pop_effects htop
    obtain ⟨hae1, hae_cap, hae_len, hae_cp, hae_cj, hae_fill, hae_space, hae_ne⟩ :=
      @add_effects b (FluidPacket.Fluid id) rfl (by omega)
    have hrw : FluidContainer.revPourLoop (n + 1) a b
        = FluidContainer.revPourLoop n a.pop_fluid.2 (b.add_fluid (FluidPacket.Fluid id)).2 := by
      rw [revPourLoop_succ, hpe1]
    obtain ⟨ih_col, ih_fa, ih_fb, ih_capa, ih_capb, ih_lena, ih_lenb⟩ :=
      ih a.pop_fluid.2 (b.add_fluid (FluidPacket.Fluid id)).2 (by omega) (by omega)
    rw [hrw]
    refine ⟨?_, by omega, by omega, by omega, by omega, by omega, by omega⟩
    intro j
    rw [ih_col j]
    by_cases hj : j = id
    · subst hj
      have : countColor j (b.add_fluid (FluidPacket.Fluid j)).2 = countColor j b + 1 := hae_cp
      omega
    · rw [hpe_cj j hj, hae_cj j (by simp [hj])]

lemma reverse_pourable_le (a b : FluidContainer) :
    a.get_reverse_pourable_amount b ≤ countFilled a
      ∧ a.get_reverse_pourable_amount b ≤ b.get_empty_space := by
  rw [FluidContainer.get_reverse_pourable_amount]
  have hd := depth_le_countFilled a
  constructor
  · refine le_trans (min_le_right _ _) ?_
    split <;> omega
  · exact min_le_left _ _

/-- Everything `pour_into` does in the successful case. -/
lemma pour_into_effects (a b : FluidContainer) (h : 0 < a.get_pourable_amount b) :
    (a.pour_into b).1 = true
      ∧ (∀ j, countColor j (a.pour_into b).2.1 + countColor j (a.pour_into b).2.2
          = countColor j a + countColor j b)
      ∧ countFilled (a.pour_into b).2.1 + a.get_pourable_amount b = countFilled a
      ∧ countFilled (a.pour_into b).2.2 = countFilled b + a.get_pourable_amount b
      ∧ (a.pour_into b).2.1.capacity = a.capacity
      ∧ (a.pour_into b).2.2.capacity = b.capacity
      ∧ (a.pour_into b).2.1.packets.length = a.packets.length
      ∧ (a.pour_into b).2.2.packets.length = b.packets.length := by
  have hne : a.get_pourable_amount b ≠ 0 := by omega
  have hcond : ((a.get_top_fluid != b.get_top_fluid) && !b.is_empty) = false := by
    by_contra hc
    rw [Bool.not_eq_false] at hc
    rw [FluidContainer.get_pourable_amount, if_pos hc] at hne
    exact hne rfl
  have hval : a.get_pourable_amount b
      = min a.get_top_fluid_depth b.get_empty_space := by
    rw [FluidContainer.get_pourable_amount, if_neg (by rw [hcond]; simp)]
  have hdep : 0 < a.get_top_fluid_depth := by
    rw [hval] at h
    omega
  obtain ⟨id, htopa⟩ := depth_pos_top hdep
  have htopb : b.get_top_fluid = FluidPacket.Fluid id ∨ b.is_empty = true := by
    rcases Bool.and_eq_false_iff.1 hcond with hc | hc
    · left
      rw [bne_eq_false_iff_eq] at hc
      rw [← hc, htopa]
    · right
      simpa using hc
  have hpour : a.pour_into b
      = (true, FluidContainer.pourLoop (a.get_pourable_amount b) a b) := by
    rw [FluidContainer.pour_into, if_neg hne]
  obtain ⟨hc, hfa, hfb, hcap1, hcap2, hlen1, hlen2⟩ :=
    pourLoop_spec id (a.get_pourable_amount b) a b
      (by rw [hval]; exact min_le_left _ _)
      (fun _ => htopa)
      (by rw [hval]; exact min_le_right _ _)
      htopb
  rw [hpour]
  exact ⟨rfl, hc, hfa, hfb, hcap1, hcap2, hlen1, hlen2⟩

/-- C5: `pour_into` is a no-op returning `false` exactly when the pourable
amount is 0; otherwise it returns `true` and moves exactly the pourable
amount of filled packets from source to destination. -/
theorem pour_into_spec (a b : FluidContainer) :
    ((a.pour_into b).1 = false ∧ (a.pour_into b).2.1 = a ∧ (a.pour_into b).2.2 = b
        ↔ a.get_pourable_amount b = 0)
      ∧ (0 < a.get_pourable_amount b →
          (a.pour_into b).1 = true
            ∧ countFilled (a.pour_into b).2.1 + a.get_pourable_amount b = countFilled a
            ∧ countFilled (a.pour_into b).2.2 = countFilled b + a.get_pourable_amount b
            ∧ (a.pour_into b).2.1 ≠ a) := by
  by_cases h : a.get_pourable_amount b = 0
  · have hpour : a.pour_into b = (false, a, b) := by
      rw [FluidContainer.pour_into, if_pos h]
    rw [hpour]
    exact ⟨⟨fun _ => h, fun _ => ⟨rfl, rfl, rfl⟩⟩, fun hc => absurd h (by omega)⟩
  · obtain ⟨h1, _, hfa, hfb, -, -, -, -⟩ := pour_into_effects a b (by omega)
    constructor
    · constructor
      · intro ⟨hf, _, _⟩
        rw [h1] at hf
        cases hf
      · intro hc
        exact absurd hc h
    · intro _
      refine ⟨h1, hfa, hfb, ?_⟩
      intro heq
      rw [heq] at hfa
      omega

/-- Witness for `pour_into_spec` at the spec's concrete scenario:
`"AAB"` poured into `"B.."` succeeds and transfers one packet. -/
theorem pour_into_spec_witness :
    0 < (FluidContainer.new_from_repr ['A', 'A', 'B']).get_pourable_amount
        (FluidContainer.new_from_repr ['B', '.', '.'])
      ∧ ((FluidContainer.new_from_repr ['A', 'A', 'B']).pour_into
          (FluidContainer.new_from_repr ['B', '.', '.'])).1 = true := by
  refine ⟨by decide, ?_⟩
  exact ((pour_into_spec (FluidContainer.new_from_repr ['A', 'A', 'B'])
    (FluidContainer.new_from_repr ['B', '.', '.'])).2 (by decide)).1

/-- C6: both pour operations conserve the per-color packet counts (and hence
the total filled count) over the two containers involved.  Well-formedness
(capacity field = slot count) is assumed: it holds for every container the
Rust API can construct, and in its absence the Rust `get_filled_amount`
subtraction could itself underflow. -/
theorem pour_conservation (a b : FluidContainer) (amount : Nat)
    (hwa : WF a) (hwb : WF b) :
    (∀ j, countColor j (a.pour_into b).2.1 + countColor j (a.pour_into b).2.2
        = countColor j a + countColor j b)
      ∧ countFilled (a.pour_into b).2.1 + countFilled (a.pour_into b).2.2
          = countFilled a + countFilled b
      ∧ (∀ j, countColor j (a.reverse_pour_into b amount).2.1
            + countColor j (a.reverse_pour_into b amount).2.2
          = countColor j a + countColor j b)
      ∧ countFilled (a.reverse_pour_into b amount).2.1
            + countFilled (a.reverse_pour_into b amount).2.2
          = countFilled a + countFilled b := by
  have hpour : (∀ j, countColor j (a.pour_into b).2.1 + countColor j (a.pour_into b).2.2
      = countColor j a + countColor j b)
      ∧ countFilled (a.pour_into b).2.1 + countFilled (a.pour_into b).2.2
          = countFilled a + countFilled b := by
    by_cases h : a.get_pourable_amount b = 0
    · rw [FluidContainer.pour_into, if_pos h]
      exact ⟨fun j => rfl, rfl⟩
    · obtain ⟨-, hcol, hfa, hfb, -, -, -, -⟩ := pour_into_effects a b (by omega)
      exact ⟨hcol, by omega⟩
  refine ⟨hpour.1, hpour.2, ?_⟩
  by_cases h : min (a.get_reverse_pourable_amount b) amount = 0
  · rw [FluidContainer.reverse_pour_into, if_pos h]
    exact ⟨fun j => rfl, rfl⟩
  · have hle := reverse_pourable_le a b
    have h1 : min (a.get_reverse_pourable_amount b) amount ≤ countFilled a :=
      le_trans (min_le_left _ _) hle.1
    have h2 : min (a.get_reverse_pourable_amount b) amount ≤ b.get_empty_space :=
      le_trans (min_le_left _ _) hle.2
    obtain ⟨hcol, hfa, hfb, -, -, -, -⟩ :=
      revPourLoop_spec (min (a.get_reverse_pourable_amount b) amount) a b h1 h2
    have hrev : a.reverse_pour_into b amount
        = (true, FluidContainer.revPourLoop
            (min (a.get_reverse_pourable_amount b) amount) a b) := by
      rw [FluidContainer.reverse_pour_into, if_neg h]
    have hrev1 : (a.reverse_pour_into b amount).2.1
        = (FluidContainer.revPourLoop (min (a.get_reverse_pourable_amount b) amount) a b).1 := by
      rw [hrev]
    have hrev2 : (a.reverse_pour_into b amount).2.2
        = (FluidContainer.revPourLoop (min (a.get_reverse_pourable_amount b) amount) a b).2 := by
      rw [hrev]
    refine ⟨?_, ?_⟩
    · intro j
      rw [hrev1, hrev2]
      exact hcol j
    · rw [hrev1, hrev2]
      omega

/-- Witness for `pour_conservation`: same concrete scenario, with a reverse
pour of amount 2. -/
theorem pour_conservation_witness :
    WF (FluidContainer.new_from_repr ['A', 'A', 'B'])
      ∧ WF (FluidContainer.new_from_repr ['B', '.', '.'])
      ∧ countColor 0 ((FluidContainer.new_from_repr ['A', 'A', 'B']).reverse_pour_into
            (FluidContainer.new_from_repr ['B', '.', '.']) 2).2.1
          + countColor 0 ((FluidContainer.new_from_repr ['A', 'A', 'B']).reverse_pour_into
            (FluidContainer.new_from_repr ['B', '.', '.']) 2).2.2
        = countColor 0 (FluidContainer.new_from_repr ['A', 'A', 'B'])
          + countColor 0 (FluidContainer.new_from_repr ['B', '.', '.']) := by
  refine ⟨by decide, by decide, ?_⟩
  exact (pour_conservation (FluidContainer.new_from_repr ['A', 'A', 'B'])
    (FluidContainer.new_from_repr ['B', '.', '.']) 2 (by decide) (by decide)).2.2.1 0

/-! ## Order properties of the container comparison and canonical equality (C8) -/

lemma packetLe_total (p q : FluidPacket) : packetLe p q = true ∨ packetLe q p = true := by
  cases p <;> cases q <;> simp [packetLe] <;> omega

lemma packetLe_antisymm {p q : FluidPacket}
    (h1 : packetLe p q = true) (h2 : packetLe q p = true) : p = q := by
  cases p <;> cases q <;> simp_all [packetLe]
  omega

lemma packetLe_trans {p q r : FluidPacket}
    (h1 : packetLe p q = true) (h2 : packetLe q r = true) : packetLe p r = true := by
  cases p <;> cases q <;> cases r <;> simp_all [packetLe]
  omega

lemma packetsLe_nil_false (p : FluidPacket) (ps : List FluidPacket) :
    packetsLe (p :: ps) [] = false := rfl

lemma packetsLe_total (x y : List FluidPacket) :
    packetsLe x y = true ∨ packetsLe y x = true := by
  induction x generalizing y with
  | nil => left; rfl
  | cons p ps ih =>
    cases y with
    | nil => right; rfl
    | cons q qs =>
      by_cases hpq : p = q
      · subst hpq
        simp only [packetsLe, if_pos rfl]
        exact ih qs
      · simp only [packetsLe, if_neg hpq, if_neg (Ne.symm hpq)]
        exact packetLe_total p q

lemma packetsLe_antisymm {x y : List FluidPacket}
    (h1 : packetsLe x y = true) (h2 : packetsLe y x = true) : x = y := by
  induction x generalizing y with
  | nil =>
    cases y with
    | nil => rfl
    | cons q qs => rw [packetsLe_nil_false] at h2; cases h2
  | cons p ps ih =>
    cases y with
    | nil => rw [packetsLe_nil_false] at h1; cases h1
    | cons q qs =>
      by_cases hpq : p = q
      · subst hpq
        simp only [packetsLe, if_pos rfl] at h1 h2
        rw [ih h1 h2]
      · simp only [packetsLe, if_neg hpq, if_neg (Ne.symm hpq)] at h1 h2
        exact absurd (packetLe_antisymm h1 h2) hpq

lemma packetsLe_trans {x y z : List FluidPacket}
    (h1 : packetsLe x y = true) (h2 : packetsLe y z = true) : packetsLe x z = true := by
  induction x generalizing y z with
  | nil => rfl
  | cons p ps ih =>
    cases y with
    | nil => rw [packetsLe_nil_false] at h1; cases h1
    | cons q qs =>
      cases z with
      | nil => rw [packetsLe_nil_false] at h2; cases h2
      | cons r rs =>
        by_cases hpq : p = q <;> by_cases hqr : q = r
        · subst hpq; subst hqr
          simp only [packetsLe, if_pos rfl] at h1 h2 ⊢
          exact ih h1 h2
        · subst hpq
          simp only [packetsLe, if_pos rfl, if_neg hqr] at h1 h2 ⊢
          exact h2
        · subst hqr
          simp only [packetsLe, if_neg hpq] at h1 ⊢
          exact h1
        · simp only [packetsLe, if_neg hpq, if_neg hqr] at h1 h2
          by_cases hpr : p = r
          · subst hpr
            exact absurd (packetLe_antisymm h1 h2) hpq
          · simp only [packetsLe, if_neg hpr]
            exact packetLe_trans h1 h2

lemma eq_of_map_packets_eq : ∀ {l1 l2 : List FluidContainer},
    (∀ c ∈ l1, WF c) → (∀ c ∈ l2, WF c) →
    l1.map FluidContainer.packets = l2.map FluidContainer.packets → l1 = l2
  | [], [], _, _, _ => rfl
  | [], _ :: _, _, _, h => by cases h
  | _ :: _, [], _, _, h => by cases h
  | c1 :: l1, c2 :: l2, hw1, hw2, h => by
    simp only [List.map_cons, List.cons.injEq] at h
    have hc : c1 = c2 := by
      have hwc1 := hw1 c1 (List.mem_cons_self _ _)
      have hwc2 := hw2 c2 (List.mem_cons_self _ _)
      rw [WF] at hwc1 hwc2
      cases c1 with
      | mk p1 n1 =>
        cases c2 with
        | mk p2 n2 =>
          simp only at h hwc1 hwc2
          rw [hwc1, hwc2, h.1]
    rw [hc, eq_of_map_packets_eq (fun c hc => hw1 c (List.mem_cons_of_mem _ hc))
      (fun c hc => hw2 c (List.mem_cons_of_mem _ hc)) h.2]

/-- C8: over well-formed containers, the custom `GameState` equality holds
exactly when the two container sequences are permutations of each other.
In particular it is order-insensitive (permutation implies equality) and
content-sensitive (equality implies the sorted sequences — and hence the
multisets of container contents — coincide). -/
theorem gamestate_eq_iff_perm (S T : GameState)
    (hwS : ∀ c ∈ S.fluid_containers, WF c) (hwT : ∀ c ∈ T.fluid_containers, WF c) :
    (S.beq T = true ↔ S.fluid_containers.Perm T.fluid_containers) := by
  have hpermS : (GameState.get_sorted_containers S).Perm S.fluid_containers :=
    List.perm_insertionSort _ _
  have hpermT : (GameState.get_sorted_containers T).Perm T.fluid_containers :=
    List.perm_insertionSort _ _
  constructor
  · intro h
    rw [GameState.beq, beq_iff_eq] at h
    exact List.Perm.trans hpermS.symm (by rw [h]; exact hpermT)
  · intro h
    rw [GameState.beq, beq_iff_eq]
    haveI : IsTotal FluidContainer (fun a b => containerLe a b = true) :=
      ⟨fun a b => packetsLe_total a.packets b.packets⟩
    haveI : IsTrans FluidContainer (fun a b => containerLe a b = true) :=
      ⟨fun _ _ _ h1 h2 => packetsLe_trans h1 h2⟩
    have hs1 : (GameState.get_sorted_containers S).Sorted
        (fun a b => containerLe a b = true) := List.sorted_insertionSort _ _
    have hs2 : (GameState.get_sorted_containers T).Sorted
        (fun a b => containerLe a b = true) := List.sorted_insertionSort _ _
    have hperm : (GameState.get_sorted_containers S).Perm
        (GameState.get_sorted_containers T) :=
      (hpermS.trans h).trans hpermT.symm
    haveI : IsAntisymm (List FluidPacket) (fun x y => packetsLe x y = true) :=
      ⟨fun _ _ h1 h2 => packetsLe_antisymm h1 h2⟩
    have hs1m : ((GameState.get_sorted_containers S).map FluidContainer.packets).Sorted
        (fun x y => packetsLe x y = true) := (List.pairwise_map).2 hs1
    have hs2m : ((GameState.get_sorted_containers T).map FluidContainer.packets).Sorted
        (fun x y => packetsLe x y = true) := (List.pairwise_map).2 hs2
    have hmap : (GameState.get_sorted_containers S).map FluidContainer.packets
        = (GameState.get_sorted_containers T).map FluidContainer.packets :=
      List.eq_of_perm_of_sorted (hperm.map _) hs1m hs2m
    exact eq_of_map_packets_eq
      (fun c hc => hwS c (hpermS.mem_iff.1 hc))
      (fun c hc => hwT c (hpermT.mem_iff.1 hc)) hmap

/-- Witness for `gamestate_eq_iff_perm`: the two orderings of the same two
containers compare equal. -/
theorem gamestate_eq_iff_perm_witness :
    (GameState.new_from_repr ['A', 'A', 'B', '\n', 'B', '.', '.']).beq
        (GameState.new_from_repr ['B', '.', '.', '\n', 'A', 'A', 'B']) = true := by
  apply (gamestate_eq_iff_perm _ _ (by decide) (by decide)).2
  decide

/-! ## C2: the synthetic empty-space target in `is_solvable` -/

/-- Counterexample to C2 as stated: in the state `"AAA" / ".."` padded to
empty space 5 (`"AAA"` and `"....."`), the empty-space count (5) exceeds the
largest color packet-count (3), yet `is_solvable`'s target-size vector does
not receive the synthetic empty-space entry — the code's condition is the
reverse comparison. -/
theorem liquid_size_vec_push_counterexample :
    ¬ ((GameState.liquidSizeVecFinal
          (GameState.new_from_repr ['A', 'A', 'A', '\n', '.', '.', '.', '.', '.'])
        = GameState.liquidSizeVecBase
            (GameState.new_from_repr ['A', 'A', 'A', '\n', '.', '.', '.', '.', '.'])
          ++ [GameState.get_empty_spaces_count
            (GameState.new_from_repr ['A', 'A', 'A', '\n', '.', '.', '.', '.', '.'])])
      ↔ GameState.get_empty_spaces_count
            (GameState.new_from_repr ['A', 'A', 'A', '\n', '.', '.', '.', '.', '.'])
          > (GameState.liquidSizeVecBase
              (GameState.new_from_repr ['A', 'A', 'A', '\n', '.', '.', '.', '.', '.'])).foldr
                max 0) := by
  decide

/-- C2, amended: the total empty-space count is appended to
`liquid_size_vec` iff the largest color packet-count strictly exceeds it
(the code's `max > empty_spaces`, not the claim's `empty_spaces > max`);
otherwise the vector is exactly the per-color packet counts. -/
theorem liquid_size_vec_push_spec (S : GameState) :
    (GameState.liquidSizeVecFinal S
        = GameState.liquidSizeVecBase S ++ [S.get_empty_spaces_count]
      ↔ (GameState.liquidSizeVecBase S).foldr max 0 > S.get_empty_spaces_count)
      ∧ ((GameState.liquidSizeVecBase S).foldr max 0 ≤ S.get_empty_spaces_count →
          GameState.liquidSizeVecFinal S = GameState.liquidSizeVecBase S) := by
  rw [GameState.liquidSizeVecFinal]
  by_cases h : (GameState.liquidSizeVecBase S).foldr max 0 > S.get_empty_spaces_count
  · rw [if_pos h]
    exact ⟨⟨fun _ => h, fun _ => rfl⟩, fun hc => absurd h (by omega)⟩
  · rw [if_neg h]
    refine ⟨⟨fun he => ?_, fun hc => absurd hc h⟩, fun _ => rfl⟩
    have := congrArg List.length he
    simp at this

/-- Witness for `liquid_size_vec_push_spec`: in `"AAA" / ".."` the largest
color count (3) exceeds the empty space (2), and the vector indeed gets the
synthetic entry. -/
theorem liquid_size_vec_push_spec_witness :
    GameState.liquidSizeVecFinal (GameState.new_from_repr ['A', 'A', 'A', '\n', '.', '.'])
      = GameState.liquidSizeVecBase (GameState.new_from_repr ['A', 'A', 'A', '\n', '.', '.'])
        ++ [GameState.get_empty_spaces_count
            (GameState.new_from_repr ['A', 'A', 'A', '\n', '.', '.'])] :=
  (liquid_size_vec_push_spec _).1.2 (by decide)

/-! ## C7: the text codec -/

lemma letterRepGo_zero (fuel : Nat) : FluidPacket.letterRepGo fuel 0 = [] := by
  cases fuel <;> rfl

lemma letterRepGo_fuel : ∀ {m f1 f2 : Nat}, m ≤ f1 → m ≤ f2 →
    FluidPacket.letterRepGo f1 m = FluidPacket.letterRepGo f2 m := by
  intro m
  induction m using Nat.strong_induction_on with
  | _ m ih =>
    match m with
    | 0 => intro f1 f2 _ _; rw [letterRepGo_zero, letterRepGo_zero]
    | n + 1 =>
      intro f1 f2 h1 h2
      match f1, f2 with
      | a + 1, b + 1 =>
        show _ :: FluidPacket.letterRepGo a (n / 26)
            = _ :: FluidPacket.letterRepGo b (n / 26)
        congr 1
        have hdn : n / 26 ≤ n := Nat.div_le_self n 26
        exact ih (n / 26) (by omega) (by omega) (by omega)

lemma letterRepDigits_zero : FluidPacket.letterRepDigits 0 = [] := rfl

lemma letterRepDigits_succ (n : Nat) :
    FluidPacket.letterRepDigits (n + 1)
      = Char.ofNat ('A'.toNat + n % 26) :: FluidPacket.letterRepDigits (n / 26) := by
  show Char.ofNat ('A'.toNat + n % 26) :: FluidPacket.letterRepGo n (n / 26)
      = Char.ofNat ('A'.toNat + n % 26) :: FluidPacket.letterRepGo (n / 26) (n / 26)
  congr 1
  exact letterRepGo_fuel (Nat.div_le_self n 26) (le_refl _)

lemma letterRepDigits_chars {m : Nat} : ∀ c ∈ FluidPacket.letterRepDigits m,
    65 ≤ c.toNat ∧ c.toNat ≤ 90 := by
  induction m using Nat.strong_induction_on with
  | _ m ih =>
    match m with
    | 0 => intro c hc; rw [letterRepDigits_zero] at hc; cases hc
    | n + 1 =>
      intro c hc
      rw [letterRepDigits_succ] at hc
      rcases List.mem_cons.1 hc with h | h
      · subst h
        have h65 : ('A'.toNat : Nat) = 65 := rfl
        rw [h65]
        have hlt : 65 + n % 26 < 55296 := by
          have := Nat.mod_lt n (by omega : 0 < 26)
          omega
        rw [char_toNat_ofNat hlt]
        have := Nat.mod_lt n (by omega : 0 < 26)
        omega
      · exact ih (n / 26) (Nat.lt_succ_of_le (Nat.div_le_self _ _)) c h

lemma letterRepDigits_ne_nil {m : Nat} (h : m ≠ 0) : FluidPacket.letterRepDigits m ≠ [] := by
  match m with
  | 0 => exact absurd rfl h
  | n + 1 => rw [letterRepDigits_succ]; exact List.cons_ne_nil _ _

lemma lettersGo_append (acc : Nat) (xs ys : List Char) :
    FluidPacket.lettersGo acc (xs ++ ys)
      = (FluidPacket.lettersGo acc xs).bind (fun a => FluidPacket.lettersGo a ys) := by
  induction xs generalizing acc with
  | nil => rfl
  | cons ch rest ih =>
    simp only [List.cons_append, FluidPacket.lettersGo, Option.bind_eq_bind]
    cases FluidPacket.letter_to_color_id ch with
    | none => rfl
    | some digit =>
      simp only [Option.some_bind]
      cases checked_mul acc 26 with
      | none => rfl
      | some mm =>
        simp only [Option.some_bind]
        cases checked_add mm (digit + 1) with
        | none => rfl
        | some a2 => simpa using ih a2

lemma letter_digit_decode (k : Nat) (h : k < 26) :
    FluidPacket.letter_to_color_id (Char.ofNat (65 + k)) = some k := by
  have hval : (Char.ofNat (65 + k)).toNat = 65 + k := char_toNat_ofNat (by omega)
  have hupper : isAsciiUpperLetter (Char.ofNat (65 + k)) = true := by
    rw [isAsciiUpperLetter_iff, hval]
    omega
  have halpha : isAsciiAlphabetic (Char.ofNat (65 + k)) = true := by
    rw [isAsciiAlphabetic, hupper, Bool.true_or]
  rw [FluidPacket.letter_to_color_id, if_pos halpha,
    toUpper_of_upper hupper, hval]
  congr 1
  have h65 : ('A'.toNat : Nat) = 65 := rfl
  omega

/-- Decoding the (reversed) digits of the bijective base-26 encoding of `m`
on top of an accumulator `acc` yields `acc * 26 ^ digits + m`, provided that
value stays within `usize`. -/
lemma lettersGo_letterRep :
    ∀ (m acc : Nat), acc * 26 ^ (FluidPacket.letterRepDigits m).length + m ≤ USIZE_MAX →
      FluidPacket.lettersGo acc ((FluidPacket.letterRepDigits m).reverse)
        = some (acc * 26 ^ (FluidPacket.letterRepDigits m).length + m) := by
  intro m
  induction m using Nat.strong_induction_on with
  | _ m ih =>
    match m with
    | 0 => intro acc hbound; simp [letterRepDigits_zero, FluidPacket.lettersGo]
    | n + 1 =>
      intro acc hbound
      rw [letterRepDigits_succ, List.reverse_cons, lettersGo_append]
      have hlen : (FluidPacket.letterRepDigits (n + 1)).length
          = (FluidPacket.letterRepDigits (n / 26)).length + 1 := by
        rw [letterRepDigits_succ]; rfl
      rw [hlen] at hbound
      have hdivmod : 26 * (n / 26) + n % 26 = n := by
        have := Nat.div_add_mod n 26
        omega
      have hpow : acc * 26 ^ ((FluidPacket.letterRepDigits (n / 26)).length + 1)
          = (acc * 26 ^ (FluidPacket.letterRepDigits (n / 26)).length) * 26 := by
        rw [pow_succ]; ring
      rw [hpow] at hbound
      have hbound2 : acc * 26 ^ (FluidPacket.letterRepDigits (n / 26)).length + n / 26
          ≤ USIZE_MAX := by
        have h1 : acc * 26 ^ (FluidPacket.letterRepDigits (n / 26)).length
            ≤ acc * 26 ^ (FluidPacket.letterRepDigits (n / 26)).length * 26 :=
          Nat.le_mul_of_pos_right _ (by omega)
        have h2 : n / 26 ≤ n := Nat.div_le_self n 26
        omega
      rw [ih (n / 26) (Nat.lt_succ_of_le (Nat.div_le_self _ _)) acc hbound2]
      set A := acc * 26 ^ (FluidPacket.letterRepDigits (n / 26)).length + n / 26 with hA
      have hmul : checked_mul A 26 = some (A * 26) := by
        rw [checked_mul, if_pos]
        omega
      have hadd : checked_add (A * 26) (n % 26 + 1) = some (A * 26 + (n % 26 + 1)) := by
        rw [checked_add, if_pos]
        omega
      rw [show ('A'.toNat : Nat) = 65 from rfl]
      simp only [FluidPacket.lettersGo, Option.bind_eq_bind, Option.some_bind,
        letter_digit_decode (n % 26) (Nat.mod_lt n (by omega)), hmul, hadd,
        List.length_cons]
      congr 1
      rw [hA]
      have hpow2 : acc * 26 ^ ((FluidPacket.letterRepDigits (n / 26)).length + 1)
          = (acc * 26 ^ (FluidPacket.letterRepDigits (n / 26)).length) * 26 := by
        rw [pow_succ]; ring
      omega

/-- Round trip of a single color id through the letter representation. -/
lemma letters_roundtrip {id : Nat} (h : id + 1 ≤ USIZE_MAX) :
    FluidPacket.letters_to_color_id ((FluidPacket.letterRepDigits (id + 1)).reverse)
      = some id := by
  rw [FluidPacket.letters_to_color_id, if_neg]
  · have := lettersGo_letterRep (id + 1) 0 (by simpa using h)
    rw [this]
    simp only [Option.bind_eq_bind, Option.some_bind]
    rw [checked_sub, if_pos (by omega)]
    congr 1
    omega
  · simp only [ne_eq, List.reverse_eq_nil_iff]
    exact letterRepDigits_ne_nil (by omega)

/-- Every character of a packet's letter representation is a dot (46) or an
uppercase letter (65..90). -/
lemma rep_chars (p : FluidPacket) :
    ∀ c ∈ FluidPacket.get_letter_representation p,
      c.toNat = 46 ∨ (65 ≤ c.toNat ∧ c.toNat ≤ 90) := by
  cases p with
  | Empty =>
    intro c hc
    rw [FluidPacket.get_letter_representation] at hc
    left
    rcases List.mem_singleton.1 hc with rfl
    rfl
  | Fluid id =>
    intro c hc
    rw [FluidPacket.get_letter_representation] at hc
    right
    exact letterRepDigits_chars c (List.mem_reverse.1 hc)

lemma rep_ne_nil (p : FluidPacket) : FluidPacket.get_letter_representation p ≠ [] := by
  cases p with
  | Empty => simp [FluidPacket.get_letter_representation]
  | Fluid id =>
    rw [FluidPacket.get_letter_representation]
    simp only [ne_eq, List.reverse_eq_nil_iff]
    exact letterRepDigits_ne_nil (by omega)

/-- A fluid's letter representation is a single character iff its id is
below 26. -/
lemma rep_length_one_iff (id : Nat) :
    (FluidPacket.get_letter_representation (FluidPacket.Fluid id)).length = 1 ↔ id < 26 := by
  rw [FluidPacket.get_letter_representation, List.length_reverse, letterRepDigits_succ,
    List.length_cons]
  constructor
  · intro h
    have hz : (FluidPacket.letterRepDigits (id / 26)).length = 0 := by omega
    have : FluidPacket.letterRepDigits (id / 26) = [] := List.length_eq_zero.1 hz
    by_contra hge
    have : FluidPacket.letterRepDigits (id / 26) ≠ [] :=
      letterRepDigits_ne_nil (by omega)
    simp_all
  · intro h
    have : id / 26 = 0 := Nat.div_eq_of_lt h
    rw [this]
    simp [letterRepDigits_zero]

/-- Parsing a packet's own letter representation recovers the packet
(for fluid ids representable in `usize`). -/
lemma packet_token_roundtrip {p : FluidPacket}
    (hbound : ∀ id, p = FluidPacket.Fluid id → id + 1 ≤ USIZE_MAX) :
    FluidPacket.new_from_repr (FluidPacket.get_letter_representation p) = p := by
  cases p with
  | Empty => decide
  | Fluid id =>
    have hb := hbound id rfl
    have hchars := rep_chars (FluidPacket.Fluid id)
    have htrim : trimChars (FluidPacket.get_letter_representation (FluidPacket.Fluid id))
        = FluidPacket.get_letter_representation (FluidPacket.Fluid id) :=
      trimChars_eq_self (fun c hc => by rcases hchars c hc with h | h <;> omega)
    have hne : FluidPacket.get_letter_representation (FluidPacket.Fluid id) ≠ [] :=
      rep_ne_nil _
    have hdot : FluidPacket.get_letter_representation (FluidPacket.Fluid id) ≠ ['.'] := by
      intro he
      have : ('.' : Char) ∈ FluidPacket.get_letter_representation (FluidPacket.Fluid id) := by
        rw [he]; exact List.mem_singleton_self _
      rcases hchars _ this with h | h
      · rw [FluidPacket.get_letter_representation] at he
        have := letters_roundtrip hb
        rw [FluidPacket.get_letter_representation] at *
        rw [he] at this
        rw [show FluidPacket.letters_to_color_id ['.'] = none from rfl] at this
        cases this
      · exact absurd h (by decide)
    simp only [FluidPacket.new_from_repr, htrim]
    rw [if_neg (by simp [hne, hdot])]
    rw [show FluidPacket.get_letter_representation (FluidPacket.Fluid id)
        = (FluidPacket.letterRepDigits (id + 1)).reverse from rfl]
    rw [letters_roundtrip hb]

lemma lettersGo_le {a : Nat} : ∀ {s : List Char} {v : Nat}, s ≠ [] →
    FluidPacket.lettersGo a s = some v → v ≤ USIZE_MAX := by
  intro s
  induction s generalizing a with
  | nil => intro v h; exact absurd rfl h
  | cons ch rest ih =>
    intro v _ h
    simp only [FluidPacket.lettersGo, Option.bind_eq_bind, Option.bind_eq_some] at h
    obtain ⟨digit, hd, m, hm, a2, ha2, hrest⟩ := h
    have ha2le : a2 ≤ USIZE_MAX := by
      rw [checked_add] at ha2
      by_cases hc : m + (digit + 1) ≤ USIZE_MAX
      · rw [if_pos hc] at ha2; cases ha2; omega
      · rw [if_neg hc] at ha2; cases ha2
    cases hr : rest with
    | nil =>
      rw [hr] at hrest
      simp only [FluidPacket.lettersGo] at hrest
      cases hrest
      exact ha2le
    | cons c2 r2 =>
      subst hr
      exact ih (by simp) hrest

lemma parse_fluid_bound {t : List Char} {id : Nat}
    (h : FluidPacket.new_from_repr t = FluidPacket.Fluid id) : id + 1 ≤ USIZE_MAX := by
  simp only [FluidPacket.new_from_repr] at h
  by_cases hc : trimChars t = [] ∨ trimChars t = ['.']
  · rw [if_pos (by simpa using hc)] at h
    cases h
  · rw [if_neg (by simpa using hc)] at h
    cases hl : FluidPacket.letters_to_color_id (trimChars t) with
    | none => rw [hl] at h; cases h
    | some j =>
      rw [hl] at h
      cases h
      rw [FluidPacket.letters_to_color_id] at hl
      push_neg at hc
      rw [if_neg hc.1] at hl
      simp only [Option.bind_eq_bind, Option.bind_eq_some] at hl
      obtain ⟨acc, hacc, hsub⟩ := hl
      have haccle : acc ≤ USIZE_MAX := lettersGo_le hc.1 hacc
      rw [checked_sub] at hsub
      by_cases h1 : 1 ≤ acc
      · rw [if_pos h1] at hsub
        cases hsub
        omega
      · rw [if_neg h1] at hsub
        cases hsub

lemma mem_intercalate_cases {α : Type} [DecidableEq α] {x a : α} :
    ∀ {xs : List (List α)}, a ∈ List.intercalate [x] xs → a = x ∨ ∃ l ∈ xs, a ∈ l := by
  intro xs
  induction xs with
  | nil => intro h; cases h
  | cons l1 rest ih =>
    cases rest with
    | nil =>
      intro h
      rw [show List.intercalate [x] [l1] = l1 ++ [] from rfl, List.append_nil] at h
      exact Or.inr ⟨l1, List.mem_singleton_self _, h⟩
    | cons l2 t =>
      intro h
      rw [show List.intercalate [x] (l1 :: l2 :: t)
          = l1 ++ x :: List.intercalate [x] (l2 :: t) from rfl] at h
      rcases List.mem_append.1 h with h | h
      · exact Or.inr ⟨l1, List.mem_cons_self _ _, h⟩
      · rcases List.mem_cons.1 h with h | h
        · exact Or.inl h
        · rcases ih h with h | ⟨l, hl, hal⟩
          · exact Or.inl h
          · exact Or.inr ⟨l, List.mem_cons_of_mem _ hl, hal⟩

lemma flatten_singletons_map {α : Type} :
    ∀ {L : List (List α)}, (∀ s ∈ L, s.length = 1) →
      (L.flatten).map (fun ch => [ch]) = L := by
  intro L
  induction L with
  | nil => intro _; rfl
  | cons s rest ih =>
    intro h
    have hs := h s (List.mem_cons_self _ _)
    obtain ⟨c, rfl⟩ : ∃ c, s = [c] := by
      cases s with
      | nil => cases hs
      | cons c t =>
        cases t with
        | nil => exact ⟨c, rfl⟩
        | cons _ _ => simp at hs
    rw [List.flatten_cons, List.singleton_append, List.map_cons]
    rw [ih (fun s hs => h s (List.mem_cons_of_mem _ hs))]

/-- Shape of a parsed container: front-loaded fluids followed by empties,
a consistent capacity field, and `usize`-representable color ids. -/
lemma parse_container_shape (r : List Char) :
    ∃ NE k, (FluidContainer.new_from_repr r).packets = NE ++ List.replicate k FluidPacket.Empty
      ∧ (∀ p ∈ NE, p.is_empty = false)
      ∧ WF (FluidContainer.new_from_repr r)
      ∧ (∀ id, FluidPacket.Fluid id ∈ (FluidContainer.new_from_repr r).packets →
          id + 1 ≤ USIZE_MAX) := by
  refine ⟨((containerTokens r).map FluidPacket.new_from_repr).filter (fun p => !p.is_empty),
    ((containerTokens r).map FluidPacket.new_from_repr).length
      - (((containerTokens r).map FluidPacket.new_from_repr).filter
          (fun p => !p.is_empty)).length,
    rfl, ?_, rfl, ?_⟩
  · intro p hp
    have := List.of_mem_filter hp
    simpa using this
  · intro id hid
    rw [show (FluidContainer.new_from_repr r).packets
        = ((containerTokens r).map FluidPacket.new_from_repr).filter (fun p => !p.is_empty)
          ++ List.replicate (((containerTokens r).map FluidPacket.new_from_repr).length
            - (((containerTokens r).map FluidPacket.new_from_repr).filter
              (fun p => !p.is_empty)).length) FluidPacket.Empty from rfl] at hid
    rcases List.mem_append.1 hid with h | h
    · have hmem := List.mem_of_mem_filter h
      rcases List.mem_map.1 hmem with ⟨t, -, ht⟩
      exact parse_fluid_bound ht
    · have := List.eq_of_mem_replicate h
      cases this

/-- Parsing back the serialization of a normalized container recovers it,
provided it is not a single packet whose color id needs several letters
(that case serializes without the comma that forces multi-letter reading). -/
lemma container_roundtrip_of_normalized {C : FluidContainer} {NE : List FluidPacket} {k : Nat}
    (hwf : WF C) (hP : C.packets = NE ++ List.replicate k FluidPacket.Empty)
    (hNE : ∀ p ∈ NE, p.is_empty = false)
    (hbound : ∀ id, FluidPacket.Fluid id ∈ C.packets → id + 1 ≤ USIZE_MAX)
    (hexc : ∀ id, C.packets = [FluidPacket.Fluid id] → id < 26) :
    FluidContainer.new_from_repr C.get_text_representation = C := by
  have hback : ∀ p ∈ C.packets,
      FluidPacket.new_from_repr (FluidPacket.get_letter_representation p) = p :=
    fun p hp => packet_token_roundtrip (fun id hid => hbound id (hid ▸ hp))
  have hmapback :
      (C.packets.map FluidPacket.get_letter_representation).map FluidPacket.new_from_repr
        = C.packets := by
    rw [List.map_map]
    calc C.packets.map (FluidPacket.new_from_repr ∘ FluidPacket.get_letter_representation)
        = C.packets.map id := List.map_congr_left (fun p hp => hback p hp)
      _ = C.packets := List.map_id _
  have hmemrep : ∀ s ∈ C.packets.map FluidPacket.get_letter_representation,
      ∀ c ∈ s, c.toNat = 46 ∨ (65 ≤ c.toNat ∧ c.toNat ≤ 90) := by
    intro s hs c hc
    rcases List.mem_map.1 hs with ⟨p, -, rfl⟩
    exact rep_chars p c hc
  have hnocommarep : ∀ s ∈ C.packets.map FluidPacket.get_letter_representation,
      (',' : Char) ∉ s := by
    intro s hs hmem
    rcases hmemrep s hs ',' hmem with h | h
    · exact absurd h (by decide)
    · exact absurd h.1 (by decide)
  have hfinish : ∀ text : List Char,
      containerTokens text = C.packets.map FluidPacket.get_letter_representation →
      FluidContainer.new_from_repr text = C := by
    intro text htok
    simp only [FluidContainer.new_from_repr]
    rw [htok, hmapback, hP]
    have hfilter : (NE ++ List.replicate k FluidPacket.Empty).filter (fun p => !p.is_empty)
        = NE := by
      rw [List.filter_append, List.filter_eq_self.2 (by
        intro p hp
        rw [hNE p hp]
        rfl)]
      rw [List.filter_eq_nil_iff.2 (by
        intro p hp
        have := List.eq_of_mem_replicate hp
        subst this
        simp)]
      rw [List.append_nil]
    rw [hfilter]
    have hlen : (NE ++ List.replicate k FluidPacket.Empty).length - NE.length = k := by
      simp
    rw [hlen]
    cases C with
    | mk Cp Cc =>
      simp only at hP hwf ⊢
      rw [WF] at hwf
      simp only at hwf
      rw [← hP]
      congr 1
      rw [hwf, hP]
  simp only [FluidContainer.get_text_representation]
  by_cases hm : (C.packets.map FluidPacket.get_letter_representation).any
      (fun s => s.length > 1)
  · rw [if_pos hm]
    rcases List.any_eq_true.1 hm with ⟨s, hs, hlong⟩
    match hR : C.packets.map FluidPacket.get_letter_representation with
    | [] => rw [hR] at hs; cases hs
    | [s0] =>
      exfalso
      obtain ⟨p, hp, hps⟩ : ∃ p, C.packets = [p]
          ∧ FluidPacket.get_letter_representation p = s0 := by
        match hC : C.packets with
        | [] => rw [hC] at hR; cases hR
        | [p] =>
          rw [hC] at hR
          simp only [List.map_cons, List.map_nil, List.cons.injEq] at hR
          exact ⟨p, rfl, hR.1⟩
        | p :: q :: t => rw [hC] at hR; simp at hR
      rw [hR] at hs
      rcases List.mem_singleton.1 hs with rfl
      cases p with
      | Empty =>
        rw [FluidPacket.get_letter_representation] at hps
        rw [← hps] at hlong
        simp at hlong
      | Fluid id =>
        have hid : id < 26 := hexc id hp
        have := (rep_length_one_iff id).2 hid
        rw [hps] at this
        rw [this] at hlong
        simp at hlong
    | s0 :: s1 :: rest =>
      apply hfinish
      rw [containerTokens, if_pos]
      · have hsplit : List.splitOn ',' (List.intercalate [','] (s0 :: s1 :: rest))
            = s0 :: s1 :: rest := by
          rw [← hR]
          exact List.splitOn_intercalate _ ',' hnocommarep (by rw [hR]; simp)
        rw [hsplit, ← hR, List.filter_eq_self.2]
        intro s hs
        rcases List.mem_map.1 hs with ⟨p, -, rfl⟩
        simp only [ne_eq, decide_not, Bool.not_eq_eq_eq_not, Bool.not_true,
          decide_eq_false_iff_not]
        exact rep_ne_nil p
      · rw [List.elem_iff]
        rw [show List.intercalate [','] (s0 :: s1 :: rest)
            = s0 ++ ',' :: List.intercalate [','] (s1 :: rest) from rfl]
        exact List.mem_append_right _ (List.mem_cons_self _ _)
  · rw [if_neg hm]
    apply hfinish
    rw [containerTokens, if_neg]
    · apply flatten_singletons_map
      intro s hs
      rcases List.mem_map.1 hs with ⟨p, hp, rfl⟩
      have h1 : (FluidPacket.get_letter_representation p).length ≠ 0 := by
        simpa using rep_ne_nil p
      have h2 : ¬ (FluidPacket.get_letter_representation p).length > 1 := by
        intro hgt
        exact hm (List.any_eq_true.2 ⟨_, List.mem_map_of_mem _ hp, by simpa using hgt⟩)
      omega
    · rw [List.elem_iff]
      intro hmem
      rcases List.mem_flatten.1 hmem with ⟨s, hs, hcs⟩
      exact hnocommarep s hs hcs

/-- Characters of a container's serialization: comma (44), dot (46), or an
uppercase letter (65..90). -/
lemma text_chars (C : FluidContainer) :
    ∀ ch ∈ C.get_text_representation,
      ch.toNat = 44 ∨ ch.toNat = 46 ∨ (65 ≤ ch.toNat ∧ ch.toNat ≤ 90) := by
  intro ch hch
  simp only [FluidContainer.get_text_representation] at hch
  by_cases hm : (C.packets.map FluidPacket.get_letter_representation).any
      (fun s => s.length > 1)
  · rw [if_pos hm] at hch
    rcases mem_intercalate_cases hch with h | ⟨l, hl, hcl⟩
    · subst h; left; rfl
    · rcases List.mem_map.1 hl with ⟨p, -, rfl⟩
      rcases rep_chars p ch hcl with h | h
      · exact Or.inr (Or.inl h)
      · exact Or.inr (Or.inr h)
  · rw [if_neg hm] at hch
    rcases List.mem_flatten.1 hch with ⟨l, hl, hcl⟩
    rcases List.mem_map.1 hl with ⟨p, -, rfl⟩
    rcases rep_chars p ch hcl with h | h
    · exact Or.inr (Or.inl h)
    · exact Or.inr (Or.inr h)

/-- C7, amended: parse-serialize-parse is the identity on every state the
parser produces, provided no container consists of exactly one packet whose
color id is 26 or more.  (Such a container serializes as a bare multi-letter
token with no comma, which re-parses one character per packet — see
`parse_serialize_counterexample`.) -/
theorem parse_serialize_roundtrip (R : List Char)
    (hexc : ∀ c ∈ (GameState.new_from_repr R).fluid_containers,
      ∀ id, c.packets = [FluidPacket.Fluid id] → id < 26) :
    GameState.new_from_repr ((GameState.new_from_repr R).get_text_representation)
      = GameState.new_from_repr R := by
  have hcont : ∀ c ∈ (GameState.new_from_repr R).fluid_containers,
      FluidContainer.new_from_repr (c.get_text_representation) = c := by
    intro c hc
    have hc0 := hc
    rw [GameState.new_from_repr] at hc
    have hc2 := List.mem_of_mem_filter hc
    rcases List.mem_map.1 hc2 with ⟨line, -, rfl⟩
    obtain ⟨NE, k, hP, hNE, hwf, hb⟩ := parse_container_shape line
    exact container_roundtrip_of_normalized hwf hP hNE hb (hexc _ hc0)
  have hcap : ∀ c ∈ (GameState.new_from_repr R).fluid_containers, c.get_capacity ≠ 0 := by
    intro c hc
    rw [GameState.new_from_repr] at hc
    have := List.of_mem_filter hc
    simpa using this
  cases hCs : (GameState.new_from_repr R).fluid_containers with
  | nil =>
    rw [GameState.get_text_representation, hCs]
    have h1 : GameState.new_from_repr
        (List.intercalate ['\n'] (List.map FluidContainer.get_text_representation []))
        = GameState.mk [] := by decide
    rw [h1]
    cases hmk : GameState.new_from_repr R with
    | mk cs =>
      rw [hmk] at hCs
      simp only at hCs
      rw [hCs]
  | cons C0 Cs =>
    have htextnl : ∀ t ∈ (GameState.new_from_repr R).fluid_containers.map
        FluidContainer.get_text_representation, ('\n' : Char) ∉ t := by
      intro t ht hmem
      rcases List.mem_map.1 ht with ⟨c, -, rfl⟩
      rcases text_chars c '\n' hmem with h | h | h
      · exact absurd h (by decide)
      · exact absurd h (by decide)
      · exact absurd h.1 (by decide)
    have hsplit : List.splitOn '\n'
        (List.intercalate ['\n'] ((GameState.new_from_repr R).fluid_containers.map
          FluidContainer.get_text_representation))
        = (GameState.new_from_repr R).fluid_containers.map
            FluidContainer.get_text_representation :=
      List.splitOn_intercalate _ '\n' htextnl (by rw [hCs]; simp)
    have hlines : linesOf ((GameState.new_from_repr R).get_text_representation)
        = (GameState.new_from_repr R).fluid_containers.map
            FluidContainer.get_text_representation := by
      rw [linesOf, GameState.get_text_representation, hsplit]
      have hstrip : List.map
          (fun (l : List Char) => if l.getLast? = some '\r' then l.dropLast else l)
          ((GameState.new_from_repr R).fluid_containers.map
            FluidContainer.get_text_representation)
          = ((GameState.new_from_repr R).fluid_containers.map
              FluidContainer.get_text_representation).map id := by
        apply List.map_congr_left
        intro t ht
        show (if t.getLast? = some '\r' then t.dropLast else t) = id t
        cases hl : t.getLast? with
        | none => rfl
        | some c =>
          have hcm := List.mem_of_mem_getLast? hl
          rcases List.mem_map.1 ht with ⟨cc, -, rfl⟩
          have hc13 : c ≠ '\r' := by
            intro he
            subst he
            rcases text_chars cc _ hcm with h | h | h
            · exact absurd h (by decide)
            · exact absurd h (by decide)
            · exact absurd h.1 (by decide)
          rw [if_neg (by simp [hc13])]
          rfl
      rw [hstrip, List.map_id]
    rw [GameState.new_from_repr, hlines]
    have hmapid : ((GameState.new_from_repr R).fluid_containers.map
        FluidContainer.get_text_representation).map FluidContainer.new_from_repr
        = (GameState.new_from_repr R).fluid_containers := by
      rw [List.map_map]
      have h1 : (GameState.new_from_repr R).fluid_containers.map
          (FluidContainer.new_from_repr ∘ FluidContainer.get_text_representation)
          = (GameState.new_from_repr R).fluid_containers.map id :=
        List.map_congr_left (fun c hc => hcont c hc)
      rw [h1, List.map_id]
    rw [hmapid]
    rw [List.filter_eq_self.2 (by
      intro c hc
      simpa using hcap c hc)]

/-- Counterexample to C7 as stated: the state parsed from `"AB,"` (one
container holding the single packet of color id 27) serializes to `"AB"`
with no comma, which re-parses as two packets of colors 0 and 1 — the text
codec does not round-trip on this parser-constructed state. -/
theorem parse_serialize_counterexample :
    GameState.new_from_repr
        ((GameState.new_from_repr ['A', 'B', ',']).get_text_representation)
      ≠ GameState.new_from_repr ['A', 'B', ','] := by
  decide

/-- Witness for `parse_serialize_roundtrip` on the two-container state
parsed from `"AAB\nB.."`. -/
theorem parse_serialize_roundtrip_witness :
    GameState.new_from_repr
        (GameState.get_text_representation
          (GameState.new_from_repr ['A', 'A', 'B', '\n', 'B', '.', '.']))
      = GameState.new_from_repr ['A', 'A', 'B', '\n', 'B', '.', '.'] :=
  parse_serialize_roundtrip ['A', 'A', 'B', '\n', 'B', '.', '.'] (by
    intro c hc id hp
    have hc2 : c ∈ [FluidContainer.mk
        [FluidPacket.Fluid 0, FluidPacket.Fluid 0, FluidPacket.Fluid 1] 3,
        FluidContainer.mk [FluidPacket.Fluid 1, FluidPacket.Empty, FluidPacket.Empty] 3] := by
      exact hc
    rcases List.mem_cons.1 hc2 with rfl | hc3
    · simp at hp
    · rcases List.mem_cons.1 hc3 with rfl | hc4
      · simp at hp
      · cases hc4)


/-! ## Subset sums, the color tally, and the fast unsolvability check (C1) -/

lemma mem_reach_foldl (caps : List Nat) :
    ∀ (s : Finset Nat) (x : Nat),
      (x ∈ caps.foldl (fun s c => s ∪ s.image (fun r => r + c)) s ↔
        ∃ x0 ∈ s, ∃ l : List Nat, l.Sublist caps ∧ x = x0 + l.sum) := by
  induction caps with
  | nil =>
    intro s x
    simp only [List.foldl_nil]
    constructor
    · intro hx
      exact ⟨x, hx, [], List.Sublist.refl _, by simp⟩
    · rintro ⟨x0, hx0, l, hl, rfl⟩
      rw [List.sublist_nil.1 hl]
      simpa using hx0
  | cons c caps ih =>
    intro s x
    rw [List.foldl_cons, ih]
    constructor
    · rintro ⟨x0, hx0, l, hl, rfl⟩
      rcases Finset.mem_union.1 hx0 with h | h
      · exact ⟨x0, h, l, hl.cons c, rfl⟩
      · rcases Finset.mem_image.1 h with ⟨y, hy, rfl⟩
        exact ⟨y, hy, c :: l, hl.cons₂ c, by rw [List.sum_cons]; omega⟩
    · rintro ⟨x0, hx0, l, hl, rfl⟩
      cases hl with
      | cons a h => exact ⟨x0, Finset.mem_union_left _ hx0, _, h, rfl⟩
      | cons₂ a h =>
        rename_i l'
        exact ⟨x0 + c, Finset.mem_union_right _ (Finset.mem_image.2 ⟨x0, hx0, rfl⟩),
          l', h, by rw [List.sum_cons]; omega⟩

lemma reachable_iff_subsetSum (caps : List Nat) (n : Nat) :
    n ∈ reachableSizes caps ↔ SubsetSum caps n := by
  rw [reachableSizes, mem_reach_foldl]
  constructor
  · rintro ⟨x0, hx0, l, hl, rfl⟩
    rw [Finset.mem_singleton] at hx0
    subst hx0
    exact ⟨l, hl, by omega⟩
  · rintro ⟨l, hl, rfl⟩
    exact ⟨0, Finset.mem_singleton_self 0, l, hl, by omega⟩

lemma lookup_cons_pair {β : Type} (k j : Nat) (v : β) (rest : List (Nat × β)) :
    ((k, v) :: rest).lookup j = if k = j then some v else rest.lookup j := by
  by_cases h : k = j
  · subst h; simp [List.lookup]
  · have hjk : (j == k) = false := beq_eq_false_iff_ne.2 (fun he => h he.symm)
    simp [List.lookup, h, hjk]

lemma bump_lookup_self (m : List (Nat × Nat)) (id : Nat) :
    (bumpCount m id).lookup id = some ((m.lookup id).getD 0 + 1) := by
  induction m with
  | nil => simp [bumpCount, lookup_cons_pair]
  | cons kv rest ih =>
    obtain ⟨c, n⟩ := kv
    by_cases hc : c = id
    · subst hc
      rw [bumpCount, if_pos rfl, lookup_cons_pair, lookup_cons_pair, if_pos rfl, if_pos rfl]
      rfl
    · rw [bumpCount, if_neg hc, lookup_cons_pair, lookup_cons_pair, if_neg hc, if_neg hc, ih]

lemma bump_lookup_ne (m : List (Nat × Nat)) {id j : Nat} (h : j ≠ id) :
    (bumpCount m id).lookup j = m.lookup j := by
  induction m with
  | nil =>
    rw [bumpCount, lookup_cons_pair, if_neg (Ne.symm h)]
  | cons kv rest ih =>
    obtain ⟨c, n⟩ := kv
    by_cases hc : c = id
    · subst hc
      rw [bumpCount, if_pos rfl, lookup_cons_pair, lookup_cons_pair,
        if_neg (fun he => h he.symm), if_neg (fun he => h he.symm)]
    · rw [bumpCount, if_neg hc, lookup_cons_pair, lookup_cons_pair]
      by_cases hcj : c = j
      · rw [if_pos hcj, if_pos hcj]
      · rw [if_neg hcj, if_neg hcj, ih]

lemma foldl_bump_lookupD (ids : List Nat) :
    ∀ (m : List (Nat × Nat)) (k : Nat),
      lookupD (ids.foldl bumpCount m) k = lookupD m k + ids.count k := by
  induction ids with
  | nil => intro m k; simp
  | cons i ids ih =>
    intro m k
    rw [List.foldl_cons, ih]
    by_cases hik : i = k
    · subst hik
      rw [List.count_cons_self, lookupD, bump_lookup_self, lookupD]
      simp only [Option.getD_some]
      omega
    · rw [List.count_cons_of_ne (Ne.symm hik), lookupD, bump_lookup_ne m (Ne.symm hik), lookupD]

lemma foldl_bump_lookup_none {ids : List Nat} :
    ∀ {m : List (Nat × Nat)} {k : Nat},
      (ids.foldl bumpCount m).lookup k = none → m.lookup k = none ∧ k ∉ ids := by
  induction ids with
  | nil => intro m k h; exact ⟨h, by simp⟩
  | cons i ids ih =>
    intro m k h
    rw [List.foldl_cons] at h
    obtain ⟨hb, hni⟩ := ih h
    by_cases hik : i = k
    · subst hik
      rw [bump_lookup_self] at hb
      cases hb
    · rw [bump_lookup_ne m (Ne.symm hik)] at hb
      exact ⟨hb, by simp [hni, Ne.symm hik]⟩

lemma lookup_mem {β : Type} {l : List (Nat × β)} {k : Nat} {v : β}
    (h : l.lookup k = some v) : (k, v) ∈ l := by
  induction l with
  | nil => cases h
  | cons kv rest ih =>
    obtain ⟨c, n⟩ := kv
    rw [lookup_cons_pair] at h
    by_cases hc : c = k
    · subst hc
      rw [if_pos rfl] at h
      cases h
      exact List.mem_cons_self _ _
    · rw [if_neg hc] at h
      exact List.mem_cons_of_mem _ (ih h)

lemma tally_mem_count {ids : List Nat} {k : Nat} (h : k ∈ ids) :
    (k, ids.count k) ∈ tallyNat ids := by
  have hl := foldl_bump_lookupD ids [] k
  rw [tallyNat]
  cases hlk : (ids.foldl bumpCount []).lookup k with
  | none => exact absurd h (foldl_bump_lookup_none hlk).2
  | some v =>
    have hv : v = ids.count k := by
      rw [lookupD, hlk] at hl
      simpa [lookupD] using hl
    exact hv ▸ lookup_mem hlk

lemma bump_keys (m : List (Nat × Nat)) (id : Nat) :
    (bumpCount m id).map Prod.fst
      = if id ∈ m.map Prod.fst then m.map Prod.fst else m.map Prod.fst ++ [id] := by
  induction m with
  | nil => simp [bumpCount]
  | cons kv rest ih =>
    obtain ⟨c, n⟩ := kv
    by_cases hc : c = id
    · subst hc
      simp [bumpCount]
    · rw [bumpCount, if_neg hc]
      simp only [List.map_cons, ih]
      by_cases hm : id ∈ rest.map Prod.fst
      · rw [if_pos hm, if_pos (by simp [hm])]
      · rw [if_neg hm, if_neg (by simp [hm, Ne.symm hc])]
        simp

lemma foldl_bump_keys_nodup (ids : List Nat) :
    ∀ (m : List (Nat × Nat)), (m.map Prod.fst).Nodup →
      ((ids.foldl bumpCount m).map Prod.fst).Nodup := by
  induction ids with
  | nil => exact fun m h => h
  | cons i ids ih =>
    intro m hm
    rw [List.foldl_cons]
    apply ih
    rw [bump_keys]
    by_cases hm2 : i ∈ m.map Prod.fst
    · rw [if_pos hm2]
      exact hm
    · rw [if_neg hm2]
      simp [List.nodup_append, hm, hm2]

lemma tally_keys_nodup (ids : List Nat) : ((tallyNat ids).map Prod.fst).Nodup :=
  foldl_bump_keys_nodup ids [] (by simp)

lemma mem_lookup_of_nodup {β : Type} {l : List (Nat × β)} {k : Nat} {v : β}
    (hnd : (l.map Prod.fst).Nodup) (h : (k, v) ∈ l) : l.lookup k = some v := by
  induction l with
  | nil => cases h
  | cons kv rest ih =>
    obtain ⟨c, n⟩ := kv
    rw [List.map_cons, List.nodup_cons] at hnd
    rw [lookup_cons_pair]
    rcases List.mem_cons.1 h with heq | hmem
    · cases heq
      rw [if_pos rfl]
    · have hc : c ≠ k := by
        intro hck
        apply hnd.1
        rw [hck]
        exact List.mem_map.2 ⟨(k, v), hmem, rfl⟩
      rw [if_neg hc]
      exact ih hnd.2 hmem

lemma tally_count_of_mem {ids : List Nat} {k v : Nat} (h : (k, v) ∈ tallyNat ids) :
    v = ids.count k := by
  have hl := mem_lookup_of_nodup (tally_keys_nodup ids) h
  have hd := foldl_bump_lookupD ids [] k
  rw [tallyNat] at hl
  rw [lookupD, hl] at hd
  simpa [lookupD] using hd

lemma inner_fold_eq (ps : List FluidPacket) :
    ∀ acc : List (Nat × Nat),
      ps.foldl (fun acc2 p => match p with
        | FluidPacket.Fluid id => bumpCount acc2 id
        | FluidPacket.Empty => acc2) acc
      = (packetColorIds ps).foldl bumpCount acc := by
  induction ps with
  | nil => intro acc; rfl
  | cons p ps ih =>
    intro acc
    cases p with
    | Empty =>
      rw [List.foldl_cons]
      rw [show packetColorIds (FluidPacket.Empty :: ps) = packetColorIds ps from rfl]
      exact ih acc
    | Fluid id =>
      rw [List.foldl_cons]
      rw [show packetColorIds (FluidPacket.Fluid id :: ps) = id :: packetColorIds ps from rfl,
        List.foldl_cons]
      exact ih (bumpCount acc id)

lemma gacc_eq_tally (g : GameState) :
    g.get_available_colors_with_count = tallyNat (stateColorIds g) := by
  rw [GameState.get_available_colors_with_count, tallyNat, stateColorIds]
  suffices h : ∀ (cs : List FluidContainer) (acc : List (Nat × Nat)),
      cs.foldl (fun acc c => c.packets.foldl (fun acc2 p => match p with
          | FluidPacket.Fluid id => bumpCount acc2 id
          | FluidPacket.Empty => acc2) acc) acc
        = ((cs.map (fun c => packetColorIds c.packets)).flatten).foldl bumpCount acc by
    exact h g.fluid_containers []
  intro cs
  induction cs with
  | nil => intro acc; rfl
  | cons c cs ih =>
    intro acc
    rw [List.foldl_cons, ih, List.map_cons, List.flatten_cons, List.foldl_append, inner_fold_eq]

lemma count_packetColorIds (ps : List FluidPacket) (id : Nat) :
    (packetColorIds ps).count id = ps.count (FluidPacket.Fluid id) := by
  induction ps with
  | nil => rfl
  | cons p ps ih =>
    cases p with
    | Empty =>
      rw [show packetColorIds (FluidPacket.Empty :: ps) = packetColorIds ps from rfl,
        List.count_cons_of_ne (by simp), ih]
    | Fluid j =>
      rw [show packetColorIds (FluidPacket.Fluid j :: ps) = j :: packetColorIds ps from rfl]
      by_cases hj : j = id
      · subst hj
        rw [List.count_cons_self, List.count_cons_self, ih]
      · rw [List.count_cons_of_ne (Ne.symm hj), List.count_cons_of_ne (by simp [Ne.symm hj]), ih]

lemma count_stateColorIds (g : GameState) (id : Nat) :
    (stateColorIds g).count id = totalColorCount g id := by
  rw [stateColorIds, totalColorCount, List.count_flatten, List.map_map]
  congr 1
  apply List.map_congr_left
  intro c hc
  exact count_packetColorIds c.packets id

lemma topDepthAux_le_length (r : List FluidPacket) : topDepthAux r ≤ r.length :=
  le_trans (topDepthAux_le_countFluid r) (List.length_filter_le _ _)

lemma depth_eq_length_classify {r : List FluidPacket} (h : topDepthAux r = r.length) :
    (∀ e ∈ r, e = FluidPacket.Empty) ∨
      (∃ id, r = List.replicate r.length (FluidPacket.Fluid id)) ∧ r ≠ [] := by
  cases r with
  | nil => exact Or.inl (by simp)
  | cons p rest =>
    cases p with
    | Empty =>
      exfalso
      have h1 : topDepthAux (FluidPacket.Empty :: rest) = topDepthAux rest := rfl
      have h2 := topDepthAux_le_length rest
      rw [h1] at h
      rw [List.length_cons] at h
      omega
    | Fluid id =>
      right
      refine ⟨⟨id, ?_⟩, by simp⟩
      have h1 : topDepthAux (FluidPacket.Fluid id :: rest)
          = 1 + (rest.takeWhile (fun p => p == FluidPacket.Fluid id)).length := rfl
      rw [h1, List.length_cons] at h
      have hlen : (rest.takeWhile (fun p => p == FluidPacket.Fluid id)).length
          = rest.length := by omega
      have htw : rest.takeWhile (fun p => p == FluidPacket.Fluid id) = rest :=
        (List.takeWhile_prefix _).eq_of_length hlen
      have hall : ∀ x ∈ rest, x = FluidPacket.Fluid id := by
        intro x hx
        have hx2 : x ∈ rest.takeWhile (fun p => p == FluidPacket.Fluid id) := by
          rw [htw]
          exact hx
        have := List.mem_takeWhile_imp hx2
        simpa using this
      have hrep : rest = List.replicate rest.length (FluidPacket.Fluid id) :=
        List.eq_replicate_of_mem hall
      rw [List.length_cons, List.replicate_succ, ← hrep]

lemma solved_container_classify {c : FluidContainer} (hwf : WF c)
    (hc : (c.is_empty || (c.get_top_fluid_depth == c.get_capacity)) = true) :
    emptyRep c ∨ ∃ id, fullPos id c := by
  rcases Bool.or_eq_true_iff.1 hc with he | hd
  · left
    rw [emptyRep, hwf]
    apply List.eq_replicate_of_mem
    intro b hb
    exact is_empty_iff.1 (List.all_eq_true.1 he b hb)
  · rw [beq_iff_eq] at hd
    have hlen : topDepthAux c.packets.reverse = c.packets.reverse.length := by
      rw [show topDepthAux c.packets.reverse = c.get_top_fluid_depth from rfl, hd,
        List.length_reverse, FluidContainer.get_capacity, hwf]
    rcases depth_eq_length_classify hlen with hall | ⟨⟨id, hrep⟩, hne⟩
    · left
      rw [emptyRep, hwf]
      apply List.eq_replicate_of_mem
      intro b hb
      exact hall b (List.mem_reverse.2 hb)
    · right
      refine ⟨id, ?_, ?_⟩
      · have h2 := congrArg List.reverse hrep
        rw [List.reverse_reverse, List.reverse_replicate, List.length_reverse] at h2
        rw [h2, hwf]
      · have : c.packets.reverse.length ≠ 0 := fun h0 => hne (List.eq_nil_of_length_eq_zero h0)
        rw [List.length_reverse] at this
        rw [hwf]
        omega

lemma sum_map_eq_filter_sum {α : Type} (l : List α) (f g0 : α → Nat) (p : α → Bool)
    (h : ∀ a ∈ l, f a = if p a then g0 a else 0) :
    (l.map f).sum = ((l.filter p).map g0).sum := by
  induction l with
  | nil => rfl
  | cons a l ih =>
    rw [List.map_cons, List.sum_cons, h a (List.mem_cons_self a l),
      ih (fun b hb => h b (List.mem_cons_of_mem _ hb))]
    by_cases hp : p a
    · rw [if_pos hp, List.filter_cons_of_pos hp, List.map_cons, List.sum_cons]
    · rw [if_neg (by simp [hp]), List.filter_cons_of_neg (by simp [hp]), Nat.zero_add]

lemma replicate_empty_ne_fluid {cap : Nat} {id : Nat} (hpos : 0 < cap) :
    List.replicate cap FluidPacket.Empty ≠ List.replicate cap (FluidPacket.Fluid id) := by
  intro h
  cases cap with
  | zero => omega
  | succ n =>
    rw [List.replicate_succ, List.replicate_succ] at h
    cases h

lemma countColor_of_classified {c : FluidContainer} (id : Nat)
    (hcl : emptyRep c ∨ ∃ j, fullPos j c) :
    countColor id c = if decide (fullPos id c) then c.get_capacity else 0 := by
  rcases hcl with he | ⟨j, hj⟩
  · rw [countColor, he, List.count_replicate, if_neg (by simp), if_neg]
    simp only [decide_eq_true_eq]
    intro hf
    exact replicate_empty_ne_fluid hf.2 (he.symm.trans hf.1)
  · rw [countColor, hj.1, List.count_replicate]
    by_cases hij : j = id
    · subst hij
      rw [if_pos (by simp), if_pos (by simp only [decide_eq_true_eq]; exact ⟨hj.1, hj.2⟩)]
      rfl
    · rw [if_neg (by simp [hij]), if_neg]
      simp only [decide_eq_true_eq]
      intro hf
      have h2 := (hj.1.symm.trans hf.1)
      have hpos := hj.2
      cases hcap : c.capacity with
      | zero => omega
      | succ n =>
        rw [hcap, List.replicate_succ, List.replicate_succ] at h2
        cases h2
        exact hij rfl

lemma empty_space_of_classified {c : FluidContainer}
    (hcl : emptyRep c ∨ ∃ j, fullPos j c) :
    c.get_empty_space = if decide (emptyRepPos c) then c.get_capacity else 0 := by
  rcases hcl with he | ⟨j, hj⟩
  · rw [FluidContainer.get_empty_space, he]
    rw [List.filter_replicate, if_pos (by rfl), List.length_replicate]
    by_cases hpos : 0 < c.capacity
    · rw [if_pos (by simp only [decide_eq_true_eq]; exact ⟨he, hpos⟩)]
      rfl
    · rw [if_neg (by simp only [decide_eq_true_eq]; exact fun hf => hpos hf.2)]
      omega
  · rw [FluidContainer.get_empty_space, hj.1]
    rw [List.filter_replicate, if_neg (by simp), List.length_nil, if_neg]
    simp only [decide_eq_true_eq]
    intro hf
    exact replicate_empty_ne_fluid hj.2 (hf.1.symm.trans hj.1)

lemma solved_sums (g : GameState) (hwf : ∀ c ∈ g.fluid_containers, WF c)
    (hs : g.is_solved = true) :
    (∀ id, SubsetSum (g.fluid_containers.map (fun c => c.get_capacity)) (totalColorCount g id))
      ∧ SubsetSum (g.fluid_containers.map (fun c => c.get_capacity))
          g.get_empty_spaces_count := by
  have hcl : ∀ c ∈ g.fluid_containers, emptyRep c ∨ ∃ j, fullPos j c := by
    intro c hc
    exact solved_container_classify (hwf c hc) (List.all_eq_true.1 hs c hc)
  constructor
  · intro id
    rw [totalColorCount, sum_map_eq_filter_sum _ _ (fun c => c.get_capacity)
      (fun c => decide (fullPos id c)) (fun c hc => countColor_of_classified id (hcl c hc))]
    exact ⟨_, (List.filter_sublist _).map _, rfl⟩
  · rw [GameState.get_empty_spaces_count, sum_map_eq_filter_sum _ _ (fun c => c.get_capacity)
      (fun c => decide (emptyRepPos c)) (fun c hc => empty_space_of_classified (hcl c hc))]
    exact ⟨_, (List.filter_sublist _).map _, rfl⟩

/-- C1: if some color's total packet count, or the total empty-space count,
is not expressible as a sum of a subset of the container capacities, then
`is_solvable` returns `false`.  Containers are assumed well-formed
(`capacity` field = slot count), which holds for every container the Rust
API can construct. -/
theorem fast_unsolvable_sound (g : GameState)
    (hwf : ∀ c ∈ g.fluid_containers, WF c)
    (hbad : (∃ id, ¬ SubsetSum (g.fluid_containers.map (fun c => c.get_capacity))
          (totalColorCount g id))
        ∨ ¬ SubsetSum (g.fluid_containers.map (fun c => c.get_capacity))
          g.get_empty_spaces_count) :
    g.is_solvable = some false := by
  have hns : g.is_solved = false := by
    cases hisolve : g.is_solved with
    | false => rfl
    | true =>
      exfalso
      obtain ⟨hcolors, hemp⟩ := solved_sums g hwf hisolve
      rcases hbad with ⟨id, hid⟩ | h
      · exact hid (hcolors id)
      · exact h hemp
  have hfueq : g.fast_is_definitely_unsolvable
      = (if ((g.get_available_colors_with_count).map (fun cc => cc.2)).any
            (fun cnt => decide (cnt ∉ reachableSizes
              (g.fluid_containers.map (fun c => c.get_capacity)))) then true
        else if g.get_empty_spaces_count ∉ reachableSizes
            (g.fluid_containers.map (fun c => c.get_capacity)) then true
        else false) := rfl
  have hfu : g.fast_is_definitely_unsolvable = true := by
    rw [hfueq]
    rcases hbad with ⟨id, hid⟩ | hemp
    · rw [if_pos]
      refine List.any_eq_true.2 ⟨totalColorCount g id, ?_, ?_⟩
      · have hpos : totalColorCount g id ≠ 0 := by
          intro h0
          exact hid (h0 ▸ ⟨[], List.nil_sublist _, rfl⟩)
        have hmem : id ∈ stateColorIds g := by
          by_contra hn
          have h0 : (stateColorIds g).count id = 0 := by
            rw [List.count_eq_zero]
            exact hn
          rw [count_stateColorIds] at h0
          exact hpos h0
        rw [gacc_eq_tally]
        refine List.mem_map.2 ⟨(id, (stateColorIds g).count id), tally_mem_count hmem, ?_⟩
        exact count_stateColorIds g id
      · simp only [decide_eq_true_eq]
        rw [reachable_iff_subsetSum]
        exact hid
    · by_cases hany : ((g.get_available_colors_with_count).map (fun cc => cc.2)).any
          (fun cnt => decide (cnt ∉ reachableSizes
            (g.fluid_containers.map (fun c => c.get_capacity)))) = true
      · rw [if_pos hany]
      · rw [if_neg hany, if_pos]
        rw [reachable_iff_subsetSum]
        exact hemp
  have hfm : g.fast_is_maybe_solvable = some false := by
    rw [GameState.fast_is_maybe_solvable, hns, hfu]
    simp
  rw [show g.is_solvable = (match g.fast_is_maybe_solvable with
    | some r => some r
    | none =>
      let vec := g.liquidSizeVecFinal
      let targets := vec.dedup
      let maxSize := targets.foldr max 0
      let enumOut := enumGo maxSize targets g.csvSorted 0 []
      let ways := targets.map
        (fun t => (t, (enumOut.filter (fun sw => sw.1 = t)).map (fun sw => sw.2)))
      match GameState.pruneLoop ways g.containerSizeTally vec with
      | none => none
      | some PruneResult.unsolv => some false
      | some (PruneResult.proceed ways2 pool2 vec2) =>
        some (GameState.recursiveIsSolvable ways2 pool2 vec2)) from rfl, hfm]

/-- Witness for `fast_unsolvable_sound`: the state with a single container
`"AA."` (2 packets of color 0 in a capacity-3 container) — 2 is not a
subset sum of `[3]`. -/
theorem fast_unsolvable_sound_witness :
    GameState.is_solvable
        ⟨[⟨[FluidPacket.Fluid 0, FluidPacket.Fluid 0, FluidPacket.Empty], 3⟩]⟩
      = some false := by
  apply fast_unsolvable_sound
  · intro c hc
    rw [List.mem_singleton] at hc
    subst hc
    decide
  · left
    refine ⟨0, fun h => ?_⟩
    have h2 := (reachable_iff_subsetSum
      ((GameState.fluid_containers
        ⟨[⟨[FluidPacket.Fluid 0, FluidPacket.Fluid 0, FluidPacket.Empty], 3⟩]⟩).map
          (fun c => c.get_capacity)) _).2 h
    revert h2
    decide

/-! ## Fault-freedom of the propagation loop and `is_solvable` (C3) -/

lemma checked_sub_some {a b c : Nat} (h : checked_sub a b = some c) : b ≤ a ∧ c = a - b := by
  rw [checked_sub] at h
  by_cases hle : b ≤ a
  · rw [if_pos hle] at h
    cases h
    exact ⟨hle, rfl⟩
  · rw [if_neg hle] at h
    cases h

lemma lookup_eq_none_iff {β : Type} {l : List (Nat × β)} {k : Nat} :
    l.lookup k = none ↔ k ∉ l.map Prod.fst := by
  induction l with
  | nil => simp [List.lookup]
  | cons kv rest ih =>
    obtain ⟨c, n⟩ := kv
    rw [lookup_cons_pair]
    by_cases hc : c = k
    · subst hc
      simp
    · rw [if_neg hc, ih]
      constructor
      · intro hnm hmem
        rw [List.map_cons, List.mem_cons] at hmem
        rcases hmem with he | hm
        · exact hc he.symm
        · exact hnm hm
      · intro hnm hmem
        exact hnm (by rw [List.map_cons]; exact List.mem_cons_of_mem _ hmem)

lemma lookup_some_mem_keys {β : Type} {l : List (Nat × β)} {k : Nat} {v : β}
    (h : l.lookup k = some v) : k ∈ l.map Prod.fst :=
  List.mem_map.2 ⟨(k, v), lookup_mem h, rfl⟩

lemma lookupD_perm_nodup {l1 l2 : List (Nat × Nat)} (hp : l1.Perm l2)
    (hnd : (l2.map Prod.fst).Nodup) : ∀ k, lookupD l1 k = lookupD l2 k := by
  intro k
  cases h1 : l1.lookup k with
  | none =>
    have h2 : l2.lookup k = none := by
      rw [lookup_eq_none_iff]
      intro hmem
      exact (lookup_eq_none_iff.1 h1) (((hp.map Prod.fst).mem_iff).2 hmem)
    rw [lookupD, lookupD, h1, h2]
  | some v =>
    have h2 : l2.lookup k = some v :=
      mem_lookup_of_nodup hnd (hp.mem_iff.1 (lookup_mem h1))
    rw [lookupD, lookupD, h1, h2]

lemma updateA_keys (l : List (Nat × Nat)) (k v : Nat) :
    (updateA l k v).map Prod.fst = l.map Prod.fst := by
  induction l with
  | nil => rfl
  | cons kv rest ih =>
    obtain ⟨c, n⟩ := kv
    rw [updateA]
    by_cases hc : c = k
    · rw [if_pos hc]
      simp [hc]
    · rw [if_neg hc]
      simp [ih]

lemma updateA_lookup_self {l : List (Nat × Nat)} {k : Nat} (v : Nat)
    (hmem : k ∈ l.map Prod.fst) : (updateA l k v).lookup k = some v := by
  induction l with
  | nil => simp at hmem
  | cons kv rest ih =>
    obtain ⟨c, n⟩ := kv
    rw [updateA]
    by_cases hc : c = k
    · rw [if_pos hc, lookup_cons_pair, if_pos rfl]
    · rw [if_neg hc, lookup_cons_pair, if_neg hc]
      apply ih
      rw [List.map_cons, List.mem_cons] at hmem
      rcases hmem with h | h
      · exact absurd h.symm hc
      · exact h

lemma updateA_lookup_ne {l : List (Nat × Nat)} {k j : Nat} (v : Nat) (h : j ≠ k) :
    (updateA l k v).lookup j = l.lookup j := by
  induction l with
  | nil => rfl
  | cons kv rest ih =>
    obtain ⟨c, n⟩ := kv
    rw [updateA]
    by_cases hc : c = k
    · subst hc
      rw [if_pos rfl, lookup_cons_pair, if_neg (fun he => h he.symm),
        lookup_cons_pair, if_neg (fun he => h he.symm)]
    · rw [if_neg hc, lookup_cons_pair, lookup_cons_pair]
      by_cases hcj : c = j
      · rw [if_pos hcj, if_pos hcj]
      · rw [if_neg hcj, if_neg hcj, ih]

lemma setA_lookup_self (l : List (Nat × Nat)) (k v : Nat) :
    (setA l k v).lookup k = some v := by
  induction l with
  | nil => rw [setA, lookup_cons_pair, if_pos rfl]
  | cons kv rest ih =>
    obtain ⟨c, n⟩ := kv
    rw [setA]
    by_cases hc : c = k
    · rw [if_pos hc, lookup_cons_pair, if_pos rfl]
    · rw [if_neg hc, lookup_cons_pair, if_neg hc, ih]

lemma setA_lookup_ne (l : List (Nat × Nat)) {k j : Nat} (v : Nat) (h : j ≠ k) :
    (setA l k v).lookup j = l.lookup j := by
  induction l with
  | nil =>
    rw [setA, lookup_cons_pair, if_neg (fun he => h he.symm)]
  | cons kv rest ih =>
    obtain ⟨c, n⟩ := kv
    rw [setA]
    by_cases hc : c = k
    · subst hc
      rw [if_pos rfl, lookup_cons_pair, if_neg (fun he => h he.symm),
        lookup_cons_pair, if_neg (fun he => h he.symm)]
    · rw [if_neg hc, lookup_cons_pair, lookup_cons_pair]
      by_cases hcj : c = j
      · rw [if_pos hcj, if_pos hcj]
      · rw [if_neg hcj, if_neg hcj, ih]

lemma solutionFits_isSome {pool : List (Nat × Nat)} {mult : Nat} {sol : Way}
    (hb : ∀ s, lookupD sol s ≤ lookupD pool s) :
    ∀ entries : Way, (solutionFits pool mult sol entries).isSome := by
  intro entries
  induction entries with
  | nil => rfl
  | cons ent rest ih =>
    obtain ⟨s, used⟩ := ent
    rw [solutionFits,
      show checked_sub (lookupD pool s) (lookupD sol s)
        = some (lookupD pool s - lookupD sol s) from by rw [checked_sub, if_pos (hb s)]]
    show (if lookupD pool s - lookupD sol s < used * mult then some false
      else solutionFits pool mult sol rest).isSome = true
    by_cases h : (lookupD pool s - lookupD sol s) < used * mult
    · rw [if_pos h]
      rfl
    · rw [if_neg h]
      exact ih

lemma solutionFits_true_bound {pool : List (Nat × Nat)} {mult : Nat} {sol : Way} :
    ∀ {entries : Way}, solutionFits pool mult sol entries = some true →
      ∀ e ∈ entries, lookupD sol e.1 + e.2 * mult ≤ lookupD pool e.1 := by
  intro entries
  induction entries with
  | nil =>
    intro _ e he
    cases he
  | cons ent rest ih =>
    obtain ⟨s, used⟩ := ent
    intro h e he
    rw [solutionFits] at h
    cases hcs : checked_sub (lookupD pool s) (lookupD sol s) with
    | none =>
      rw [hcs] at h
      cases h
    | some avail =>
      rw [hcs] at h
      dsimp only at h
      by_cases hlt : avail < used * mult
      · rw [if_pos hlt] at h
        cases h
      · rw [if_neg hlt] at h
        rcases List.mem_cons.1 he with rfl | hrest
        · obtain ⟨hle, hv⟩ := checked_sub_some hcs
          simp only
          omega
        · exact ih h e hrest

lemma retainChecked_isSome {pool : List (Nat × Nat)} {way : Way} {mult : Nat} :
    ∀ {sols : List Way}, (∀ sol ∈ sols, ∀ s, lookupD sol s ≤ lookupD pool s) →
      (retainChecked pool way mult sols).isSome := by
  intro sols
  induction sols with
  | nil => intro _; rfl
  | cons sol rest ih =>
    intro hb
    obtain ⟨b, hb1⟩ := Option.isSome_iff_exists.1
      (@solutionFits_isSome pool mult sol (hb sol (List.mem_cons_self _ _)) way)
    obtain ⟨r, hr⟩ := Option.isSome_iff_exists.1
      (ih (fun s hs => hb s (List.mem_cons_of_mem _ hs)))
    rw [Option.isSome_iff_exists]
    refine ⟨if b then sol :: r else r, ?_⟩
    simp only [retainChecked, Option.bind_eq_bind, hb1, Option.some_bind, hr]
    cases b <;> rfl

lemma retainChecked_mem {pool : List (Nat × Nat)} {way : Way} {mult : Nat} :
    ∀ {sols sols2 : List Way}, retainChecked pool way mult sols = some sols2 →
      ∀ sol ∈ sols2, sol ∈ sols ∧ solutionFits pool mult sol way = some true := by
  intro sols
  induction sols with
  | nil =>
    intro sols2 h sol hs
    cases h
    cases hs
  | cons s0 rest ih =>
    intro sols2 h sol hs
    simp only [retainChecked, Option.bind_eq_bind, Option.bind_eq_some] at h
    obtain ⟨b, hb, rest2, hrest2, hres⟩ := h
    cases b
    · simp only [Bool.false_eq_true, if_false, pure] at hres
      cases hres
      obtain ⟨h1, h2⟩ := ih hrest2 sol hs
      exact ⟨List.mem_cons_of_mem _ h1, h2⟩
    · simp only [if_true, pure] at hres
      cases hres
      rcases List.mem_cons.1 hs with rfl | hmem
      · exact ⟨List.mem_cons_self _ _, hb⟩
      · obtain ⟨h1, h2⟩ := ih hrest2 sol hmem
        exact ⟨List.mem_cons_of_mem _ h1, h2⟩

lemma retainChecked_complete {pool : List (Nat × Nat)} {way : Way} {mult : Nat} :
    ∀ {sols sols2 : List Way}, retainChecked pool way mult sols = some sols2 →
      ∀ sol ∈ sols, solutionFits pool mult sol way = some true → sol ∈ sols2 := by
  intro sols
  induction sols with
  | nil =>
    intro sols2 h sol hs
    cases hs
  | cons s0 rest ih =>
    intro sols2 h sol hs hfit
    simp only [retainChecked, Option.bind_eq_bind, Option.bind_eq_some] at h
    obtain ⟨b, hb, rest2, hrest2, hres⟩ := h
    rcases List.mem_cons.1 hs with rfl | hmem
    · rw [hfit] at hb
      cases hb
      simp only [if_true, pure] at hres
      cases hres
      exact List.mem_cons_self _ _
    · cases b
      · simp only [Bool.false_eq_true, if_false, pure] at hres
        cases hres
        exact ih hrest2 sol hmem hfit
      · simp only [if_true, pure] at hres
        cases hres
        exact List.mem_cons_of_mem _ (ih hrest2 sol hmem hfit)

lemma retainAll_isSome {pool : List (Nat × Nat)} {W : Way} {mult ls : Nat} :
    ∀ {ways : List (Nat × List Way)},
      (∀ kv ∈ ways, ∀ sol ∈ kv.2, ∀ s, lookupD sol s ≤ lookupD pool s) →
      (retainAll pool W mult ls ways).isSome := by
  intro ways
  induction ways with
  | nil => intro _; rfl
  | cons kv rest ih =>
    intro hb
    obtain ⟨k, sols⟩ := kv
    obtain ⟨r2, hr2⟩ := Option.isSome_iff_exists.1
      (ih (fun kv2 h2 => hb kv2 (List.mem_cons_of_mem _ h2)))
    rw [Option.isSome_iff_exists]
    by_cases hk : k = ls
    · refine ⟨(k, sols) :: r2, ?_⟩
      simp only [retainAll, Option.bind_eq_bind, hr2, Option.some_bind, if_pos hk, pure]
    · obtain ⟨s2, hs2⟩ := Option.isSome_iff_exists.1
        (@retainChecked_isSome pool W mult sols
          (fun sol hs => hb (k, sols) (List.mem_cons_self _ _) sol hs))
      refine ⟨(k, s2) :: r2, ?_⟩
      simp only [retainAll, Option.bind_eq_bind, hr2, Option.some_bind, if_neg hk, hs2, pure]

lemma retainAll_spec {pool : List (Nat × Nat)} {W : Way} {mult ls : Nat} :
    ∀ {ways ways2 : List (Nat × List Way)},
      retainAll pool W mult ls ways = some ways2 →
      List.Forall₂ (fun kv kv2 => kv2.1 = kv.1 ∧
        ((kv.1 = ls ∧ kv2.2 = kv.2) ∨
          (kv.1 ≠ ls ∧ retainChecked pool W mult kv.2 = some kv2.2))) ways ways2 := by
  intro ways
  induction ways with
  | nil =>
    intro ways2 h
    cases h
    exact List.Forall₂.nil
  | cons kv rest ih =>
    intro ways2 h
    obtain ⟨k, sols⟩ := kv
    simp only [retainAll, Option.bind_eq_bind, Option.bind_eq_some] at h
    obtain ⟨rest2, hrest2, hres⟩ := h
    by_cases hk : k = ls
    · rw [if_pos hk] at hres
      simp only [pure] at hres
      cases hres
      exact List.Forall₂.cons ⟨rfl, Or.inl ⟨hk, rfl⟩⟩ (ih hrest2)
    · rw [if_neg hk] at hres
      simp only [Option.bind_eq_some, pure] at hres
      obtain ⟨sols2, hsols2, hres⟩ := hres
      cases hres
      exact List.Forall₂.cons ⟨rfl, Or.inr ⟨hk, hsols2⟩⟩ (ih hrest2)

lemma forall₂_mem_right {α β : Type} {R : α → β → Prop} :
    ∀ {l1 : List α} {l2 : List β}, List.Forall₂ R l1 l2 →
      ∀ b ∈ l2, ∃ a ∈ l1, R a b := by
  intro l1 l2 h
  induction h with
  | nil =>
    intro b hb
    cases hb
  | cons h1 h2 ih =>
    intro b hb
    rcases List.mem_cons.1 hb with rfl | hmem
    · exact ⟨_, List.mem_cons_self _ _, h1⟩
    · obtain ⟨a, ha, hr⟩ := ih b hmem
      exact ⟨a, List.mem_cons_of_mem _ ha, hr⟩

lemma commitPool_isSome {mult : Nat} :
    ∀ {W : Way} {pool : List (Nat × Nat)},
      (∀ s ∈ W.map Prod.fst, s ∈ pool.map Prod.fst) →
      (commitPool mult pool W).isSome := by
  intro W
  induction W with
  | nil => intro pool _; rfl
  | cons e rest ih =>
    obtain ⟨s, cnt⟩ := e
    intro pool h
    rw [commitPool]
    cases hl : pool.lookup s with
    | none =>
      exact absurd (h s (by simp)) (lookup_eq_none_iff.1 hl)
    | some ev =>
      dsimp only
      by_cases hgt : cnt * mult > ev
      · rw [if_pos hgt]
        rfl
      · rw [if_neg hgt]
        apply ih
        intro s2 hs2
        rw [updateA_keys]
        exact h s2 (by simp [hs2])

lemma commitPool_char {mult : Nat} :
    ∀ {W : Way} {pool pool2 : List (Nat × Nat)}, (W.map Prod.fst).Nodup →
      commitPool mult pool W = some (some pool2) →
      (∀ s, lookupD pool2 s = lookupD pool s - lookupD W s * mult)
        ∧ pool2.map Prod.fst = pool.map Prod.fst := by
  intro W
  induction W with
  | nil =>
    intro pool pool2 _ h
    rw [commitPool] at h
    cases h
    refine ⟨fun s => ?_, rfl⟩
    rw [show lookupD ([] : Way) s = 0 from rfl]
    omega
  | cons e rest ih =>
    obtain ⟨s, cnt⟩ := e
    intro pool pool2 hnd h
    rw [commitPool] at h
    cases hl : pool.lookup s with
    | none =>
      rw [hl] at h
      cases h
    | some ev =>
      rw [hl] at h
      dsimp only at h
      by_cases hgt : cnt * mult > ev
      · rw [if_pos hgt] at h
        cases h
      · rw [if_neg hgt] at h
        rw [List.map_cons, List.nodup_cons] at hnd
        obtain ⟨hch, hkeys⟩ := ih hnd.2 h
        have hsk : s ∈ pool.map Prod.fst := lookup_some_mem_keys hl
        refine ⟨fun t => ?_, by rw [hkeys, updateA_keys]⟩
        rw [hch t]
        by_cases hts : t = s
        · subst hts
          have hr0 : lookupD rest t = 0 := by
            rw [lookupD, lookup_eq_none_iff.2 hnd.1]
            rfl
          rw [lookupD, updateA_lookup_self _ hsk, Option.getD_some, hr0,
            show lookupD ((t, cnt) :: rest) t = cnt from by
              rw [lookupD, lookup_cons_pair, if_pos rfl, Option.getD_some],
            lookupD, hl, Option.getD_some]
          omega
        · rw [lookupD, updateA_lookup_ne _ hts,
            show lookupD ((s, cnt) :: rest) t = lookupD rest t from by
              rw [lookupD, lookup_cons_pair, if_neg (fun he => hts he.symm), lookupD],
            lookupD]
          rfl

lemma poolInv_step {ways : List (Nat × List Way)} {pool : List (Nat × Nat)}
    {lw : Nat × List Way} {W : Way} {mult : Nat}
    {ways2 : List (Nat × List Way)} {pool2 : List (Nat × Nat)}
    (hinv : PoolInv ways pool) (hlw : lw ∈ ways) (hWmem : W ∈ lw.2)
    (hret : retainAll pool W mult lw.1 ways = some ways2)
    (hcom : commitPool mult pool W = some (some pool2)) :
    PoolInv (ways2.filter (fun kv => kv.1 ≠ lw.1)) pool2 := by
  obtain ⟨hWnd, hWle, hWkeys⟩ := hinv lw hlw W hWmem
  obtain ⟨hch, hkeys⟩ := commitPool_char hWnd hcom
  intro kv2 hkv2 sol hsol
  rw [List.mem_filter] at hkv2
  obtain ⟨hkv2m, hkv2ne⟩ := hkv2
  obtain ⟨kv, hkvm, hfst, hcase⟩ := forall₂_mem_right (retainAll_spec hret) kv2 hkv2m
  rcases hcase with ⟨hls, -⟩ | ⟨-, hrc⟩
  · exact absurd (hfst.trans hls) (of_decide_eq_true hkv2ne)
  · obtain ⟨hsmem, hfit⟩ := retainChecked_mem hrc sol hsol
    obtain ⟨hnd, hle, hksub⟩ := hinv kv hkvm sol hsmem
    refine ⟨hnd, fun s => ?_, fun s hs => by rw [hkeys]; exact hksub s hs⟩
    rw [hch s]
    cases hWl : W.lookup s with
    | none =>
      rw [show lookupD W s = 0 from by rw [lookupD, hWl]; rfl]
      have := hle s
      omega
    | some u =>
      have hmemW : (s, u) ∈ W := lookup_mem hWl
      have hbound := solutionFits_true_bound hfit (s, u) hmemW
      rw [show lookupD W s = u from by rw [lookupD, hWl]; rfl]
      simp only at hbound
      omega


lemma enumGo_shape {maxSize : Nat} {targets : List Nat} :
    ∀ {csv : List (Nat × Nat)} {sum : Nat} {chosen : Way} {t : Nat} {w : Way},
      (t, w) ∈ enumGo maxSize targets csv sum chosen →
      ∃ ext, w = chosen ++ ext
        ∧ List.Forall₂ (fun (e c : Nat × Nat) => e.1 = c.1 ∧ e.2 ≤ c.2) ext csv := by
  intro csv
  induction csv with
  | nil =>
    intro sum chosen t w h
    cases h
  | cons vc rest ih =>
    obtain ⟨v, c⟩ := vc
    intro sum chosen t w h
    cases rest with
    | nil =>
      rw [enumGo] at h
      rcases List.mem_filterMap.1 h with ⟨k, hk, hsome⟩
      rw [List.mem_filter, List.mem_range] at hk
      by_cases ht : (sum + v * k) ∈ targets
      · rw [if_pos ht, Option.some.injEq, Prod.mk.injEq] at hsome
        obtain ⟨-, rfl⟩ := hsome
        exact ⟨[(v, k)], rfl, List.Forall₂.cons ⟨rfl, by omega⟩ List.Forall₂.nil⟩
      · rw [if_neg ht] at hsome
        cases hsome
    | cons r rest2 =>
      rw [enumGo] at h
      rcases List.mem_flatMap.1 h with ⟨k, hk, hmem⟩
      rw [List.mem_filter, List.mem_range] at hk
      obtain ⟨ext, hw, hfa⟩ := ih hmem
      refine ⟨(v, k) :: ext, ?_, List.Forall₂.cons ⟨rfl, by omega⟩ hfa⟩
      rw [hw, List.append_assoc]
      rfl

lemma forall₂_way_keys {ex csv : List (Nat × Nat)}
    (h : List.Forall₂ (fun (e c : Nat × Nat) => e.1 = c.1 ∧ e.2 ≤ c.2) ex csv) :
    ex.map Prod.fst = csv.map Prod.fst := by
  induction h with
  | nil => rfl
  | cons h1 h2 ih =>
    rw [List.map_cons, List.map_cons, ih, h1.1]

lemma forall₂_way_lookupD {ex csv : List (Nat × Nat)}
    (h : List.Forall₂ (fun (e c : Nat × Nat) => e.1 = c.1 ∧ e.2 ≤ c.2) ex csv) :
    ∀ s, lookupD ex s ≤ lookupD csv s := by
  induction h with
  | nil => intro s; exact le_refl _
  | cons h1 h2 ih =>
    rename_i a b l1 l2
    intro s
    obtain ⟨ka, va⟩ := a
    obtain ⟨kb, vb⟩ := b
    have hk2 : ka = kb := h1.1
    subst hk2
    rw [lookupD, lookup_cons_pair, lookupD, lookup_cons_pair]
    by_cases hs : ka = s
    · rw [if_pos hs, if_pos hs]
      simpa using h1.2
    · rw [if_neg hs, if_neg hs]
      exact ih s

lemma csv_perm (g : GameState) : (g.csvSorted).Perm g.containerSizeTally := by
  rw [GameState.csvSorted]
  exact List.perm_insertionSort _ _

lemma tally_keys_nodup_csv (g : GameState) :
    ((g.containerSizeTally).map Prod.fst).Nodup :=
  tally_keys_nodup _

lemma csv_keys_nodup (g : GameState) : ((g.csvSorted).map Prod.fst).Nodup :=
  (List.Perm.nodup_iff ((csv_perm g).map Prod.fst)).2 (tally_keys_nodup_csv g)

lemma csv_lookupD_eq (g : GameState) :
    ∀ s, lookupD g.csvSorted s = lookupD g.containerSizeTally s :=
  lookupD_perm_nodup (csv_perm g) (tally_keys_nodup_csv g)

lemma ways_init_poolInv (g : GameState) (targets : List Nat) (maxSize : Nat) :
    PoolInv (targets.map (fun t =>
        (t, ((enumGo maxSize targets g.csvSorted 0 []).filter
          (fun sw => sw.1 = t)).map (fun sw => sw.2))))
      g.containerSizeTally := by
  intro kv hkv sol hsol
  rcases List.mem_map.1 hkv with ⟨t, ht, rfl⟩
  rcases List.mem_map.1 hsol with ⟨sw, hsw, rfl⟩
  rw [List.mem_filter] at hsw
  obtain ⟨hsw1, -⟩ := hsw
  obtain ⟨t2, w2⟩ := sw
  obtain ⟨ex, hw, hfa⟩ := enumGo_shape hsw1
  have hw2 : w2 = ex := hw
  refine ⟨?_, ?_, ?_⟩
  · rw [show (t2, w2).2 = w2 from rfl, hw2, forall₂_way_keys hfa]
    exact csv_keys_nodup g
  · intro s
    rw [show (t2, w2).2 = w2 from rfl, hw2]
    exact le_trans (forall₂_way_lookupD hfa s) (le_of_eq (csv_lookupD_eq g s))
  · intro s hs
    rw [show (t2, w2).2 = w2 from rfl, hw2, forall₂_way_keys hfa] at hs
    exact ((csv_perm g).map Prod.fst).mem_iff.1 hs

lemma pruneLoop_isSome (n : Nat) :
    ∀ (ways : List (Nat × List Way)) (pool : List (Nat × Nat)) (vec : List Nat),
      ways.length ≤ n → PoolInv ways pool →
        (GameState.pruneLoop ways pool vec).isSome := by
  induction n with
  | zero =>
    intro ways pool vec hlen hinv
    have hw : ways = [] := List.eq_nil_of_length_eq_zero (by omega)
    subst hw
    rw [GameState.pruneLoop]
    rfl
  | succ n ih =>
    intro ways pool vec hlen hinv
    rw [GameState.pruneLoop]
    split
    · rfl
    · split
      · rfl
      · rename_i hne lw hfind
        have hlw : lw ∈ ways := List.mem_of_find?_eq_some hfind
        have hWmem : lw.2.headD [] ∈ lw.2 := by
          have hlen1 : lw.2.length = 1 := by
            have := List.find?_some hfind
            simpa using this
          obtain ⟨W, hW⟩ := List.length_eq_one.1 hlen1
          rw [hW]
          exact List.mem_cons_self _ _
        obtain ⟨hWnd, hWle, hWkeys⟩ := hinv lw hlw _ hWmem
        dsimp only
        split
        · rename_i hret
          have hsome := @retainAll_isSome pool (lw.2.headD [])
            ((vec.filter (fun s => s = lw.1)).length) lw.1 ways
            (fun kv hkv sol hsol => (hinv kv hkv sol hsol).2.1)
          rw [hret] at hsome
          simp at hsome
        · rename_i ways2 hret
          split
          · rename_i hcom
            have hsome := @commitPool_isSome ((vec.filter (fun s => s = lw.1)).length)
              (lw.2.headD []) pool hWkeys
            rw [hcom] at hsome
            simp at hsome
          · rfl
          · rename_i pool2 hcom
            apply ih
            · have hkeys := retainAll_keys hret
              have hlen2 : ways2.length = ways.length := by
                have := congrArg List.length hkeys
                simpa using this
              have hmem2 : lw.1 ∈ ways2.map Prod.fst := by
                rw [hkeys]
                exact List.mem_map_of_mem Prod.fst hlw
              rcases List.mem_map.1 hmem2 with ⟨kv, hkv, hfst⟩
              have hlt : (ways2.filter (fun kv => kv.1 ≠ lw.1)).length < ways2.length :=
                List.length_filter_lt_length_iff_exists.2 ⟨kv, hkv, by simp [hfst]⟩
              omega
            · exact poolInv_step hinv hlw hWmem hret hcom

lemma is_solvable_eq (g : GameState) :
    g.is_solvable = match g.fast_is_maybe_solvable with
      | some r => some r
      | none =>
        match GameState.pruneLoop
            ((g.liquidSizeVecFinal.dedup).map (fun t =>
              (t, ((enumGo (g.liquidSizeVecFinal.dedup.foldr max 0)
                g.liquidSizeVecFinal.dedup g.csvSorted 0 []).filter
                  (fun sw => sw.1 = t)).map (fun sw => sw.2))))
            g.containerSizeTally g.liquidSizeVecFinal with
        | none => none
        | some PruneResult.unsolv => some false
        | some (PruneResult.proceed ways2 pool2 vec2) =>
          some (GameState.recursiveIsSolvable ways2 pool2 vec2) := rfl

/-- C3: `is_solvable` is total — on every input it returns a verdict and
never faults.  The propagation loop's subtractions are modelled with fault
markers (`none`): the `retain` subtraction `available_containers - *entry`
as `checked_sub`, the pool `unwrap` as a lookup that can fail; this theorem
shows no fault marker ever surfaces, every guard failure being turned into
an unsolvable verdict instead. -/
theorem is_solvable_no_fault (g : GameState) : (g.is_solvable).isSome := by
  rw [is_solvable_eq]
  cases hf : g.fast_is_maybe_solvable with
  | some r => rfl
  | none =>
    obtain ⟨r, hr⟩ := Option.isSome_iff_exists.1
      (pruneLoop_isSome _ _ g.containerSizeTally g.liquidSizeVecFinal (le_refl _)
        (ways_init_poolInv g _ _))
    rw [hr]
    cases r <;> rfl


/-! ## Shuffle preservation: capacities, color totals and empty space (C4) -/

lemma reverse_pour_effects (a b : FluidContainer) (amount : Nat) :
    (a.reverse_pour_into b amount).2.1.capacity = a.capacity
      ∧ (a.reverse_pour_into b amount).2.2.capacity = b.capacity
      ∧ (a.reverse_pour_into b amount).2.1.packets.length = a.packets.length
      ∧ (a.reverse_pour_into b amount).2.2.packets.length = b.packets.length
      ∧ (∀ j, countColor j (a.reverse_pour_into b amount).2.1
            + countColor j (a.reverse_pour_into b amount).2.2
          = countColor j a + countColor j b)
      ∧ countFilled (a.reverse_pour_into b amount).2.1
            + countFilled (a.reverse_pour_into b amount).2.2
          = countFilled a + countFilled b := by
  by_cases h : min (a.get_reverse_pourable_amount b) amount = 0
  · rw [FluidContainer.reverse_pour_into, if_pos h]
    exact ⟨rfl, rfl, rfl, rfl, fun j => rfl, rfl⟩
  · have hle := reverse_pourable_le a b
    obtain ⟨hcol, hfa, hfb, hca, hcb, hla, hlb⟩ :=
      revPourLoop_spec (min (a.get_reverse_pourable_amount b) amount) a b
        (le_trans (min_le_left _ _) hle.1) (le_trans (min_le_left _ _) hle.2)
    have hrev : a.reverse_pour_into b amount
        = (true, FluidContainer.revPourLoop
            (min (a.get_reverse_pourable_amount b) amount) a b) := by
      rw [FluidContainer.reverse_pour_into, if_neg h]
    have e1 : (a.reverse_pour_into b amount).2.1
        = (FluidContainer.revPourLoop (min (a.get_reverse_pourable_amount b) amount) a b).1 := by
      rw [hrev]
    have e2 : (a.reverse_pour_into b amount).2.2
        = (FluidContainer.revPourLoop (min (a.get_reverse_pourable_amount b) amount) a b).2 := by
      rw [hrev]
    rw [e1, e2]
    exact ⟨hca, hcb, hla, hlb, hcol, by omega⟩

lemma empty_space_add_filled (c : FluidContainer) :
    c.get_empty_space + countFilled c = c.packets.length := by
  rw [FluidContainer.get_empty_space, countFilled, ← List.countP_eq_length_filter,
    ← List.countP_eq_length_filter]
  exact countP_add_countP_not (fun p => p.is_empty) c.packets

lemma reverse_pour_empty_space (a b : FluidContainer) (amount : Nat) :
    (a.reverse_pour_into b amount).2.1.get_empty_space
      + (a.reverse_pour_into b amount).2.2.get_empty_space
      = a.get_empty_space + b.get_empty_space := by
  obtain ⟨-, -, hla, hlb, -, hfil⟩ := reverse_pour_effects a b amount
  have h1 := empty_space_add_filled (a.reverse_pour_into b amount).2.1
  have h2 := empty_space_add_filled (a.reverse_pour_into b amount).2.2
  have h3 := empty_space_add_filled a
  have h4 := empty_space_add_filled b
  omega

lemma map_set_eq {α β : Type} (f : α → β) :
    ∀ (l : List α) (i : Nat) (x : α),
      (∀ hi : i < l.length, f x = f (l.get ⟨i, hi⟩)) →
      (l.set i x).map f = l.map f := by
  intro l
  induction l with
  | nil => intro i x _; rfl
  | cons a rest ih =>
    intro i x h
    cases i with
    | zero =>
      rw [List.set_cons_zero, List.map_cons, List.map_cons, h (by simp)]
      rfl
    | succ n =>
      rw [List.set_cons_succ, List.map_cons, List.map_cons,
        ih n x (fun hn => h (by simpa using hn))]

lemma sum_map_set {α : Type} (f : α → Nat) :
    ∀ (l : List α) (i : Nat) (x : α) (hi : i < l.length),
      ((l.set i x).map f).sum + f (l.get ⟨i, hi⟩) = (l.map f).sum + f x := by
  intro l
  induction l with
  | nil =>
    intro i x hi
    simp at hi
  | cons a rest ih =>
    intro i x hi
    cases i with
    | zero =>
      rw [List.set_cons_zero, List.map_cons, List.map_cons, List.sum_cons, List.sum_cons]
      show (f x + (rest.map f).sum) + f a = (f a + (rest.map f).sum) + f x
      omega
    | succ n =>
      rw [List.set_cons_succ, List.map_cons, List.map_cons, List.sum_cons, List.sum_cons]
      have hn : n < rest.length := by simpa using hi
      have := ih n x hn
      show (f a + ((rest.set n x).map f).sum) + f (rest.get ⟨n, hn⟩)
        = (f a + (rest.map f).sum) + f x
      omega

lemma get_set_ne {α : Type} :
    ∀ (l : List α) (i j : Nat) (x : α) (hj : j < (l.set i x).length), i ≠ j →
      (l.set i x).get ⟨j, hj⟩ = l.get ⟨j, by simpa using hj⟩ := by
  intro l
  induction l with
  | nil =>
    intro i j x hj _
    simp at hj
  | cons a rest ih =>
    intro i j x hj hij
    cases i with
    | zero =>
      cases j with
      | zero => exact absurd rfl hij
      | succ m => rfl
    | succ n =>
      cases j with
      | zero => rfl
      | succ m =>
        exact ih n m x (by simpa using hj) (fun he => hij (by rw [he]))

lemma sum_map_set2 {α : Type} (f : α → Nat) (l : List α) (i j : Nat) (x y : α)
    (hi : i < l.length) (hj : j < l.length) (hij : i ≠ j)
    (hcons : f x + f y = f (l.get ⟨i, hi⟩) + f (l.get ⟨j, hj⟩)) :
    (((l.set i x).set j y).map f).sum = (l.map f).sum := by
  have hj2 : j < (l.set i x).length := by simpa using hj
  have h1 := sum_map_set f l i x hi
  have h2 := sum_map_set f (l.set i x) j y hj2
  rw [get_set_ne l i j x hj2 hij] at h2
  omega

lemma moves_indices {g : GameState} {limit : Bool} {mv : MoveAction}
    (h : mv ∈ g.get_possible_reverse_moves limit) :
    mv.from_container < g.fluid_containers.length
      ∧ mv.to_container < g.fluid_containers.length
      ∧ mv.from_container ≠ mv.to_container := by
  rw [GameState.get_possible_reverse_moves] at h
  rcases List.mem_flatMap.1 h with ⟨fi, hfi, hmem⟩
  obtain ⟨i, cf⟩ := fi
  dsimp only at hmem
  by_cases hemp : cf.is_empty = true
  · rw [if_pos hemp] at hmem
    cases hmem
  · rw [if_neg hemp] at hmem
    rcases List.mem_filterMap.1 hmem with ⟨ti, hti, hsome⟩
    obtain ⟨j, ct⟩ := ti
    dsimp only at hsome
    by_cases heq : (cf == ct || cf.get_top_fluid == ct.get_top_fluid) = true
    · rw [if_pos heq] at hsome
      cases hsome
    · rw [if_neg heq] at hsome
      by_cases hamt : (if limit && (cf.get_filled_amount == cf.get_reverse_pourable_amount ct)
          then cf.get_reverse_pourable_amount ct - 1
          else cf.get_reverse_pourable_amount ct) > 0
      · rw [if_pos hamt, Option.some.injEq] at hsome
        have hi : g.fluid_containers[i]? = some cf := List.mem_enum_iff_getElem?.mp hfi
        have hjg : g.fluid_containers[j]? = some ct := List.mem_enum_iff_getElem?.mp hti
        have hil : i < g.fluid_containers.length := (List.getElem?_eq_some.1 hi).1
        have hjl : j < g.fluid_containers.length := (List.getElem?_eq_some.1 hjg).1
        have hij : i ≠ j := by
          intro he
          subst he
          rw [hi, Option.some.injEq] at hjg
          rw [Bool.or_eq_true] at heq
          exact heq (Or.inl (by rw [hjg]; exact beq_self_eq_true ct))
        subst hsome
        exact ⟨hil, hjl, hij⟩
      · rw [if_neg hamt] at hsome
        cases hsome

lemma totalColorCount_mk (L : List FluidContainer) (id : Nat) :
    totalColorCount { fluid_containers := L } id
      = (L.map (fun c => countColor id c)).sum := rfl

lemma empty_spaces_mk (L : List FluidContainer) :
    GameState.get_empty_spaces_count { fluid_containers := L }
      = (L.map (fun c => c.get_empty_space)).sum := rfl

lemma caps_mk (L : List FluidContainer) :
    GameState.fluid_containers { fluid_containers := L } = L := rfl

lemma apply_reverse_move_preserves (g : GameState) (mv : MoveAction)
    (hmv : mv ∈ g.get_possible_reverse_moves true) :
    ((g.apply_reverse_move mv).fluid_containers.map (fun c => c.get_capacity)
        = g.fluid_containers.map (fun c => c.get_capacity))
      ∧ (∀ id, totalColorCount (g.apply_reverse_move mv) id = totalColorCount g id)
      ∧ (g.apply_reverse_move mv).get_empty_spaces_count = g.get_empty_spaces_count := by
  obtain ⟨hil, hjl, hij⟩ := moves_indices hmv
  have hf : g.fluid_containers.get? mv.from_container
      = some (g.fluid_containers.get ⟨mv.from_container, hil⟩) := List.get?_eq_get hil
  have ht : g.fluid_containers.get? mv.to_container
      = some (g.fluid_containers.get ⟨mv.to_container, hjl⟩) := List.get?_eq_get hjl
  set cf := g.fluid_containers.get ⟨mv.from_container, hil⟩ with hcf
  set ct := g.fluid_containers.get ⟨mv.to_container, hjl⟩ with hct
  have happ : g.apply_reverse_move mv = { fluid_containers :=
      ((g.fluid_containers.set mv.from_container
          (cf.reverse_pour_into ct mv.amount).2.1).set mv.to_container
          (cf.reverse_pour_into ct mv.amount).2.2) } := by
    rw [GameState.apply_reverse_move, hf, ht]
  obtain ⟨hc1, hc2, hl1, hl2, hcol, hfil⟩ := reverse_pour_effects cf ct mv.amount
  have hes := reverse_pour_empty_space cf ct mv.amount
  rw [happ]
  refine ⟨?_, ?_, ?_⟩
  · rw [caps_mk]
    have houter : ((g.fluid_containers.set mv.from_container
          (cf.reverse_pour_into ct mv.amount).2.1).set mv.to_container
          (cf.reverse_pour_into ct mv.amount).2.2).map (fun c => c.get_capacity)
        = (g.fluid_containers.set mv.from_container
            (cf.reverse_pour_into ct mv.amount).2.1).map (fun c => c.get_capacity) := by
      apply map_set_eq
      intro hj2
      rw [get_set_ne _ _ _ _ hj2 hij]
      exact hc2
    have hinner : (g.fluid_containers.set mv.from_container
          (cf.reverse_pour_into ct mv.amount).2.1).map (fun c => c.get_capacity)
        = g.fluid_containers.map (fun c => c.get_capacity) := by
      apply map_set_eq
      intro hi2
      exact hc1
    exact houter.trans hinner
  · intro id
    rw [totalColorCount_mk, totalColorCount]
    exact sum_map_set2 (fun c => countColor id c) _ _ _ _ _ hil hjl hij (by
      show countColor id (cf.reverse_pour_into ct mv.amount).2.1
          + countColor id (cf.reverse_pour_into ct mv.amount).2.2
        = countColor id cf + countColor id ct
      exact hcol id)
  · rw [empty_spaces_mk, GameState.get_empty_spaces_count]
    exact sum_map_set2 (fun c => c.get_empty_space) _ _ _ _ _ hil hjl hij (by
      show (cf.reverse_pour_into ct mv.amount).2.1.get_empty_space
          + (cf.reverse_pour_into ct mv.amount).2.2.get_empty_space
        = cf.get_empty_space + ct.get_empty_space
      exact hes)

lemma shuffleCandidates_sub {g : GameState} {mv : MoveAction}
    (h : mv ∈ g.shuffleCandidates) : mv ∈ g.get_possible_reverse_moves true := by
  rw [GameState.shuffleCandidates] at h
  cases hmax : (List.map (fun c => c.get_top_fluid_depth) g.fluid_containers).max? with
  | some m =>
    simp only [hmax] at h
    have h2 := (List.mem_filter.1 h).1
    cases hmin : (List.map (fun c => c.get_top_fluid_depth) g.fluid_containers).min? with
    | some m2 =>
      simp only [hmin] at h2
      exact (List.mem_filter.1 h2).1
    | none =>
      simp only [hmin] at h2
      exact h2
  | none =>
    simp only [hmax] at h
    cases hmin : (List.map (fun c => c.get_top_fluid_depth) g.fluid_containers).min? with
    | some m2 =>
      simp only [hmin] at h
      exact (List.mem_filter.1 h).1
    | none =>
      simp only [hmin] at h
      exact h

lemma shuffleGo_preserves (oracle : Nat → Nat) :
    ∀ (fuel step : Nat) (g : GameState),
      ((GameState.shuffleGo oracle fuel step g).fluid_containers.map
          (fun c => c.get_capacity)
          = g.fluid_containers.map (fun c => c.get_capacity))
        ∧ (∀ id, totalColorCount (GameState.shuffleGo oracle fuel step g) id
            = totalColorCount g id)
        ∧ (GameState.shuffleGo oracle fuel step g).get_empty_spaces_count
            = g.get_empty_spaces_count := by
  intro fuel
  induction fuel with
  | zero => intro step g; exact ⟨rfl, fun id => rfl, rfl⟩
  | succ n ih =>
    intro step g
    rw [GameState.shuffleGo]
    cases hmv : (g.shuffleCandidates).get? (oracle step % (g.shuffleCandidates).length) with
    | none => exact ⟨rfl, fun id => rfl, rfl⟩
    | some mv =>
      have hmem : mv ∈ g.shuffleCandidates := List.get?_mem hmv
      have hmem2 : mv ∈ g.get_possible_reverse_moves true := shuffleCandidates_sub hmem
      obtain ⟨h1, h2, h3⟩ := apply_reverse_move_preserves g mv hmem2
      obtain ⟨ih1, ih2, ih3⟩ := ih (step + 1) (g.apply_reverse_move mv)
      exact ⟨ih1.trans h1, fun id => (ih2 id).trans (h2 id), ih3.trans h3⟩


/-! ## Completeness of the exact stage (C4) -/

lemma le_foldr_max {l : List Nat} {x : Nat} (h : x ∈ l) : x ≤ l.foldr max 0 := by
  induction l with
  | nil => cases h
  | cons a rest ih =>
    rw [List.foldr_cons]
    rcases List.mem_cons.1 h with rfl | hm
    · exact le_max_left _ _
    · exact le_trans (ih hm) (le_max_right _ _)

lemma forall₂_mem_left {α β : Type} {R : α → β → Prop} :
    ∀ {l1 : List α} {l2 : List β}, List.Forall₂ R l1 l2 →
      ∀ a ∈ l1, ∃ b ∈ l2, R a b := by
  intro l1 l2 h
  induction h with
  | nil =>
    intro a ha
    cases ha
  | cons h1 h2 ih =>
    intro a ha
    rcases List.mem_cons.1 ha with rfl | hm
    · exact ⟨_, List.mem_cons_self _ _, h1⟩
    · obtain ⟨b, hb, hr⟩ := ih a hm
      exact ⟨b, List.mem_cons_of_mem _ hb, hr⟩

lemma forall₂_imp_mem {α β : Type} {R R2 : α → β → Prop} :
    ∀ {l1 : List α} {l2 : List β}, List.Forall₂ R l1 l2 →
      (∀ a b, a ∈ l1 → b ∈ l2 → R a b → R2 a b) → List.Forall₂ R2 l1 l2 := by
  intro l1 l2 h
  induction h with
  | nil => intro _; exact List.Forall₂.nil
  | cons h1 h2 ih =>
    intro himp
    exact List.Forall₂.cons
      (himp _ _ (List.mem_cons_self _ _) (List.mem_cons_self _ _) h1)
      (ih (fun a b ha hb => himp a b (List.mem_cons_of_mem _ ha) (List.mem_cons_of_mem _ hb)))

lemma forall₂_map_left {α β : Type} {R : β → α → Prop} (f : α → β) :
    ∀ {l : List α}, (∀ a ∈ l, R (f a) a) → List.Forall₂ R (l.map f) l := by
  intro l
  induction l with
  | nil => intro _; exact List.Forall₂.nil
  | cons a rest ih =>
    intro h
    exact List.Forall₂.cons (h a (List.mem_cons_self _ _))
      (ih (fun b hb => h b (List.mem_cons_of_mem _ hb)))

lemma forall₂_append_my {α β : Type} {R : α → β → Prop} :
    ∀ {l1 l3 : List α} {l2 l4 : List β}, List.Forall₂ R l1 l2 → List.Forall₂ R l3 l4 →
      List.Forall₂ R (l1 ++ l3) (l2 ++ l4) := by
  intro l1 l3 l2 l4 h
  induction h with
  | nil => intro h2; exact h2
  | cons h1 hrec ih =>
    intro h2
    exact List.Forall₂.cons h1 (ih h2)

lemma usage_cons (w : Way) (wl : List Way) (s : Nat) :
    usage (w :: wl) s = lookupD w s + usage wl s := by
  rw [usage, List.map_cons, List.sum_cons, usage]

lemma usage_append (wl1 wl2 : List Way) (s : Nat) :
    usage (wl1 ++ wl2) s = usage wl1 s + usage wl2 s := by
  rw [usage, usage, usage, List.map_append, List.sum_append]

lemma member_le_usage (s : Nat) :
    ∀ {wl : List Way} {w : Way}, w ∈ wl → lookupD w s ≤ usage wl s := by
  intro wl
  induction wl with
  | nil =>
    intro w h
    cases h
  | cons w0 rest ih =>
    intro w h
    rw [usage_cons]
    rcases List.mem_cons.1 h with rfl | hm
    · omega
    · have := ih hm
      omega

lemma waySum_cons (e : Nat × Nat) (rest : Way) :
    waySum (e :: rest) = e.1 * e.2 + waySum rest := by
  rw [waySum, List.map_cons, List.sum_cons, waySum]

lemma waySum_nil : waySum [] = 0 := rfl

lemma enumGo_complete {maxSize : Nat} {targets : List Nat} :
    ∀ {csv : List (Nat × Nat)} {sum : Nat} {chosen ex : Way},
      csv ≠ [] →
      List.Forall₂ (fun (e c : Nat × Nat) => e.1 = c.1 ∧ e.2 ≤ c.2) ex csv →
      sum + waySum ex ≤ maxSize →
      (sum + waySum ex) ∈ targets →
      (sum + waySum ex, chosen ++ ex) ∈ enumGo maxSize targets csv sum chosen := by
  intro csv
  induction csv with
  | nil =>
    intro sum chosen ex hne
    exact absurd rfl hne
  | cons vc rest ih =>
    obtain ⟨v, c⟩ := vc
    intro sum chosen ex hne hfa hle hmem
    cases hfa with
    | cons h1 h2 =>
      rename_i e ex2
      obtain ⟨ke, ve⟩ := e
      have hk : ke = v := h1.1
      subst hk
      have hve : ve ≤ c := h1.2
      have hwsum : waySum ((ke, ve) :: ex2) = ke * ve + waySum ex2 := waySum_cons _ _
      cases rest with
      | nil =>
        cases h2
        rw [hwsum, waySum_nil, Nat.add_zero] at hle hmem ⊢
        rw [enumGo]
        apply List.mem_filterMap.2
        refine ⟨ve, ?_, ?_⟩
        · rw [List.mem_filter, List.mem_range]
          exact ⟨by omega, by simp only [decide_eq_true_eq]; omega⟩
        · rw [if_pos hmem]
      | cons r rest2 =>
        have harr : sum + waySum ((ke, ve) :: ex2) = (sum + ke * ve) + waySum ex2 := by
          rw [hwsum]
          omega
        rw [harr] at hle hmem ⊢
        rw [enumGo]
        apply List.mem_flatMap.2
        refine ⟨ve, ?_, ?_⟩
        · rw [List.mem_filter, List.mem_range]
          refine ⟨by omega, ?_⟩
          simp only [decide_eq_true_eq]
          omega
        · have happ2 : (chosen ++ [(ke, ve)]) ++ ex2 = chosen ++ (ke, ve) :: ex2 := by
            rw [List.append_assoc]
            rfl
          rw [← happ2]
          exact ih (by simp) h2 hle hmem

lemma solutionFits_true_of_bound {pool : List (Nat × Nat)} {mult : Nat} {sol : Way} :
    ∀ {entries : Way},
      (∀ e ∈ entries, lookupD sol e.1 + e.2 * mult ≤ lookupD pool e.1) →
      solutionFits pool mult sol entries = some true := by
  intro entries
  induction entries with
  | nil => intro _; rfl
  | cons ent rest ih =>
    obtain ⟨s, u⟩ := ent
    intro hb
    have h1 := hb (s, u) (List.mem_cons_self _ _)
    simp only at h1
    rw [solutionFits,
      show checked_sub (lookupD pool s) (lookupD sol s)
        = some (lookupD pool s - lookupD sol s) from by rw [checked_sub, if_pos (by omega)]]
    show (if lookupD pool s - lookupD sol s < u * mult then some false
      else solutionFits pool mult sol rest) = some true
    rw [if_neg (by omega)]
    exact ih (fun e he => hb e (List.mem_cons_of_mem _ he))

lemma commitPool_success {mult : Nat} :
    ∀ {W : Way} {pool : List (Nat × Nat)},
      (∀ e ∈ W, e.2 * mult ≤ lookupD pool e.1) →
      (∀ s ∈ W.map Prod.fst, s ∈ pool.map Prod.fst) →
      (W.map Prod.fst).Nodup →
      ∃ pool2, commitPool mult pool W = some (some pool2) := by
  intro W
  induction W with
  | nil =>
    intro pool _ _ _
    exact ⟨pool, rfl⟩
  | cons e rest ih =>
    obtain ⟨s, cnt⟩ := e
    intro pool hb hkeys hnd
    rw [commitPool]
    cases hl : pool.lookup s with
    | none => exact absurd (hkeys s (by simp)) (lookup_eq_none_iff.1 hl)
    | some ev =>
      dsimp only
      have h1 := hb (s, cnt) (List.mem_cons_self _ _)
      simp only at h1
      rw [lookupD, hl, Option.getD_some] at h1
      rw [if_neg (by omega)]
      rw [List.map_cons, List.nodup_cons] at hnd
      apply ih
      · intro e2 he2
        have hne : e2.1 ≠ s := by
          intro hes
          exact hnd.1 (List.mem_map.2 ⟨e2, he2, hes⟩)
        rw [lookupD, updateA_lookup_ne _ hne]
        exact hb e2 (List.mem_cons_of_mem _ he2)
      · intro s2 hs2
        rw [updateA_keys]
        exact hkeys s2 (by simp [hs2])
      · exact hnd.2

lemma retainAll_lookup {pool : List (Nat × Nat)} {W : Way} {mult ls : Nat} :
    ∀ {ways ways2 : List (Nat × List Way)},
      retainAll pool W mult ls ways = some ways2 →
      ∀ t, t ≠ ls → ∀ ws, ways.lookup t = some ws →
        ∃ ws2, ways2.lookup t = some ws2 ∧ retainChecked pool W mult ws = some ws2 := by
  intro ways
  induction ways with
  | nil =>
    intro ways2 h t _ ws hws
    cases hws
  | cons kv rest ih =>
    intro ways2 h t hne ws hws
    obtain ⟨k, sols⟩ := kv
    simp only [retainAll, Option.bind_eq_bind, Option.bind_eq_some] at h
    obtain ⟨rest2, hrest2, hres⟩ := h
    rw [lookup_cons_pair] at hws
    by_cases hk : k = ls
    · rw [if_pos hk] at hres
      simp only [pure] at hres
      cases hres
      rw [if_neg (by rw [hk]; exact fun he => hne he.symm)] at hws
      rw [lookup_cons_pair, if_neg (by rw [hk]; exact fun he => hne he.symm)]
      exact ih hrest2 t hne ws hws
    · rw [if_neg hk] at hres
      simp only [Option.bind_eq_some, pure] at hres
      obtain ⟨sols2, hsols2, hres⟩ := hres
      cases hres
      rw [lookup_cons_pair]
      by_cases hkt : k = t
      · rw [if_pos hkt] at hws
        cases hws
        rw [if_pos hkt]
        exact ⟨sols2, rfl, hsols2⟩
      · rw [if_neg hkt] at hws
        rw [if_neg hkt]
        exact ih hrest2 t hne ws hws

lemma lookup_filter_ne {x : Nat} :
    ∀ {l : List (Nat × List Way)} {t : Nat}, t ≠ x →
      (l.filter (fun kv => kv.1 ≠ x)).lookup t = l.lookup t := by
  intro l
  induction l with
  | nil => intro t _; rfl
  | cons kv rest ih =>
    intro t h
    obtain ⟨k, sols⟩ := kv
    by_cases hk : k = x
    · rw [List.filter_cons_of_neg (by simp [hk]), lookup_cons_pair,
        if_neg (by rw [hk]; exact fun he => h he.symm), ih h]
    · rw [List.filter_cons_of_pos (by simp [hk]), lookup_cons_pair, lookup_cons_pair]
      by_cases hkt : k = t
      · rw [if_pos hkt, if_pos hkt]
      · rw [if_neg hkt, if_neg hkt, ih h]

lemma map_fst_filter_ne (x : Nat) :
    ∀ (l : List (Nat × List Way)),
      (l.filter (fun kv => kv.1 ≠ x)).map Prod.fst
        = (l.map Prod.fst).filter (fun s => s ≠ x) := by
  intro l
  induction l with
  | nil => rfl
  | cons kv rest ih =>
    obtain ⟨k, sols⟩ := kv
    by_cases hk : k = x
    · rw [List.filter_cons_of_neg (by simp [hk]), List.map_cons,
        List.filter_cons_of_neg (by simp [hk]), ih]
    · rw [List.filter_cons_of_pos (by simp [hk]), List.map_cons, List.map_cons,
        List.filter_cons_of_pos (by simp [hk]), ih]

lemma assign_filter {ways : List (Nat × List Way)} {x : Nat} {W : Way}
    (hx : ways.lookup x = some [W]) :
    ∀ {vec : List Nat} {wl : List Way},
      List.Forall₂ (fun t w => ∃ ws, ways.lookup t = some ws ∧ w ∈ ws) vec wl →
      ∃ wl2, List.Forall₂ (fun t w => ∃ ws, ways.lookup t = some ws ∧ w ∈ ws)
          (vec.filter (fun t => t ≠ x)) wl2
        ∧ (∀ w ∈ wl2, w ∈ wl)
        ∧ ∀ s, usage wl s
            = usage wl2 s + (vec.filter (fun t => t = x)).length * lookupD W s := by
  intro vec wl h
  induction h with
  | nil =>
    exact ⟨[], List.Forall₂.nil, fun w hw => absurd hw (by simp),
      fun s => by simp [usage]⟩
  | cons h1 hrec ih =>
    rename_i t w vec2 wl2a
    obtain ⟨wl2, hfa2, hsub2, husage2⟩ := ih
    by_cases ht : t = x
    · obtain ⟨ws, hws, hwmem⟩ := h1
      rw [ht, hx] at hws
      cases hws
      have hwW : w = W := by simpa using hwmem
      refine ⟨wl2, ?_, ?_, ?_⟩
      · rw [List.filter_cons_of_neg (by simp [ht])]
        exact hfa2
      · exact fun w2 hw2 => List.mem_cons_of_mem _ (hsub2 w2 hw2)
      · intro s
        rw [List.filter_cons_of_pos (by simp [ht]), List.length_cons, usage_cons,
          husage2 s, hwW, Nat.succ_mul]
        omega
    · refine ⟨w :: wl2, ?_, ?_, ?_⟩
      · rw [List.filter_cons_of_pos (by simp [ht])]
        exact List.Forall₂.cons h1 hfa2
      · intro w2 hw2
        rcases List.mem_cons.1 hw2 with rfl | hm
        · exact List.mem_cons_self _ _
        · exact List.mem_cons_of_mem _ (hsub2 w2 hm)
      · intro s
        rw [List.filter_cons_of_neg (by simp [ht]), usage_cons, usage_cons, husage2 s]
        omega

lemma subtractWay_success :
    ∀ {w : Way} {pool : List (Nat × Nat)}, (w.map Prod.fst).Nodup →
      (∀ s, lookupD w s ≤ lookupD pool s) →
      ∃ pool2, subtractWay pool w = some pool2
        ∧ ∀ s, lookupD pool2 s = lookupD pool s - lookupD w s := by
  intro w
  induction w with
  | nil =>
    intro pool _ _
    refine ⟨pool, rfl, fun s => ?_⟩
    rw [show lookupD ([] : Way) s = 0 from rfl]
    omega
  | cons e rest ih =>
    obtain ⟨s0, cnt⟩ := e
    intro pool hnd hb
    have hcnt : lookupD ((s0, cnt) :: rest) s0 = cnt := by
      rw [lookupD, lookup_cons_pair, if_pos rfl, Option.getD_some]
    have hb0 := hb s0
    rw [hcnt] at hb0
    rw [List.map_cons, List.nodup_cons] at hnd
    have hrest0 : lookupD rest s0 = 0 := by
      rw [lookupD, lookup_eq_none_iff.2 hnd.1, Option.getD_none]
    have hbound : ∀ s, lookupD rest s ≤ lookupD (setA pool s0 (lookupD pool s0 - cnt)) s := by
      intro s
      by_cases hs : s = s0
      · subst hs
        rw [hrest0]
        omega
      · have hsetA : lookupD (setA pool s0 (lookupD pool s0 - cnt)) s = lookupD pool s := by
          rw [lookupD, setA_lookup_ne _ _ hs]
          rfl
        rw [hsetA]
        have hb1 := hb s
        rw [lookupD, lookup_cons_pair, if_neg (fun he => hs he.symm)] at hb1
        exact hb1
    obtain ⟨pool2, hp2, hch⟩ := ih hnd.2 hbound
    refine ⟨pool2, ?_, ?_⟩
    · show (if lookupD pool s0 < cnt then none
        else subtractWay (setA pool s0 (lookupD pool s0 - cnt)) rest) = some pool2
      rw [if_neg (by omega)]
      exact hp2
    · intro s
      by_cases hs : s = s0
      · subst hs
        rw [hch s, hrest0, hcnt, lookupD, setA_lookup_self, Option.getD_some]
        omega
      · rw [hch s, lookupD, setA_lookup_ne _ _ hs,
          show lookupD ((s0, cnt) :: rest) s = lookupD rest s from by
            rw [lookupD, lookup_cons_pair, if_neg (fun he => hs he.symm), lookupD]]
        rfl

lemma recursive_complete {ways : List (Nat × List Way)}
    (hnd : ∀ kv ∈ ways, ∀ sol ∈ kv.2, (sol.map Prod.fst).Nodup) :
    ∀ (vec : List Nat) (pool : List (Nat × Nat)),
      GoodAssign ways pool vec →
      GameState.recursiveIsSolvable ways pool vec = true := by
  intro vec
  induction vec with
  | nil => intro pool _; rfl
  | cons t rest ih =>
    intro pool hga
    obtain ⟨wl, hfa, husage⟩ := hga
    cases hfa with
    | cons h1 hrec =>
      rename_i w wl2
      obtain ⟨ws, hlook, hwmem⟩ := h1
      rw [GameState.recursiveIsSolvable, hlook]
      apply List.any_eq_true.2
      refine ⟨w, hwmem, ?_⟩
      have hwnd := hnd _ (lookup_mem hlook) w hwmem
      have hwb : ∀ s, lookupD w s ≤ lookupD pool s :=
        fun s => le_trans (member_le_usage s (List.mem_cons_self _ _)) (husage s)
      obtain ⟨pool2, hsub, hch⟩ := subtractWay_success hwnd hwb
      show (match subtractWay pool w with
        | none => false
        | some pool2 => GameState.recursiveIsSolvable ways pool2 rest) = true
      rw [hsub]
      apply ih
      refine ⟨wl2, hrec, fun s => ?_⟩
      have hu := husage s
      rw [usage_cons] at hu
      rw [hch s]
      omega

lemma pruneLoop_complete (n : Nat) :
    ∀ (ways : List (Nat × List Way)) (pool : List (Nat × Nat)) (vec : List Nat),
      ways.length ≤ n → PoolInv ways pool → PruneOK ways vec →
      GoodAssign ways pool vec →
      ProceedOK (GameState.pruneLoop ways pool vec) := by
  induction n with
  | zero =>
    intro ways pool vec hlen hinv hok hga
    have hw : ways = [] := List.eq_nil_of_length_eq_zero (by omega)
    subst hw
    rw [GameState.pruneLoop]
    exact ⟨hinv, hga⟩
  | succ n ih =>
    intro ways pool vec hlen hinv hok hga
    obtain ⟨hnd, hkv, hvk⟩ := hok
    rw [GameState.pruneLoop]
    split
    · rename_i hany
      obtain ⟨kv, hkvm, hkve⟩ := List.any_eq_true.1 hany
      obtain ⟨wl, hfa, -⟩ := hga
      have ht : kv.1 ∈ vec := hkv kv hkvm
      obtain ⟨w, hwl, ws, hlook, hwm⟩ := forall₂_mem_left hfa kv.1 ht
      have hlook2 : ways.lookup kv.1 = some kv.2 :=
        mem_lookup_of_nodup hnd (by rw [Prod.mk.eta]; exact hkvm)
      rw [hlook2] at hlook
      cases hlook
      rw [List.isEmpty_iff.1 hkve] at hwm
      exact absurd hwm (List.not_mem_nil w)
    · split
      · exact ⟨hinv, hga⟩
      · rename_i hne lw hfind
        have hlw : lw ∈ ways := List.mem_of_find?_eq_some hfind
        have hlen1 : lw.2.length = 1 := by simpa using List.find?_some hfind
        obtain ⟨W, hW⟩ := List.length_eq_one.1 hlen1
        have hWmem : W ∈ lw.2 := by
          rw [hW]
          exact List.mem_cons_self _ _
        have hhead : lw.2.headD [] = W := by
          rw [hW]
          rfl
        obtain ⟨hWnd, hWle, hWkeys⟩ := hinv lw hlw W hWmem
        have hlook2 : ways.lookup lw.1 = some [W] := by
          rw [← hW]
          exact mem_lookup_of_nodup hnd (by rw [Prod.mk.eta]; exact hlw)
        obtain ⟨wl, hfa, husage⟩ := hga
        obtain ⟨wl2, hfa2, hsub2, husage2⟩ := assign_filter hlook2 hfa
        have hWbound : ∀ e ∈ W, e.2 * ((vec.filter (fun s => s = lw.1)).length)
            ≤ lookupD pool e.1 := by
          intro e he
          have h1 : lookupD W e.1 = e.2 := by
            rw [lookupD, mem_lookup_of_nodup hWnd (by rw [Prod.mk.eta]; exact he),
              Option.getD_some]
          have h2 := husage2 e.1
          have h3 := husage e.1
          rw [h1, Nat.mul_comm] at h2
          omega
        dsimp only
        split
        · rename_i hret
          have hsome := @retainAll_isSome pool (lw.2.headD [])
            ((vec.filter (fun s => s = lw.1)).length) lw.1 ways
            (fun kv2 h2 sol h3 => (hinv kv2 h2 sol h3).2.1)
          rw [hret] at hsome
          simp at hsome
        · rename_i ways2 hret
          rw [hhead] at hret
          split
          · rename_i hcom
            have hsome := @commitPool_isSome ((vec.filter (fun s => s = lw.1)).length)
              (lw.2.headD []) pool (by rw [hhead]; exact hWkeys)
            rw [hcom] at hsome
            simp at hsome
          · rename_i hcom
            rw [hhead] at hcom
            obtain ⟨pool2, hcs⟩ :=
              @commitPool_success ((vec.filter (fun s => s = lw.1)).length) W pool
                hWbound hWkeys hWnd
            rw [hcom] at hcs
            cases hcs
          · rename_i pool2 hcom
            rw [hhead] at hcom
            obtain ⟨hch, hkeys2⟩ := commitPool_char hWnd hcom
            have hkeys := retainAll_keys hret
            have hlen2 : ways2.length = ways.length := by
              simpa using congrArg List.length hkeys
            have hmem2 : lw.1 ∈ ways2.map Prod.fst := by
              rw [hkeys]
              exact List.mem_map_of_mem Prod.fst hlw
            rcases List.mem_map.1 hmem2 with ⟨kv0, hkv0, hfst0⟩
            have hlt : (ways2.filter (fun kv => kv.1 ≠ lw.1)).length < ways2.length :=
              List.length_filter_lt_length_iff_exists.2 ⟨kv0, hkv0, by simp [hfst0]⟩
            apply ih
            · omega
            · exact poolInv_step hinv hlw hWmem hret hcom
            · refine ⟨?_, ?_, ?_⟩
              · rw [map_fst_filter_ne, hkeys]
                exact List.Nodup.filter _ hnd
              · intro kv2 hkv2
                rw [List.mem_filter] at hkv2
                have hk2 : kv2.1 ∈ ways2.map Prod.fst :=
                  List.mem_map_of_mem Prod.fst hkv2.1
                rw [hkeys] at hk2
                rcases List.mem_map.1 hk2 with ⟨kv3, hkv3, hfst3⟩
                rw [List.mem_filter]
                refine ⟨?_, hkv2.2⟩
                rw [← hfst3]
                exact hkv kv3 hkv3
              · intro t htv
                rw [List.mem_filter] at htv
                rw [map_fst_filter_ne, List.mem_filter]
                refine ⟨?_, htv.2⟩
                rw [hkeys]
                exact hvk t htv.1
            · refine ⟨wl2, ?_, ?_⟩
              · apply forall₂_imp_mem hfa2
                intro t w htf hwin hold
                obtain ⟨ws, hlws, hwmem2⟩ := hold
                have htne : t ≠ lw.1 := by
                  rw [List.mem_filter] at htf
                  exact of_decide_eq_true htf.2
                obtain ⟨ws2, hlws2, hrc⟩ := retainAll_lookup hret t htne ws hlws
                refine ⟨ws2, ?_, ?_⟩
                · rw [lookup_filter_ne htne]
                  exact hlws2
                · apply retainChecked_complete hrc w hwmem2
                  apply solutionFits_true_of_bound
                  intro e he
                  have h1 : lookupD W e.1 = e.2 := by
                    rw [lookupD, mem_lookup_of_nodup hWnd (by rw [Prod.mk.eta]; exact he),
                      Option.getD_some]
                  have h2 := husage2 e.1
                  have h3 := husage e.1
                  have h4 := member_le_usage e.1 hwin
                  rw [h1, Nat.mul_comm] at h2
                  omega
              · intro s
                have h2 := husage2 s
                have h3 := husage s
                rw [hch s]
                rw [Nat.mul_comm ((vec.filter (fun t => t = lw.1)).length) (lookupD W s)] at h2
                omega


/-! ## The solved-state partition and its encodings as ways (C4) -/

lemma solved_color_filter_sum (g : GameState)
    (hcl : ∀ c ∈ g.fluid_containers, emptyRep c ∨ ∃ j, fullPos j c) (id : Nat) :
    totalColorCount g id
      = ((g.fluid_containers.filter (fun c => decide (fullPos id c))).map
          (fun c => c.get_capacity)).sum := by
  rw [totalColorCount, sum_map_eq_filter_sum _ _ (fun c => c.get_capacity)
    (fun c => decide (fullPos id c)) (fun c hc => countColor_of_classified id (hcl c hc))]

lemma solved_empty_filter_sum (g : GameState)
    (hcl : ∀ c ∈ g.fluid_containers, emptyRep c ∨ ∃ j, fullPos j c) :
    g.get_empty_spaces_count
      = ((g.fluid_containers.filter (fun c => decide (emptyRepPos c))).map
          (fun c => c.get_capacity)).sum := by
  rw [GameState.get_empty_spaces_count, sum_map_eq_filter_sum _ _ (fun c => c.get_capacity)
    (fun c => decide (emptyRepPos c)) (fun c hc => empty_space_of_classified (hcl c hc))]

lemma tally_lookupD_count (ids : List Nat) (k : Nat) :
    lookupD (tallyNat ids) k = ids.count k := by
  have h := foldl_bump_lookupD ids [] k
  rw [tallyNat]
  simpa [lookupD] using h

lemma count_caps_filter (G : List FluidContainer) (s : Nat) :
    (G.map (fun c => c.get_capacity)).count s
      = (G.filter (fun c => c.get_capacity == s)).length := by
  rw [List.count_eq_countP, List.countP_map, ← List.countP_eq_length_filter]
  apply List.countP_congr
  intro c _
  rfl

lemma mem_tally_keys {ids : List Nat} {k : Nat} (h : k ∈ ids) :
    k ∈ (tallyNat ids).map Prod.fst :=
  List.mem_map.2 ⟨(k, ids.count k), tally_mem_count h, rfl⟩

lemma wayOf_keys (csv : List (Nat × Nat)) (l : List FluidContainer)
    (p : FluidContainer → Bool) :
    (wayOf csv l p).map Prod.fst = csv.map Prod.fst := by
  rw [wayOf, List.map_map]
  apply List.map_congr_left
  intro e _
  rfl

lemma waySum_map (csv : List (Nat × Nat)) (F : Nat × Nat → Nat) :
    waySum (csv.map (fun e => (e.1, F e))) = (csv.map (fun e => e.1 * F e)).sum := by
  rw [waySum, List.map_map]
  congr 1

lemma lookupD_wayOf {csv : List (Nat × Nat)} {l : List FluidContainer}
    {p : FluidContainer → Bool} {s : Nat} (hnd : (csv.map Prod.fst).Nodup) :
    lookupD (wayOf csv l p) s
      = if s ∈ csv.map Prod.fst
        then (l.filter (fun c => p c && (c.get_capacity == s))).length else 0 := by
  by_cases hs : s ∈ csv.map Prod.fst
  · rw [if_pos hs]
    rcases List.mem_map.1 hs with ⟨e, he, hfe⟩
    have hmem : (s, (l.filter (fun c => p c && (c.get_capacity == s))).length)
        ∈ wayOf csv l p := by
      rw [wayOf]
      refine List.mem_map.2 ⟨e, he, ?_⟩
      rw [show e.1 = s from hfe]
    rw [lookupD, mem_lookup_of_nodup (by rw [wayOf_keys]; exact hnd) hmem, Option.getD_some]
  · rw [if_neg hs, lookupD, lookup_eq_none_iff.2 (by rw [wayOf_keys]; exact hs),
      Option.getD_none]

lemma sum_indicator_count (j : Nat) :
    ∀ (ids : List Nat), (ids.map (fun id => if id = j then 1 else 0)).sum = ids.count j := by
  intro ids
  induction ids with
  | nil => rfl
  | cons a rest ih =>
    rw [List.map_cons, List.sum_cons, ih]
    by_cases ha : a = j
    · rw [if_pos ha, ha, List.count_cons_self]
      omega
    · rw [if_neg ha, List.count_cons_of_ne (fun he => ha he.symm)]
      omega

lemma sum_key_indicator :
    ∀ {csv : List (Nat × Nat)} {k : Nat}, (csv.map Prod.fst).Nodup →
      k ∈ csv.map Prod.fst →
      (csv.map (fun e => e.1 * (if (k == e.1) then 1 else 0))).sum = k := by
  intro csv
  induction csv with
  | nil =>
    intro k _ hm
    cases hm
  | cons e rest ih =>
    intro k hnd hm
    obtain ⟨s0, c0⟩ := e
    rw [List.map_cons, List.nodup_cons] at hnd
    rw [List.map_cons, List.mem_cons] at hm
    rw [List.map_cons, List.sum_cons]
    rcases hm with rfl | hmr
    · have hz : (rest.map (fun e2 => e2.1 * (if (k == e2.1) then 1 else 0))).sum = 0 := by
        apply List.sum_eq_zero
        intro x hx
        rcases List.mem_map.1 hx with ⟨e2, he2, rfl⟩
        rw [if_neg, Nat.mul_zero]
        intro hbeq
        rw [beq_iff_eq] at hbeq
        exact hnd.1 (List.mem_map.2 ⟨e2, he2, hbeq.symm⟩)
      rw [hz, if_pos (beq_self_eq_true k)]
      show k * 1 + 0 = k
      omega
    · have hks : ((k == s0) : Bool) = false := by
        rw [beq_eq_false_iff_ne]
        intro he
        rw [he] at hmr
        exact hnd.1 hmr
      rw [show (if ((k == s0) : Bool) then (1 : Nat) else 0) = 0 from by rw [hks]; rfl]
      rw [Nat.mul_zero, Nat.zero_add]
      exact ih hnd.2 hmr

lemma waySum_wayOf {csv : List (Nat × Nat)} (hnd : (csv.map Prod.fst).Nodup) :
    ∀ (l : List FluidContainer) (p : FluidContainer → Bool),
      (∀ c ∈ l, p c = true → c.get_capacity ∈ csv.map Prod.fst) →
      waySum (wayOf csv l p) = ((l.filter p).map (fun c => c.get_capacity)).sum := by
  intro l
  induction l with
  | nil =>
    intro p _
    rw [wayOf, waySum_map, List.filter_nil, List.map_nil, List.sum_nil]
    apply List.sum_eq_zero
    intro x hx
    rcases List.mem_map.1 hx with ⟨e, he, rfl⟩
    rw [List.filter_nil, List.length_nil, Nat.mul_zero]
  | cons c l ih =>
    intro p hcov
    rw [wayOf, waySum_map]
    by_cases hp : p c = true
    · have hsplit : csv.map (fun e => e.1 * (List.filter
            (fun c2 => p c2 && (c2.get_capacity == e.1)) (c :: l)).length)
          = csv.map (fun e => e.1 * (List.filter
              (fun c2 => p c2 && (c2.get_capacity == e.1)) l).length
            + e.1 * (if (c.get_capacity == e.1) then 1 else 0)) := by
        apply List.map_congr_left
        intro e _
        by_cases hcap : (c.get_capacity == e.1) = true
        · rw [List.filter_cons_of_pos (by rw [hp, hcap]; rfl), List.length_cons, if_pos hcap,
            Nat.mul_succ, Nat.mul_one]
        · rw [List.filter_cons_of_neg (by simp [hcap]), if_neg hcap, Nat.mul_zero,
            Nat.add_zero]
      rw [hsplit, List.sum_map_add, List.filter_cons_of_pos hp, List.map_cons, List.sum_cons]
      have hihs : (csv.map (fun e => e.1 * (List.filter
            (fun c2 => p c2 && (c2.get_capacity == e.1)) l).length)).sum
          = (List.map (fun c => c.get_capacity) (List.filter p l)).sum := by
        rw [← ih p (fun c2 h2 hp2 => hcov c2 (List.mem_cons_of_mem _ h2) hp2), wayOf,
          waySum_map]
      rw [hihs,
        show (csv.map (fun e => e.1 * (if (c.get_capacity == e.1) then 1 else 0))).sum
          = c.get_capacity from sum_key_indicator hnd (hcov c (List.mem_cons_self _ _) hp)]
      omega
    · have hskip : csv.map (fun e => e.1 * (List.filter
            (fun c2 => p c2 && (c2.get_capacity == e.1)) (c :: l)).length)
          = csv.map (fun e => e.1 * (List.filter
              (fun c2 => p c2 && (c2.get_capacity == e.1)) l).length) := by
        apply List.map_congr_left
        intro e _
        rw [List.filter_cons_of_neg (by simp [hp])]
      rw [hskip, List.filter_cons_of_neg (by simp [hp]),
        ← ih p (fun c2 h2 hp2 => hcov c2 (List.mem_cons_of_mem _ h2) hp2), wayOf, waySum_map]

lemma usage_disjoint_bound (s : Nat) :
    ∀ (G : List FluidContainer), (∀ c ∈ G, emptyRep c ∨ ∃ j, fullPos j c) →
      ∀ (ids : List Nat), ids.Nodup →
      ((ids.map (fun id => (G.filter (fun c => decide (fullPos id c)
            && (c.get_capacity == s))).length)).sum
          + (G.filter (fun c => decide (emptyRepPos c) && (c.get_capacity == s))).length)
        ≤ (G.filter (fun c => c.get_capacity == s)).length := by
  intro G
  induction G with
  | nil =>
    intro _ ids _
    simp
  | cons c G ih =>
    intro hcl ids hnd
    have ihG := ih (fun c2 h2 => hcl c2 (List.mem_cons_of_mem _ h2)) ids hnd
    by_cases hcap : (c.get_capacity == s) = true
    · rw [@List.filter_cons_of_pos _ (fun c2 => c2.get_capacity == s) c G hcap,
        List.length_cons]
      have hmapsplit : ids.map (fun id => (List.filter (fun c2 => decide (fullPos id c2)
            && (c2.get_capacity == s)) (c :: G)).length)
          = ids.map (fun id => (List.filter (fun c2 => decide (fullPos id c2)
              && (c2.get_capacity == s)) G).length
            + (if decide (fullPos id c) then 1 else 0)) := by
        apply List.map_congr_left
        intro id _
        by_cases hf : decide (fullPos id c) = true
        · rw [List.filter_cons_of_pos (by rw [hf, hcap]; rfl), List.length_cons, if_pos hf]
        · rw [List.filter_cons_of_neg (by simp [hf]), if_neg hf]
          omega
      have hesplit : (List.filter (fun c2 => decide (emptyRepPos c2)
            && (c2.get_capacity == s)) (c :: G)).length
          = (List.filter (fun c2 => decide (emptyRepPos c2)
              && (c2.get_capacity == s)) G).length
            + (if decide (emptyRepPos c) then 1 else 0) := by
        by_cases hd : decide (emptyRepPos c) = true
        · rw [List.filter_cons_of_pos (by rw [hd, hcap]; rfl), List.length_cons, if_pos hd]
        · rw [List.filter_cons_of_neg (by simp [hd]), if_neg hd]
          omega
      have hind : (ids.map (fun id => if decide (fullPos id c) then 1 else 0)).sum
          + (if decide (emptyRepPos c) then 1 else 0) ≤ 1 := by
        rcases hcl c (List.mem_cons_self _ _) with he | ⟨j, hj⟩
        · have hzs : (ids.map (fun id => if decide (fullPos id c) then 1 else 0)).sum = 0 := by
            apply List.sum_eq_zero
            intro x hx
            rcases List.mem_map.1 hx with ⟨id, _, rfl⟩
            rw [if_neg]
            simp only [decide_eq_true_eq]
            intro hf
            exact replicate_empty_ne_fluid hf.2 (he.symm.trans hf.1)
          rw [hzs, Nat.zero_add]
          by_cases hd : decide (emptyRepPos c) = true
          · rw [if_pos hd]
          · rw [if_neg hd]
            omega
        · have hne : (if decide (emptyRepPos c) then (1 : Nat) else 0) = 0 := by
            rw [if_neg]
            simp only [decide_eq_true_eq]
            intro hE
            exact replicate_empty_ne_fluid hj.2 (hE.1.symm.trans hj.1)
          rw [hne, Nat.add_zero]
          have hiff : ∀ id, decide (fullPos id c) = true ↔ id = j := by
            intro id
            simp only [decide_eq_true_eq]
            constructor
            · intro hf
              have h2 := hj.1.symm.trans hf.1
              have hpos := hj.2
              cases hcap2 : c.capacity with
              | zero => rw [hcap2] at hpos; omega
              | succ m =>
                rw [hcap2, List.replicate_succ, List.replicate_succ] at h2
                cases h2
                rfl
            · intro hid
              rw [hid]
              exact hj
          have hmapc : ids.map (fun id => if decide (fullPos id c) then (1 : Nat) else 0)
              = ids.map (fun id => if id = j then 1 else 0) := by
            apply List.map_congr_left
            intro id _
            by_cases hd : id = j
            · rw [if_pos ((hiff id).2 hd), if_pos hd]
            · rw [if_neg (fun hq => hd ((hiff id).1 hq)), if_neg hd]
          rw [hmapc, sum_indicator_count]
          exact List.nodup_iff_count_le_one.1 hnd j
      rw [hmapsplit, List.sum_map_add, hesplit]
      omega
    · have hmapskip : ids.map (fun id => (List.filter (fun c2 => decide (fullPos id c2)
            && (c2.get_capacity == s)) (c :: G)).length)
          = ids.map (fun id => (List.filter (fun c2 => decide (fullPos id c2)
              && (c2.get_capacity == s)) G).length) := by
        apply List.map_congr_left
        intro id _
        rw [List.filter_cons_of_neg (by simp [hcap])]
      rw [hmapskip, List.filter_cons_of_neg (by simp [hcap]),
        List.filter_cons_of_neg (by simp [hcap])]
      exact ihG

lemma lookup_map_build (F : Nat → List Way) :
    ∀ (targets : List Nat) (t : Nat), t ∈ targets →
      (targets.map (fun t => (t, F t))).lookup t = some (F t) := by
  intro targets
  induction targets with
  | nil =>
    intro t ht
    cases ht
  | cons a rest ih =>
    intro t ht
    rw [List.map_cons, lookup_cons_pair]
    by_cases hat : a = t
    · rw [if_pos hat, hat]
    · rw [if_neg hat]
      rcases List.mem_cons.1 ht with rfl | hm
      · exact absurd rfl hat
      · exact ih t hm

/-! ## C4: a shuffled solved state passes the exact stage -/

lemma liquidSizeVecFinal_eq (g : GameState) :
    g.liquidSizeVecFinal
      = if g.liquidSizeVecBase.foldr max 0 > g.get_empty_spaces_count
        then g.liquidSizeVecBase ++ [g.get_empty_spaces_count]
        else g.liquidSizeVecBase := rfl

lemma forall₂_map_pair {α β γ : Type} {R : β → γ → Prop} (f : α → β) (g0 : α → γ) :
    ∀ {l : List α}, (∀ a ∈ l, R (f a) (g0 a)) → List.Forall₂ R (l.map f) (l.map g0) := by
  intro l
  induction l with
  | nil => intro _; exact List.Forall₂.nil
  | cons a rest ih =>
    intro hh
    exact List.Forall₂.cons (hh a (List.mem_cons_self _ _))
      (ih (fun b hb => hh b (List.mem_cons_of_mem _ hb)))

lemma wayOf_shape {csv : List (Nat × Nat)} {G : List FluidContainer}
    (hcount : ∀ e ∈ csv, e.2 = (G.map (fun c => c.get_capacity)).count e.1)
    (p : FluidContainer → Bool) :
    List.Forall₂ (fun (e c : Nat × Nat) => e.1 = c.1 ∧ e.2 ≤ c.2) (wayOf csv G p) csv := by
  rw [wayOf]
  apply forall₂_map_left
  intro e he
  refine ⟨rfl, ?_⟩
  show (G.filter (fun c => p c && (c.get_capacity == e.1))).length ≤ e.2
  rw [hcount e he, count_caps_filter, ← List.countP_eq_length_filter,
    ← List.countP_eq_length_filter]
  apply List.countP_mono_left
  intro c _ hpc
  rw [Bool.and_eq_true] at hpc
  exact hpc.2

lemma wayOf_in_ways (h : GameState) (G : List FluidContainer)
    (hcount : ∀ e ∈ h.csvSorted, e.2 = (G.map (fun c => c.get_capacity)).count e.1)
    (hcsvne : h.csvSorted ≠ [])
    (p : FluidContainer → Bool) (t : Nat) (ht : t ∈ h.liquidSizeVecFinal)
    (hws : waySum (wayOf h.csvSorted G p) = t) :
    ∃ ws, ((h.liquidSizeVecFinal.dedup).map (fun u =>
        (u, ((enumGo (h.liquidSizeVecFinal.dedup.foldr max 0)
          h.liquidSizeVecFinal.dedup h.csvSorted 0 []).filter
            (fun sw => sw.1 = u)).map (fun sw => sw.2)))).lookup t = some ws
      ∧ wayOf h.csvSorted G p ∈ ws := by
  have htd : t ∈ h.liquidSizeVecFinal.dedup := List.mem_dedup.2 ht
  refine ⟨_, lookup_map_build _ _ t htd, ?_⟩
  have hfa := wayOf_shape hcount p
  have hle : 0 + waySum (wayOf h.csvSorted G p)
      ≤ h.liquidSizeVecFinal.dedup.foldr max 0 := by
    rw [Nat.zero_add, hws]
    exact le_foldr_max htd
  have hmem : (0 + waySum (wayOf h.csvSorted G p)) ∈ h.liquidSizeVecFinal.dedup := by
    rw [Nat.zero_add, hws]
    exact htd
  have h1 := @enumGo_complete (h.liquidSizeVecFinal.dedup.foldr max 0)
    h.liquidSizeVecFinal.dedup h.csvSorted 0 [] (wayOf h.csvSorted G p)
    hcsvne hfa hle hmem
  rw [Nat.zero_add, List.nil_append] at h1
  apply List.mem_map.2
  refine ⟨(t, wayOf h.csvSorted G p), ?_, rfl⟩
  apply List.mem_filter.2
  refine ⟨?_, by simp⟩
  rw [← hws]
  exact h1

lemma usage_wl1_bound (csv : List (Nat × Nat)) (G : List FluidContainer)
    (gacc : List (Nat × Nat))
    (hnd : (csv.map Prod.fst).Nodup)
    (hgnd : (gacc.map Prod.fst).Nodup)
    (hcl : ∀ c ∈ G, emptyRep c ∨ ∃ j, fullPos j c)
    (s : Nat) :
    usage (gacc.map (fun cc => wayOf csv G (fun c => decide (fullPos cc.1 c)))) s
        + lookupD (wayOf csv G (fun c => decide (emptyRepPos c))) s
      ≤ (G.filter (fun c => c.get_capacity == s)).length := by
  by_cases hsk : s ∈ csv.map Prod.fst
  · have hu1 : usage (gacc.map (fun cc => wayOf csv G (fun c => decide (fullPos cc.1 c)))) s
        = ((gacc.map Prod.fst).map (fun id => (G.filter (fun c => decide (fullPos id c)
            && (c.get_capacity == s))).length)).sum := by
      rw [usage, List.map_map, List.map_map]
      congr 1
      apply List.map_congr_left
      intro cc _
      show lookupD (wayOf csv G (fun c => decide (fullPos cc.1 c))) s
        = (G.filter (fun c => decide (fullPos cc.1 c) && (c.get_capacity == s))).length
      rw [lookupD_wayOf hnd, if_pos hsk]
    have hu2 : lookupD (wayOf csv G (fun c => decide (emptyRepPos c))) s
        = (G.filter (fun c => decide (emptyRepPos c) && (c.get_capacity == s))).length := by
      rw [lookupD_wayOf hnd, if_pos hsk]
    rw [hu1, hu2]
    exact usage_disjoint_bound s G hcl (gacc.map Prod.fst) hgnd
  · have hu1 : usage (gacc.map (fun cc => wayOf csv G (fun c => decide (fullPos cc.1 c)))) s
        = 0 := by
      rw [usage]
      apply List.sum_eq_zero
      intro x hx
      rw [List.map_map] at hx
      rcases List.mem_map.1 hx with ⟨cc, _, rfl⟩
      show lookupD (wayOf csv G (fun c => decide (fullPos cc.1 c))) s = 0
      rw [lookupD_wayOf hnd, if_neg hsk]
    have hu2 : lookupD (wayOf csv G (fun c => decide (emptyRepPos c))) s = 0 := by
      rw [lookupD_wayOf hnd, if_neg hsk]
    rw [hu1, hu2]
    exact Nat.zero_le _

lemma good_assign_solved (h : GameState) (G : List FluidContainer)
    (Wmap : List (Nat × List Way))
    (hlook : ∀ (p : FluidContainer → Bool) (t : Nat), t ∈ h.liquidSizeVecFinal →
      waySum (wayOf h.csvSorted G p) = t →
      ∃ ws, Wmap.lookup t = some ws ∧ wayOf h.csvSorted G p ∈ ws)
    (hcl : ∀ c ∈ G, emptyRep c ∨ ∃ j, fullPos j c)
    (hcaps : h.fluid_containers.map (fun c => c.get_capacity)
      = G.map (fun c => c.get_capacity))
    (hbase : ∀ cc ∈ h.get_available_colors_with_count,
      cc.2 = ((G.filter (fun c => decide (fullPos cc.1 c))).map
        (fun c => c.get_capacity)).sum)
    (hempV : h.get_empty_spaces_count
      = ((G.filter (fun c => decide (emptyRepPos c))).map
        (fun c => c.get_capacity)).sum) :
    GoodAssign Wmap h.containerSizeTally h.liquidSizeVecFinal := by
  have hcsvnd := csv_keys_nodup h
  have hkeymem : ∀ c ∈ G, c.get_capacity ∈ (h.csvSorted).map Prod.fst := by
    intro c hc
    have h1 : c.get_capacity ∈ G.map (fun c => c.get_capacity) :=
      List.mem_map.2 ⟨c, hc, rfl⟩
    rw [← hcaps] at h1
    exact (((csv_perm h).map Prod.fst).mem_iff).2 (mem_tally_keys h1)
  have hgnd : ((h.get_available_colors_with_count).map Prod.fst).Nodup := by
    rw [gacc_eq_tally]
    exact tally_keys_nodup _
  have hpool : ∀ s, lookupD h.containerSizeTally s
      = (G.filter (fun c => c.get_capacity == s)).length := by
    intro s
    rw [GameState.containerSizeTally, tally_lookupD_count, hcaps, count_caps_filter]
  have hbound := fun s => usage_wl1_bound h.csvSorted G h.get_available_colors_with_count
    hcsvnd hgnd hcl s
  have hbasevec : ∀ x ∈ h.liquidSizeVecBase, x ∈ h.liquidSizeVecFinal := by
    intro x hx
    rw [liquidSizeVecFinal_eq]
    by_cases hp : h.liquidSizeVecBase.foldr max 0 > h.get_empty_spaces_count
    · rw [if_pos hp]
      exact List.mem_append_left _ hx
    · rw [if_neg hp]
      exact hx
  have hfa1 : List.Forall₂ (fun t w => ∃ ws, Wmap.lookup t = some ws ∧ w ∈ ws)
      h.liquidSizeVecBase
      ((h.get_available_colors_with_count).map
        (fun cc => wayOf h.csvSorted G (fun c => decide (fullPos cc.1 c)))) := by
    rw [GameState.liquidSizeVecBase]
    apply forall₂_map_pair
    intro cc hcc
    have hws : waySum (wayOf h.csvSorted G (fun c => decide (fullPos cc.1 c))) = cc.2 := by
      rw [waySum_wayOf hcsvnd G _ (fun c hc _ => hkeymem c hc)]
      exact (hbase cc hcc).symm
    have htv : cc.2 ∈ h.liquidSizeVecFinal := by
      apply hbasevec
      rw [GameState.liquidSizeVecBase]
      exact List.mem_map.2 ⟨cc, hcc, rfl⟩
    exact hlook _ _ htv hws
  by_cases hp : h.liquidSizeVecBase.foldr max 0 > h.get_empty_spaces_count
  · have hveq : h.liquidSizeVecFinal
        = h.liquidSizeVecBase ++ [h.get_empty_spaces_count] := by
      rw [liquidSizeVecFinal_eq, if_pos hp]
    have hwsE : waySum (wayOf h.csvSorted G (fun c => decide (emptyRepPos c)))
        = h.get_empty_spaces_count := by
      rw [waySum_wayOf hcsvnd G _ (fun c hc _ => hkeymem c hc)]
      exact hempV.symm
    have hE : h.get_empty_spaces_count ∈ h.liquidSizeVecFinal := by
      rw [hveq]
      exact List.mem_append_right _ (List.mem_singleton_self _)
    obtain ⟨wsE, hlE, hmE⟩ := hlook _ _ hE hwsE
    refine ⟨(h.get_available_colors_with_count).map
        (fun cc => wayOf h.csvSorted G (fun c => decide (fullPos cc.1 c)))
      ++ [wayOf h.csvSorted G (fun c => decide (emptyRepPos c))], ?_, ?_⟩
    · rw [hveq]
      exact forall₂_append_my hfa1
        (List.Forall₂.cons ⟨wsE, hlE, hmE⟩ List.Forall₂.nil)
    · intro s
      rw [usage_append, usage_cons, hpool s]
      have h0 : usage ([] : List Way) s = 0 := rfl
      rw [h0]
      have hb := hbound s
      omega
  · have hveq : h.liquidSizeVecFinal = h.liquidSizeVecBase := by
      rw [liquidSizeVecFinal_eq, if_neg hp]
    refine ⟨(h.get_available_colors_with_count).map
        (fun cc => wayOf h.csvSorted G (fun c => decide (fullPos cc.1 c))), ?_, ?_⟩
    · rw [hveq]
      exact hfa1
    · intro s
      rw [hpool s]
      have hb := hbound s
      omega

lemma exact_stage_true (h : GameState) (G : List FluidContainer)
    (hcl : ∀ c ∈ G, emptyRep c ∨ ∃ j, fullPos j c)
    (hcaps : h.fluid_containers.map (fun c => c.get_capacity)
      = G.map (fun c => c.get_capacity))
    (hbase : ∀ cc ∈ h.get_available_colors_with_count,
      cc.2 = ((G.filter (fun c => decide (fullPos cc.1 c))).map
        (fun c => c.get_capacity)).sum)
    (hempV : h.get_empty_spaces_count
      = ((G.filter (fun c => decide (emptyRepPos c))).map
        (fun c => c.get_capacity)).sum)
    (hf : h.fast_is_maybe_solvable = none) :
    h.is_solvable = some true := by
  have hsolved : h.is_solved = false := by
    cases hS : h.is_solved with
    | false => rfl
    | true =>
      rw [GameState.fast_is_maybe_solvable, if_pos hS] at hf
      exact Option.noConfusion hf
  have hHne : h.fluid_containers ≠ [] := by
    intro h0
    rw [GameState.is_solved, h0, List.all_nil] at hsolved
    exact Bool.noConfusion hsolved
  have hcsvne : h.csvSorted ≠ [] := by
    intro h0
    obtain ⟨c0, hc0⟩ := List.exists_mem_of_ne_nil _ hHne
    have h1 : c0.get_capacity ∈ h.fluid_containers.map (fun c => c.get_capacity) :=
      List.mem_map.2 ⟨c0, hc0, rfl⟩
    have h3 := (((csv_perm h).map Prod.fst).mem_iff).2 (mem_tally_keys h1)
    rw [h0] at h3
    simp at h3
  have hcount : ∀ e ∈ h.csvSorted, e.2 = (G.map (fun c => c.get_capacity)).count e.1 := by
    intro e he
    obtain ⟨k, v⟩ := e
    have h1 : (k, v) ∈ h.containerSizeTally := (csv_perm h).mem_iff.1 he
    have h2 : v = (h.fluid_containers.map (fun c => c.get_capacity)).count k :=
      tally_count_of_mem h1
    rw [hcaps] at h2
    exact h2
  have hga : GoodAssign ((h.liquidSizeVecFinal.dedup).map (fun t =>
        (t, ((enumGo (h.liquidSizeVecFinal.dedup.foldr max 0)
          h.liquidSizeVecFinal.dedup h.csvSorted 0 []).filter
            (fun sw => sw.1 = t)).map (fun sw => sw.2))))
      h.containerSizeTally h.liquidSizeVecFinal :=
    good_assign_solved h G _
      (fun p t ht hws => wayOf_in_ways h G hcount hcsvne p t ht hws)
      hcl hcaps hbase hempV
  have hinv : PoolInv ((h.liquidSizeVecFinal.dedup).map (fun t =>
        (t, ((enumGo (h.liquidSizeVecFinal.dedup.foldr max 0)
          h.liquidSizeVecFinal.dedup h.csvSorted 0 []).filter
            (fun sw => sw.1 = t)).map (fun sw => sw.2))))
      h.containerSizeTally := ways_init_poolInv h _ _
  have hkeys : (((h.liquidSizeVecFinal.dedup).map (fun t =>
        (t, ((enumGo (h.liquidSizeVecFinal.dedup.foldr max 0)
          h.liquidSizeVecFinal.dedup h.csvSorted 0 []).filter
            (fun sw => sw.1 = t)).map (fun sw => sw.2)))).map Prod.fst)
      = h.liquidSizeVecFinal.dedup := by
    rw [List.map_map]
    exact List.map_id _
  have hok : PruneOK ((h.liquidSizeVecFinal.dedup).map (fun t =>
        (t, ((enumGo (h.liquidSizeVecFinal.dedup.foldr max 0)
          h.liquidSizeVecFinal.dedup h.csvSorted 0 []).filter
            (fun sw => sw.1 = t)).map (fun sw => sw.2))))
      h.liquidSizeVecFinal := by
    refine ⟨?_, ?_, ?_⟩
    · rw [hkeys]
      exact List.nodup_dedup _
    · intro kv hkv
      rcases List.mem_map.1 hkv with ⟨t, ht, rfl⟩
      exact List.mem_dedup.1 ht
    · intro t ht
      rw [hkeys]
      exact List.mem_dedup.2 ht
  have hpo : ProceedOK (GameState.pruneLoop
      ((h.liquidSizeVecFinal.dedup).map (fun t =>
        (t, ((enumGo (h.liquidSizeVecFinal.dedup.foldr max 0)
          h.liquidSizeVecFinal.dedup h.csvSorted 0 []).filter
            (fun sw => sw.1 = t)).map (fun sw => sw.2))))
      h.containerSizeTally h.liquidSizeVecFinal) :=
    pruneLoop_complete _ _ _ _ (le_refl _) hinv hok hga
  rw [is_solvable_eq, hf]
  cases hpl : GameState.pruneLoop
      ((h.liquidSizeVecFinal.dedup).map (fun t =>
        (t, ((enumGo (h.liquidSizeVecFinal.dedup.foldr max 0)
          h.liquidSizeVecFinal.dedup h.csvSorted 0 []).filter
            (fun sw => sw.1 = t)).map (fun sw => sw.2))))
      h.containerSizeTally h.liquidSizeVecFinal with
  | none =>
    rw [hpl] at hpo
    exact False.elim hpo
  | some pr =>
    cases pr with
    | unsolv =>
      rw [hpl] at hpo
      exact False.elim hpo
    | proceed w2 p2 v2 =>
      rw [hpl] at hpo
      obtain ⟨hinv2, hga2⟩ := hpo
      show some (GameState.recursiveIsSolvable w2 p2 v2) = some true
      exact congrArg some (recursive_complete
        (fun kv hkv sol hsol => (hinv2 kv hkv sol hsol).1) v2 p2 hga2)

/-- C4: for every solved starting state (well-formed containers, each empty
or uniformly filled to capacity with one color) and every sequence of random
choices inside `shuffle`, the shuffled state satisfies
`is_solvable = some true`. -/
theorem shuffle_solvable (g : GameState) (oracle : Nat → Nat)
    (hwf : ∀ c ∈ g.fluid_containers, WF c)
    (hs : g.is_solved = true) :
    (g.shuffle oracle).is_solvable = some true := by
  obtain ⟨hcaps0, hcols0, hemp0⟩ := shuffleGo_preserves oracle 1000 0 g
  have hcaps : (g.shuffle oracle).fluid_containers.map (fun c => c.get_capacity)
      = g.fluid_containers.map (fun c => c.get_capacity) := hcaps0
  have hcols : ∀ id, totalColorCount (g.shuffle oracle) id = totalColorCount g id := hcols0
  have hemp : (g.shuffle oracle).get_empty_spaces_count = g.get_empty_spaces_count := hemp0
  have hcl : ∀ c ∈ g.fluid_containers, emptyRep c ∨ ∃ j, fullPos j c :=
    fun c hc => solved_container_classify (hwf c hc) (List.all_eq_true.1 hs c hc)
  have hbase : ∀ cc ∈ (g.shuffle oracle).get_available_colors_with_count,
      cc.2 = ((g.fluid_containers.filter (fun c => decide (fullPos cc.1 c))).map
        (fun c => c.get_capacity)).sum := by
    intro cc hcc
    obtain ⟨k, v⟩ := cc
    have h1 : (k, v) ∈ tallyNat (stateColorIds (g.shuffle oracle)) := by
      rw [← gacc_eq_tally]
      exact hcc
    have h2 : v = (stateColorIds (g.shuffle oracle)).count k := tally_count_of_mem h1
    show v = _
    rw [h2, count_stateColorIds, hcols k, solved_color_filter_sum g hcl k]
  have hempV : (g.shuffle oracle).get_empty_spaces_count
      = ((g.fluid_containers.filter (fun c => decide (emptyRepPos c))).map
        (fun c => c.get_capacity)).sum := by
    rw [hemp, solved_empty_filter_sum g hcl]
  have hsums := solved_sums g hwf hs
  have hfu : (g.shuffle oracle).fast_is_definitely_unsolvable = false := by
    have hA : ¬ ((((g.shuffle oracle).get_available_colors_with_count).map
        (fun cc => cc.2)).any (fun cnt => decide (cnt ∉ reachableSizes
          ((g.shuffle oracle).fluid_containers.map (fun c => c.get_capacity)))) = true) := by
      intro hany
      obtain ⟨cnt, hmemc, hdec⟩ := List.any_eq_true.1 hany
      rw [decide_eq_true_eq] at hdec
      rcases List.mem_map.1 hmemc with ⟨cc, hcc, heq⟩
      have heq2 : cc.2 = cnt := heq
      apply hdec
      rw [← heq2, hbase cc hcc, hcaps, reachable_iff_subsetSum]
      exact ⟨_, (List.filter_sublist _).map _, rfl⟩
    have hB : ¬ ((g.shuffle oracle).get_empty_spaces_count ∉ reachableSizes
        ((g.shuffle oracle).fluid_containers.map (fun c => c.get_capacity))) := by
      intro hn
      apply hn
      rw [hcaps, hemp, reachable_iff_subsetSum]
      exact hsums.2
    rw [show (g.shuffle oracle).fast_is_definitely_unsolvable
        = (if (((g.shuffle oracle).get_available_colors_with_count).map
              (fun cc => cc.2)).any (fun cnt => decide (cnt ∉ reachableSizes
                ((g.shuffle oracle).fluid_containers.map (fun c => c.get_capacity))))
            then true
          else if (g.shuffle oracle).get_empty_spaces_count ∉ reachableSizes
              ((g.shuffle oracle).fluid_containers.map (fun c => c.get_capacity))
            then true
          else false) from rfl]
    rw [if_neg hA, if_neg hB]
  cases hf : (g.shuffle oracle).fast_is_maybe_solvable with
  | some r =>
    have hf0 := hf
    have hr : r = true := by
      rw [GameState.fast_is_maybe_solvable, hfu] at hf
      by_cases h1 : (g.shuffle oracle).is_solved = true
      · rw [if_pos h1] at hf
        exact (Option.some.inj hf).symm
      · rw [if_neg h1, if_neg Bool.false_ne_true] at hf
        by_cases h2 : (g.shuffle oracle).get_container_sizes.dedup.length = 1
        · rw [if_pos h2] at hf
          exact (Option.some.inj hf).symm
        · rw [if_neg h2] at hf
          by_cases h3 : (g.shuffle oracle).fast_is_definitely_solvable = true
          · rw [if_pos h3] at hf
            exact (Option.some.inj hf).symm
          · rw [if_neg h3] at hf
            exact Option.noConfusion hf
    rw [is_solvable_eq, hf0, hr]
  | none =>
    exact exact_stage_true (g.shuffle oracle) g.fluid_containers hcl hcaps hbase hempV hf

/-- Witness for `shuffle_solvable`: a single capacity-1 container full of
color 0 is solved and well-formed; with the constant-zero oracle the
shuffled state is reported solvable. -/
theorem shuffle_solvable_witness :
    (GameState.shuffle ⟨[⟨[FluidPacket.Fluid 0], 1⟩]⟩ (fun _ => 0)).is_solvable
      = some true :=
  shuffle_solvable ⟨[⟨[FluidPacket.Fluid 0], 1⟩]⟩ (fun _ => 0) (by decide) (by decide)

end WaterSort
